import Mathlib

/-!
# revcomp: reverse complement of nucleotide sequences

A shallow embedding of `revcomp.go`.  Go strings are byte strings, modelled as lists of
byte values.  Standard output is modelled as the list of strings handed to `fmt.Println`
(each call writes its argument followed by a newline).  What `strings.ToUpper` and
`strings.TrimSpace` do with a string that holds a non-ASCII byte is a parameter `Unicode` of
the program; `Unicode.std` is that part of the Go standard library.
-/

set_option autoImplicit false

namespace Revcomp

/-- A Go `string`: a sequence of bytes. -/
abbrev GoString := List Nat

/-- The bytes of a string literal (its UTF-8 encoding, as Go stores literals). -/
def str (s : String) : GoString :=
  s.toList.flatMap (fun c => (String.utf8EncodeChar c).map UInt8.toNat)

/-- The parts of the Go standard library that `strings.ToUpper` and `strings.TrimSpace`
hand over to once they meet a byte `>= utf8.RuneSelf`; they are library code outside the
repository and are taken as parameters. -/
structure Unicode where
  /-- `strings.Map(unicode.ToUpper, s)` -/
  mapToUpper : GoString → GoString
  /-- `strings.TrimFunc(s, unicode.IsSpace)` -/
  trimFunc : GoString → GoString
  /-- `strings.TrimRightFunc(s, unicode.IsSpace)` -/
  trimRightFunc : GoString → GoString

/-! ### The Go standard library on non-ASCII strings

`utf8.DecodeRuneInString`, `utf8.AppendRune`, `utf8.DecodeLastRuneInString`, `unicode.IsSpace`,
`strings.Map`, `strings.TrimLeftFunc` and `strings.TrimRightFunc`, written after the Go
sources.  Masks and shifts of the Go code are written with `%`, `/`, `*` and `+`.  Only the
case tables of package `unicode`, which `unicode.ToUpper` consults for a rune above
`unicode.MaxASCII`, stay a parameter. -/

/-- Constant `utf8.RuneError`, U+FFFD. -/
def RuneError : Nat := 65533

/-- The table `first` of package `utf8`: information about the first byte of an encoding
(`as = 0xF0`, `xx = 0xF1`, `s1 = 0x02`, `s2 = 0x13`, `s3 = 0x03`, `s4 = 0x23`, `s5 = 0x34`,
`s6 = 0x04`, `s7 = 0x44`). -/
def first (b : Nat) : Nat :=
  if b < 128 then 240
  else if b < 194 then 241
  else if b < 224 then 2
  else if b = 224 then 19
  else if b < 237 then 3
  else if b = 237 then 35
  else if b < 240 then 3
  else if b = 240 then 52
  else if b < 244 then 4
  else if b = 244 then 68
  else 241

/-- The table `acceptRanges` of package `utf8`: the range `(lo, hi)` of a valid second
byte. -/
def acceptRanges (n : Nat) : Nat × Nat :=
  match n with
  | 0 => (128, 191)
  | 1 => (160, 191)
  | 2 => (128, 159)
  | 3 => (144, 191)
  | 4 => (128, 143)
  | _ => (0, 0)

/-- Go `utf8.DecodeRuneInString`: the first rune of `s` and its width in bytes;
`(RuneError, 1)` for an invalid encoding and `(RuneError, 0)` for the empty string. -/
def DecodeRuneInString (s : GoString) : Nat × Nat :=
  match s with
  | [] => (RuneError, 0)
  | s0 :: t =>
    if 240 ≤ first s0 then (if first s0 = 241 then RuneError else s0, 1)
    else if t.length + 1 < first s0 % 8 then (RuneError, 1)
    else
      match t with
      | [] => (RuneError, 1)
      | s1 :: t1 =>
        if s1 < (acceptRanges (first s0 / 16)).1 ∨ (acceptRanges (first s0 / 16)).2 < s1 then
          (RuneError, 1)
        else if first s0 % 8 ≤ 2 then (s0 % 32 * 64 + s1 % 64, 2)
        else
          match t1 with
          | [] => (RuneError, 1)
          | s2 :: t2 =>
            if s2 < 128 ∨ 191 < s2 then (RuneError, 1)
            else if first s0 % 8 ≤ 3 then (s0 % 16 * 4096 + s1 % 64 * 64 + s2 % 64, 3)
            else
              match t2 with
              | [] => (RuneError, 1)
              | s3 :: _ =>
                if s3 < 128 ∨ 191 < s3 then (RuneError, 1)
                else (s0 % 8 * 262144 + s1 % 64 * 4096 + s2 % 64 * 64 + s3 % 64, 4)

/-- Go `utf8.AppendRune` to the empty slice: the UTF-8 encoding of the rune, that of
`RuneError` for a surrogate or a value above `utf8.MaxRune`. -/
def AppendRune (r : Nat) : GoString :=
  if r ≤ 127 then [r]
  else if r ≤ 2047 then [192 + r / 64, 128 + r % 64]
  else if 1114111 < r ∨ (55296 ≤ r ∧ r ≤ 57343) then
    [224 + RuneError / 4096, 128 + RuneError / 64 % 64, 128 + RuneError % 64]
  else if r ≤ 65535 then [224 + r / 4096, 128 + r / 64 % 64, 128 + r % 64]
  else [240 + r / 262144, 128 + r / 4096 % 64, 128 + r / 64 % 64, 128 + r % 64]

/-- Go `utf8.RuneStart`: `b&0xC0 != 0x80`. -/
def RuneStart (b : Nat) : Bool :=
  b / 64 % 4 != 2

/-- The search for the start of the last rune in `utf8.DecodeLastRuneInString`: the value
of `len(s) - start` after the loop `for start--; start >= lim; start--`, which ends at a
byte with `RuneStart`, and after `if start < 0 { start = 0 }`.  The loop is unrolled over
the distances 2, 3 and 4 from the end that `lim` lets it reach. -/
def lastRuneBack (s : GoString) : Nat :=
  let reach := min s.length 4
  let back :=
    if 2 ≤ reach then
      if RuneStart (s.getD (s.length - 2) 0) then 2
      else if 3 ≤ reach then
        if RuneStart (s.getD (s.length - 3) 0) then 3
        else if 4 ≤ reach then
          if RuneStart (s.getD (s.length - 4) 0) then 4 else 5
        else 4
      else 3
    else 2
  if s.length < back then s.length else back

/-- Go `utf8.DecodeLastRuneInString`: the last rune of `s` and its width. -/
def DecodeLastRuneInString (s : GoString) : Nat × Nat :=
  if s.length = 0 then (RuneError, 0)
  else if s.getD (s.length - 1) 0 < 128 then (s.getD (s.length - 1) 0, 1)
  else if (DecodeRuneInString (s.drop (s.length - lastRuneBack s))).2 ≠ lastRuneBack s then
    (RuneError, 1)
  else DecodeRuneInString (s.drop (s.length - lastRuneBack s))

/-- Go `unicode.IsSpace`. -/
def IsSpace (r : Nat) : Bool :=
  if r ≤ 255 then
    r == 9 || r == 10 || r == 11 || r == 12 || r == 13 || r == 32 || r == 133 || r == 160
  else
    r == 5760 || (8192 ≤ r && r ≤ 8202) || r == 8232 || r == 8233 || r == 8239 ||
      r == 8287 || r == 12288

/-- Go `unicode.ToUpper`; `toUpperCase` is `unicode.To(unicode.UpperCase, r)`, the lookup in
the case tables. -/
def unicodeToUpper (toUpperCase : Nat → Nat) (r : Nat) : Nat :=
  if r ≤ 127 then (if 97 ≤ r ∧ r ≤ 122 then r - 32 else r) else toUpperCase r

/-- The second loop of `strings.Map`, which writes the mapping of every rune of the rest
of the string; the first argument bounds the number of runes. -/
def mapRest (mapping : Nat → Nat) : Nat → GoString → GoString
  | 0, _ => []
  | _, [] => []
  | n + 1, s0 :: t =>
    AppendRune (mapping (DecodeRuneInString (s0 :: t)).1) ++
      mapRest mapping n ((s0 :: t).drop (DecodeRuneInString (s0 :: t)).2)

/-- The first loop of `strings.Map`, which passes over the runes that the mapping leaves
unchanged; `none` when it reaches the end of the string (the output buffer was never
allocated), and otherwise the whole output. -/
def mapFirst (mapping : Nat → Nat) : Nat → GoString → Option GoString
  | 0, _ => none
  | _, [] => none
  | n + 1, s0 :: t =>
    if mapping (DecodeRuneInString (s0 :: t)).1 = (DecodeRuneInString (s0 :: t)).1 ∧
        ¬ ((DecodeRuneInString (s0 :: t)).1 = RuneError ∧
          (DecodeRuneInString (s0 :: t)).2 = 1) then
      (mapFirst mapping n ((s0 :: t).drop (DecodeRuneInString (s0 :: t)).2)).map
        (fun out => (s0 :: t).take (DecodeRuneInString (s0 :: t)).2 ++ out)
    else
      some (AppendRune (mapping (DecodeRuneInString (s0 :: t)).1) ++
        mapRest mapping n ((s0 :: t).drop (DecodeRuneInString (s0 :: t)).2))

/-- Go `strings.Map` for a mapping that returns no negative value. -/
def Map (mapping : Nat → Nat) (s : GoString) : GoString :=
  (mapFirst mapping s.length s).getD s

/-- Go `strings.TrimLeftFunc`: `s[i:]` for the index `i` of the first rune that does not
satisfy `f`, the empty string when there is none; the first argument bounds the number of
runes. -/
def TrimLeftFunc (f : Nat → Bool) : Nat → GoString → GoString
  | 0, _ => []
  | _, [] => []
  | n + 1, s0 :: t =>
    if f (DecodeRuneInString (s0 :: t)).1 = false then s0 :: t
    else TrimLeftFunc f n ((s0 :: t).drop (DecodeRuneInString (s0 :: t)).2)

/-- Go `strings.lastIndexFunc(s, f, false)` run on the prefix `s[0:i]` given as second
argument: the index of the last rune that does not satisfy `f`, `none` for `-1`; the first
argument bounds the number of runes. -/
def lastIndexFunc (f : Nat → Bool) : Nat → GoString → Option Nat
  | 0, _ => none
  | n + 1, s =>
    if s.length = 0 then none
    else if f (DecodeLastRuneInString s).1 = false then
      some (s.length - (DecodeLastRuneInString s).2)
    else lastIndexFunc f n (s.take (s.length - (DecodeLastRuneInString s).2))

/-- Go `strings.TrimRightFunc`. -/
def TrimRightFunc (f : Nat → Bool) (s : GoString) : GoString :=
  match lastIndexFunc f s.length s with
  | some i =>
    if 128 ≤ s.getD i 0 then s.take (i + (DecodeRuneInString (s.drop i)).2)
    else s.take (i + 1)
  | none => s.take 0

/-- Go `strings.TrimFunc`. -/
def TrimFunc (f : Nat → Bool) (s : GoString) : GoString :=
  TrimRightFunc f (TrimLeftFunc f s.length s)

/-- The standard library as `Unicode` paths, over the case tables of package `unicode`. -/
def Unicode.std (toUpperCase : Nat → Nat) : Unicode :=
  { mapToUpper := Map (unicodeToUpper toUpperCase),
    trimFunc := TrimFunc IsSpace,
    trimRightFunc := TrimRightFunc IsSpace }

/-- Case tables without an entry, for which `unicode.To` returns the rune it is given; they
serve to run the program on inputs without cased letters above ASCII. -/
def noCase (r : Nat) : Nat := r

/-- The byte-level upper-casing of the ASCII path of `strings.ToUpper`:
`if 'a' <= c && c <= 'z' then c -= 'a' - 'A'`. -/
def upperByte (c : Nat) : Nat :=
  if 97 ≤ c ∧ c ≤ 122 then c - 32 else c

/-- Go `strings.ToUpper`. -/
def ToUpper (u : Unicode) (s : GoString) : GoString :=
  let isASCII := s.all (fun c => decide (c < 128))
  let hasLower := s.any (fun c => decide (97 ≤ c ∧ c ≤ 122))
  if isASCII then
    if !hasLower then s else s.map upperByte
  else u.mapToUpper s

/-- The table `asciiSpace` of package `strings`: tab, newline, vertical tab, form feed,
carriage return and space. -/
def asciiSpace (c : Nat) : Bool :=
  c == 9 || c == 10 || c == 11 || c == 12 || c == 13 || c == 32

/-- The second loop of `strings.TrimSpace`, which moves `stop` down from the end of
`s[start:]`; the argument is `s[start:stop]` reversed. -/
def trimSpaceStop (u : Unicode) : GoString → GoString
  | [] => []
  | c :: rest =>
    if 128 ≤ c then u.trimRightFunc (c :: rest).reverse
    else if asciiSpace c then trimSpaceStop u rest
    else (c :: rest).reverse

/-- Go `strings.TrimSpace`; the recursion is the first loop, which moves `start` up,
the argument being `s[start:]`. -/
def TrimSpace (u : Unicode) : GoString → GoString
  | [] => []
  | c :: rest =>
    if 128 ≤ c then u.trimFunc (c :: rest)
    else if asciiSpace c then TrimSpace u rest
    else trimSpaceStop u (c :: rest).reverse

/-- The map of complementary nucleotides including some ambiguity codes
(`map[string]string`, as an association list with distinct keys). -/
def compMap : List (GoString × GoString) :=
  [(str "A", str "T"), (str "C", str "G"), (str "G", str "C"), (str "T", str "A"),
   (str "N", str "N"), (str "-", str "-"), (str "W", str "W"), (str "S", str "S")]

/-- A structure to hold a sequence string (`seq`) and an index (`idx`). -/
structure indexedSequence where
  idx : Nat
  seq : GoString
  deriving DecidableEq, Repr

/-- Creates an indexed sequence from the index and the sequence string. -/
def newIndexedSequence (idx : Nat) (seq : GoString) : indexedSequence :=
  { idx := idx, seq := seq }

/-- The reverse iteration of `ReverseComplement`:
`for i := len(s) - 1; i > -1; i--`, where the first numeric argument is `i + 1` and
`complementString` is the string built so far.  The result is `Except.error c` when the
one-byte string `c = s[i:i+1]` has no entry in the map (the branch that prints and calls
`os.Exit(2)`), and the finished `complementString` otherwise. -/
def complementLoop (compMap : List (GoString × GoString)) (s : GoString) :
    Nat → GoString → Except GoString GoString
  | 0, complementString => Except.ok complementString
  | i + 1, complementString =>
    let c := (s.drop i).take 1
    match compMap.lookup c with
    | some comp => complementLoop compMap s i (complementString ++ comp)
    | none => Except.error c

/-- The string that `ReverseComplement` iterates over: the sequence after
`strings.ToUpper` and then `strings.TrimSpace`. -/
def normalise (u : Unicode) (s : GoString) : GoString :=
  TrimSpace u (ToUpper u s)

/-- The reverse complement as the specification words it: the complements of the
characters of `n`, taken from the last character to the first. -/
def revComp (n : GoString) : GoString :=
  n.reverse.flatMap (fun b => (compMap.lookup [b]).getD [])

/-- The complement of a single character that has an entry in the table. -/
def complementByte (b : Nat) : Nat :=
  ((compMap.lookup [b]).getD []).headD 0

/-- The text printed before the offending character. -/
def noComplementMessage : GoString :=
  str "Error: No complementary nucleotide for character "

/-- What one call of `ReverseComplement` does. -/
structure WorkerRun where
  /-- the value `*sequence` when the call ends -/
  sequence : indexedSequence
  /-- the arguments of the calls of `fmt.Println`, in order -/
  stdout : List GoString
  /-- what was written to standard error -/
  stderr : List GoString
  /-- the values sent on the channel `results`, in order -/
  sent : List indexedSequence
  /-- whether the deferred `waitGroup.Done()` ran -/
  done : Bool
  /-- the argument of `os.Exit`, when it was called -/
  exit : Option Nat
  deriving DecidableEq, Repr

/-- Reverse complement a nucleotide sequence using the supplied complement map and send
the result to the results channel. -/
def ReverseComplement (u : Unicode) (sequence : indexedSequence)
    (compMap : List (GoString × GoString)) : WorkerRun :=
  let s := normalise u sequence.seq
  match complementLoop compMap s s.length [] with
  | Except.ok complementString =>
    let sequence := { sequence with seq := complementString }
    { sequence := sequence, stdout := [], stderr := [], sent := [sequence],
      done := true, exit := none }
  | Except.error c =>
    { sequence := sequence, stdout := [noComplementMessage ++ c], stderr := [], sent := [],
      done := false, exit := some 2 }

/-- The choices left to the Go scheduler while the workers of one chunk run. -/
structure Schedule where
  /-- the order in which the values sent by the workers of the chunk that starts at
  argument `i` arrive on the channel `results` -/
  arrive : Nat → List indexedSequence → List indexedSequence
  /-- of the workers of the chunk that starts at argument `i` and that end in `os.Exit`,
  those that get to run before the process is gone, in the order in which they print -/
  crashed : Nat → List WorkerRun → List WorkerRun

/-- The schedules that can occur: every value sent arrives exactly once, and when some
worker ends in `os.Exit`, at least one such worker runs and none runs twice. -/
def Schedule.Admissible (σ : Schedule) : Prop :=
  (∀ i l, (σ.arrive i l).Perm l) ∧
  (∀ i l, l ≠ [] → σ.crashed i l ≠ [] ∧ (σ.crashed i l).Subperm l)

/-- The schedule in which results arrive in the order of dispatch and only the first
failing worker prints. -/
def Schedule.inOrder : Schedule :=
  { arrive := fun _ l => l, crashed := fun _ l => l.take 1 }

/-- The schedule in which results arrive in the opposite order of dispatch and every failing
worker prints, the last dispatched first. -/
def Schedule.backwards : Schedule :=
  { arrive := fun _ l => l.reverse, crashed := fun _ l => l.reverse }

/-- Go `sort.Slice` with the given `less`, as an insertion sort. -/
def sortSlice {α : Type} (less : α → α → Bool) (data : List α) : List α :=
  data.insertionSort (fun a b => less b a = false)

/-- One iteration of the outer loop of `main`, as recorded for the whole run. -/
structure Chunk where
  /-- the value of `i` -/
  start : Nat
  /-- the indexed sequences created for `go ReverseComplement(...)`, in order -/
  dispatched : List indexedSequence
  /-- the slice `rcSequences` after the receiving loop, before it is sorted -/
  collected : List indexedSequence
  deriving DecidableEq, Repr

/-- What a run of the program does. -/
structure Run where
  /-- the arguments of the calls of `fmt.Println`, in order -/
  stdout : List GoString
  /-- what was written to standard error -/
  stderr : List GoString
  /-- the exit code of the process -/
  exit : Nat
  /-- the iterations of the outer loop that were started -/
  chunks : List Chunk
  /-- the values that wait in the channel `results` -/
  results : List indexedSequence
  deriving DecidableEq, Repr

/-- The dispatching loop `for c := 0; c < cores && c+i < len(args); c++`; the first numeric
argument is `cores - c`.  The result lists the values `newIndexedSequence(i+c, args[i+c])`
that the workers are started on. -/
def dispatchLoop (args : List GoString) (i : Nat) : Nat → Nat → List indexedSequence
  | 0, _ => []
  | n + 1, c =>
    if c + i < args.length then
      newIndexedSequence (i + c) (args.getD (i + c) []) :: dispatchLoop args i n (c + 1)
    else []

/-- The receiving loop `for x := 0; x < cores && x+i < len(args); x++` with
`rcSequences = append(rcSequences, <-results)`; the first numeric argument is `cores - x`.
The result is `rcSequences` and what is left in the channel; a receive on the empty channel
never returns: the result is `none`. -/
def collectLoop (args : List GoString) (i : Nat) :
    Nat → Nat → List indexedSequence → List indexedSequence →
      Option (List indexedSequence × List indexedSequence)
  | 0, _, results, rcSequences => some (rcSequences, results)
  | n + 1, x, results, rcSequences =>
    if x + i < args.length then
      match results with
      | [] => none
      | r :: results => collectLoop args i n (x + 1) results (rcSequences ++ [r])
    else some (rcSequences, results)

/-- The loop `for i := 1; i < len(args); i += cores` of `main`, from the given `i` on; `none`
when the run is not over after `fuel` iterations or is stuck on the channel or in
`waitGroup.Wait()`. -/
def chunkLoop (u : Unicode) (σ : Schedule) (cores : Nat) (args : List GoString) :
    Nat → Nat → Run → Option Run
  | 0, _, _ => none
  | fuel + 1, i, run =>
    if i < args.length then
      let dispatched := dispatchLoop args i cores 0
      let workers := dispatched.map (fun sequence => ReverseComplement u sequence compMap)
      match workers.filterMap (fun w => w.exit) with
      | code :: _ =>
        -- some worker calls `os.Exit(code)`: the process ends while `main` is in
        -- `waitGroup.Wait()`, after the messages of the workers that got to run
        let crashed := σ.crashed i (workers.filter (fun w => w.exit.isSome))
        some { stdout := run.stdout ++ crashed.flatMap (fun w => w.stdout),
               stderr := run.stderr ++ crashed.flatMap (fun w => w.stderr),
               exit := code,
               chunks := run.chunks ++ [{ start := i, dispatched := dispatched, collected := [] }],
               results := run.results }
      | [] =>
        -- the workers send their results; a send on the channel, of capacity `cores`, would
        -- block for good once it is full, and `waitGroup.Wait()` returns only when every
        -- worker has run `waitGroup.Done()`
        let results := run.results ++ σ.arrive i (workers.flatMap (fun w => w.sent))
        if cores < results.length then none
        else if workers.all (fun w => w.done) then
          match collectLoop args i cores 0 results [] with
          | none => none
          | some (collected, results) =>
            let rcSequences := sortSlice (fun a b => decide (a.idx < b.idx)) collected
            chunkLoop u σ cores args fuel (i + cores)
              { run with
                stdout := run.stdout ++ rcSequences.map (fun r => r.seq),
                chunks := run.chunks ++
                  [{ start := i, dispatched := dispatched, collected := collected }],
                results := results }
        else none
    else some run

/-- The program: `args` is `os.Args` (the command name first), `cores` is
`runtime.NumCPU()`. -/
def main (u : Unicode) (σ : Schedule) (cores : Nat) (args : List GoString) (fuel : Nat) :
    Option Run :=
  if args.length < 2 then
    some { stdout := [str "Error: Must supply at least one sequence as an argument"],
           stderr := [], exit := 1, chunks := [], results := [] }
  else
    chunkLoop u σ cores args fuel 1
      { stdout := [], stderr := [], exit := 0, chunks := [], results := [] }

/-- Whether every character of the normalised sequence has an entry in the complement
table. -/
def isValid (u : Unicode) (s : GoString) : Bool :=
  (normalise u s).all (fun b => (compMap.lookup [b]).isSome)

/-- The indexed sequence as a successful worker leaves it. -/
def finished (u : Unicode) (r : indexedSequence) : indexedSequence :=
  { r with seq := revComp (normalise u r.seq) }


/-- The record of the iteration of the chunk loop that starts at `i`, when all its workers
succeed. -/
def chunkAt (u : Unicode) (σ : Schedule) (cores : Nat) (args : List GoString) (i : Nat) :
    Chunk :=
  { start := i, dispatched := dispatchLoop args i cores 0,
    collected := σ.arrive i ((dispatchLoop args i cores 0).map (finished u)) }

/-- The slice `rcSequences` of an iteration after `sort.Slice`: the values whose sequences
the iteration prints, in the order of printing. -/
def Chunk.printed (c : Chunk) : List indexedSequence :=
  sortSlice (fun a b => decide (a.idx < b.idx)) c.collected

/-- The bytes that the calls of `fmt.Println` write: each argument followed by a
newline. -/
def written (out : List GoString) : GoString :=
  out.flatMap (fun line => line ++ [10])

/-- The number of lookups `compMap[c]` that the reverse iteration of `ReverseComplement`
makes, the numeric argument being `i + 1` as in `complementLoop`. -/
def lookupCount (compMap : List (GoString × GoString)) (s : GoString) : Nat → Nat
  | 0 => 0
  | i + 1 =>
    match compMap.lookup ((s.drop i).take 1) with
    | some _ => lookupCount compMap s i + 1
    | none => 1


/-- The indexed sequences of all positions of `os.Args`: position `p` with `args[p]`. -/
def itemsOf (args : List GoString) : List indexedSequence :=
  (List.range args.length).map (fun p => newIndexedSequence p (args.getD p []))


/-! ## The complement table -/

theorem compMap_eq : compMap =
    [([65], [84]), ([67], [71]), ([71], [67]), ([84], [65]),
     ([78], [78]), ([45], [45]), ([87], [87]), ([83], [83])] := by
  decide

theorem tableChars_eq : str "ACGTN-WS" = [65, 67, 71, 84, 78, 45, 87, 83] := by
  decide

theorem lookup_single (b : Nat) :
    compMap.lookup [b] =
      if b = 65 then some [84] else if b = 67 then some [71] else if b = 71 then some [67]
      else if b = 84 then some [65] else if b = 78 then some [78] else if b = 45 then some [45]
      else if b = 87 then some [87] else if b = 83 then some [83] else none := by
  rw [compMap_eq]
  simp only [List.lookup]
  by_cases h1 : b = 65
  · subst h1; rfl
  by_cases h2 : b = 67
  · subst h2; rfl
  by_cases h3 : b = 71
  · subst h3; rfl
  by_cases h4 : b = 84
  · subst h4; rfl
  by_cases h5 : b = 78
  · subst h5; rfl
  by_cases h6 : b = 45
  · subst h6; rfl
  by_cases h7 : b = 87
  · subst h7; rfl
  by_cases h8 : b = 83
  · subst h8; rfl
  have e : ∀ k : Nat, b ≠ k → ([b] == [k]) = false := by
    intro k hk
    simp [hk]
  simp [h1, h2, h3, h4, h5, h6, h7, h8, e]

/-! ## The reverse iteration -/

theorem slice_one (s : GoString) (i : Nat) (h : i < s.length) :
    (s.drop i).take 1 = [s[i]] := by
  rw [List.drop_eq_getElem_cons h]
  rfl

theorem take_succ_getElem (s : GoString) (i : Nat) (h : i < s.length) :
    s.take (i + 1) = s.take i ++ [s[i]] := by
  rw [List.take_succ, List.getElem?_eq_getElem h]
  rfl

/-- Every list either satisfies `P` throughout or splits at its last element that
does not. -/
theorem last_violation (P : Nat → Prop) (l : GoString) :
    (∀ b ∈ l, P b) ∨
      ∃ pre b post, l = pre ++ b :: post ∧ ¬ P b ∧ ∀ x ∈ post, P x := by
  induction l with
  | nil => left; simp
  | cons a l ih =>
    rcases ih with hall | ⟨pre, b, post, hl, hb, hpost⟩
    · by_cases ha : P a
      · left
        intro x hx
        rcases List.mem_cons.mp hx with rfl | hx
        · exact ha
        · exact hall x hx
      · right
        exact ⟨[], a, l, rfl, ha, hall⟩
    · right
      exact ⟨a :: pre, b, post, by rw [hl]; rfl, hb, hpost⟩

theorem complementLoop_ok (m : List (GoString × GoString)) (s : GoString) :
    ∀ (n : Nat) (acc : GoString), n ≤ s.length →
      (∀ b ∈ s.take n, (m.lookup [b]).isSome = true) →
      complementLoop m s n acc =
        Except.ok (acc ++ (s.take n).reverse.flatMap (fun b => (m.lookup [b]).getD [])) := by
  intro n
  induction n with
  | zero => intro acc _ _; simp [complementLoop]
  | succ n ih =>
    intro acc hn hall
    have hlt : n < s.length := hn
    have hmem : s[n] ∈ s.take (n + 1) := by
      rw [take_succ_getElem s n hlt]
      exact List.mem_append_right _ (List.mem_singleton_self _)
    have hsome := hall _ hmem
    obtain ⟨comp, hcomp⟩ := Option.isSome_iff_exists.mp hsome
    have hrest : ∀ b ∈ s.take n, (m.lookup [b]).isSome = true := by
      intro b hb
      apply hall
      rw [take_succ_getElem s n hlt]
      exact List.mem_append_left _ hb
    simp only [complementLoop, slice_one s n hlt, hcomp]
    rw [ih (acc ++ comp) (Nat.le_of_lt hlt) hrest, take_succ_getElem s n hlt]
    simp only [List.reverse_append, List.reverse_singleton, List.singleton_append,
      List.flatMap_cons, hcomp, Option.getD_some, List.append_assoc]

theorem complementLoop_error (m : List (GoString × GoString)) (s : GoString) :
    ∀ (n : Nat) (acc pre : GoString) (b : Nat) (post : GoString), n ≤ s.length →
      s.take n = pre ++ b :: post → m.lookup [b] = none →
      (∀ x ∈ post, (m.lookup [x]).isSome = true) →
      complementLoop m s n acc = Except.error [b] := by
  intro n
  induction n with
  | zero =>
    intro acc pre b post _ h
    simp at h
  | succ n ih =>
    intro acc pre b post hn hsplit hb hpost
    have hlt : n < s.length := hn
    rw [take_succ_getElem s n hlt] at hsplit
    rcases List.eq_nil_or_concat post with rfl | ⟨post', x, rfl⟩
    · have h2 : s.take n ++ [s[n]] = pre ++ [b] := hsplit
      have h3 := List.append_inj' h2 rfl
      have hbn : s[n] = b := by simpa using h3.2
      simp only [complementLoop, slice_one s n hlt, hbn, hb]
    · have h2 : s.take n ++ [s[n]] = (pre ++ b :: post') ++ [x] := by
        rw [hsplit]; simp
      have h3 := List.append_inj' h2 rfl
      have hxn : s[n] = x := by simpa using h3.2
      have hx : (m.lookup [x]).isSome = true := hpost x (by simp)
      obtain ⟨comp, hcomp⟩ := Option.isSome_iff_exists.mp hx
      simp only [complementLoop, slice_one s n hlt, hxn, hcomp]
      exact ih (acc ++ comp) pre b post' (Nat.le_of_lt hlt) h3.1 hb
        (fun y hy => hpost y (by simp [hy]))

/-! ## What `ReverseComplement` does -/

theorem ReverseComplement_ok (u : Unicode) (sequence : indexedSequence)
    (h : ∀ b ∈ normalise u sequence.seq, (compMap.lookup [b]).isSome = true) :
    ReverseComplement u sequence compMap =
      { sequence := { sequence with seq := revComp (normalise u sequence.seq) },
        stdout := [], stderr := [],
        sent := [{ sequence with seq := revComp (normalise u sequence.seq) }],
        done := true, exit := none } := by
  have hl := complementLoop_ok compMap (normalise u sequence.seq)
    (normalise u sequence.seq).length [] (Nat.le_refl _) (by simpa using h)
  simp only [ReverseComplement, hl]
  simp [revComp]

theorem ReverseComplement_error (u : Unicode) (sequence : indexedSequence)
    (pre : GoString) (b : Nat) (post : GoString)
    (hsplit : normalise u sequence.seq = pre ++ b :: post)
    (hb : compMap.lookup [b] = none)
    (hpost : ∀ x ∈ post, (compMap.lookup [x]).isSome = true) :
    ReverseComplement u sequence compMap =
      { sequence := sequence, stdout := [noComplementMessage ++ [b]], stderr := [],
        sent := [], done := false, exit := some 2 } := by
  have hl := complementLoop_error compMap (normalise u sequence.seq)
    (normalise u sequence.seq).length [] pre b post (Nat.le_refl _) (by simpa using hsplit)
    hb hpost
  simp only [ReverseComplement, hl]

/-! ## Characters of the table -/

theorem mem_table (b : Nat) (h : b ∈ str "ACGTN-WS") :
    compMap.lookup [b] = some [complementByte b] ∧ complementByte b ∈ str "ACGTN-WS" ∧
      complementByte (complementByte b) = b ∧ b < 128 ∧ asciiSpace b = false ∧
      upperByte b = b := by
  rw [tableChars_eq] at h
  simp only [List.mem_cons, List.mem_singleton, List.not_mem_nil, or_false] at h
  rcases h with rfl | rfl | rfl | rfl | rfl | rfl | rfl | rfl <;> decide

theorem mem_table_iff (b : Nat) :
    b ∈ str "ACGTN-WS" ↔ (compMap.lookup [b]).isSome = true := by
  constructor
  · intro h
    rw [(mem_table b h).1]
    rfl
  · intro h
    rw [lookup_single] at h
    rw [tableChars_eq]
    simp only [List.mem_cons, List.mem_singleton, List.not_mem_nil, or_false]
    by_contra hne
    simp only [not_or] at hne
    obtain ⟨h1, h2, h3, h4, h5, h6, h7, h8⟩ := hne
    simp [h1, h2, h3, h4, h5, h6, h7, h8] at h

theorem not_mem_table_iff (b : Nat) :
    b ∉ str "ACGTN-WS" ↔ compMap.lookup [b] = none := by
  rw [mem_table_iff]
  cases compMap.lookup [b] <;> simp

theorem revComp_eq_map (n : GoString) (h : ∀ b ∈ n, b ∈ str "ACGTN-WS") :
    revComp n = n.reverse.map complementByte := by
  have key : ∀ l : GoString, (∀ b ∈ l, b ∈ str "ACGTN-WS") →
      l.flatMap (fun b => (compMap.lookup [b]).getD []) = l.map complementByte := by
    intro l
    induction l with
    | nil => intro _; rfl
    | cons a l ih =>
      intro hl
      have ha := (mem_table a (hl a (List.mem_cons_self _ _))).1
      rw [List.flatMap_cons, ih (fun b hb => hl b (List.mem_cons_of_mem _ hb)), ha]
      rfl
  exact key n.reverse (fun b hb => h b (List.mem_reverse.mp hb))

theorem revComp_mem_table (n : GoString) (h : ∀ b ∈ n, b ∈ str "ACGTN-WS") :
    ∀ b ∈ revComp n, b ∈ str "ACGTN-WS" := by
  rw [revComp_eq_map n h]
  intro b hb
  obtain ⟨a, ha, rfl⟩ := List.mem_map.mp hb
  exact (mem_table a (h a (List.mem_reverse.mp ha))).2.1

theorem revComp_revComp (n : GoString) (h : ∀ b ∈ n, b ∈ str "ACGTN-WS") :
    revComp (revComp n) = n := by
  rw [revComp_eq_map _ (revComp_mem_table n h), revComp_eq_map n h]
  rw [← List.map_reverse, List.reverse_reverse, List.map_map]
  conv_rhs => rw [← List.map_id n]
  apply List.map_congr_left
  intro b hb
  exact (mem_table b (h b hb)).2.2.1

/-! ## Normalisation of strings that need none -/

theorem ToUpper_ascii (u : Unicode) (s : GoString) (h : ∀ b ∈ s, b < 128) :
    ToUpper u s = s.map upperByte := by
  have hall : s.all (fun c => decide (c < 128)) = true := by
    simpa using h
  simp only [ToUpper, hall, if_true]
  split
  · rename_i hlow
    have hfix : ∀ b ∈ s, upperByte b = b := by
      intro b hb
      have : ¬ (97 ≤ b ∧ b ≤ 122) := by
        intro hc
        have : s.any (fun c => decide (97 ≤ c ∧ c ≤ 122)) = true :=
          List.any_eq_true.mpr ⟨b, hb, by simpa using hc⟩
        rw [this] at hlow
        exact absurd hlow (by decide)
      simp [upperByte, this]
    conv_lhs => rw [← List.map_id s]
    exact List.map_congr_left (fun b hb => (hfix b hb).symm)
  · rfl

theorem trimSpaceStop_clean (u : Unicode) (c : Nat) (rest : GoString)
    (hc : c < 128) (hs : asciiSpace c = false) :
    trimSpaceStop u (c :: rest) = (c :: rest).reverse := by
  have : ¬ 128 ≤ c := Nat.not_le.mpr hc
  simp [trimSpaceStop, this, hs]

theorem TrimSpace_clean (u : Unicode) (s : GoString)
    (h : ∀ b ∈ s, b < 128 ∧ asciiSpace b = false) : TrimSpace u s = s := by
  cases s with
  | nil => rfl
  | cons c rest =>
    have hc := h c (List.mem_cons_self _ _)
    have hnot : ¬ 128 ≤ c := Nat.not_le.mpr hc.1
    simp only [TrimSpace, hnot, if_false, hc.2]
    cases hrev : (c :: rest).reverse with
    | nil => simp at hrev
    | cons d r =>
      have hd : d ∈ c :: rest := by
        rw [← List.mem_reverse, hrev]
        exact List.mem_cons_self _ _
      have hd2 := h d hd
      simp only [Bool.false_eq_true, if_false]
      rw [trimSpaceStop_clean u d r hd2.1 hd2.2, ← hrev, List.reverse_reverse]

theorem normalise_table (u : Unicode) (s : GoString) (h : ∀ b ∈ s, b ∈ str "ACGTN-WS") :
    normalise u s = s := by
  have hup : ToUpper u s = s := by
    rw [ToUpper_ascii u s (fun b hb => (mem_table b (h b hb)).2.2.2.1)]
    conv_rhs => rw [← List.map_id s]
    exact List.map_congr_left (fun b hb => (mem_table b (h b hb)).2.2.2.2.2)
  rw [normalise, hup]
  exact TrimSpace_clean u s
    (fun b hb => ⟨(mem_table b (h b hb)).2.2.2.1, (mem_table b (h b hb)).2.2.2.2.1⟩)

/-! ## The two outcomes of `ReverseComplement` -/

theorem ReverseComplement_cases (u : Unicode) (sequence : indexedSequence) :
    ((∀ b ∈ normalise u sequence.seq, (compMap.lookup [b]).isSome = true) ∧
      ReverseComplement u sequence compMap =
        { sequence := { sequence with seq := revComp (normalise u sequence.seq) },
          stdout := [], stderr := [],
          sent := [{ sequence with seq := revComp (normalise u sequence.seq) }],
          done := true, exit := none }) ∨
    (∃ pre b post, normalise u sequence.seq = pre ++ b :: post ∧
      compMap.lookup [b] = none ∧ (∀ x ∈ post, (compMap.lookup [x]).isSome = true) ∧
      ReverseComplement u sequence compMap =
        { sequence := sequence, stdout := [noComplementMessage ++ [b]], stderr := [],
          sent := [], done := false, exit := some 2 }) := by
  rcases last_violation (fun b => (compMap.lookup [b]).isSome = true)
      (normalise u sequence.seq) with hall | ⟨pre, b, post, hsplit, hb, hpost⟩
  · exact Or.inl ⟨hall, ReverseComplement_ok u sequence hall⟩
  · have hb2 : compMap.lookup [b] = none := by
      cases hlk : compMap.lookup [b] with
      | none => rfl
      | some v => rw [hlk] at hb; exact absurd rfl hb
    exact Or.inr ⟨pre, b, post, hsplit, hb2, hpost,
      ReverseComplement_error u sequence pre b post hsplit hb2 hpost⟩

theorem ReverseComplement_congr (u : Unicode) (idx : Nat) (s t : GoString)
    (h : normalise u s = normalise u t) :
    (ReverseComplement u (newIndexedSequence idx s) compMap).exit =
        (ReverseComplement u (newIndexedSequence idx t) compMap).exit ∧
      (ReverseComplement u (newIndexedSequence idx s) compMap).stdout =
        (ReverseComplement u (newIndexedSequence idx t) compMap).stdout ∧
      (ReverseComplement u (newIndexedSequence idx s) compMap).stderr =
        (ReverseComplement u (newIndexedSequence idx t) compMap).stderr ∧
      (ReverseComplement u (newIndexedSequence idx s) compMap).sent =
        (ReverseComplement u (newIndexedSequence idx t) compMap).sent ∧
      (ReverseComplement u (newIndexedSequence idx s) compMap).done =
        (ReverseComplement u (newIndexedSequence idx t) compMap).done ∧
      ((ReverseComplement u (newIndexedSequence idx s) compMap).exit = none ∧
          (ReverseComplement u (newIndexedSequence idx s) compMap).sequence =
            (ReverseComplement u (newIndexedSequence idx t) compMap).sequence ∨
        (ReverseComplement u (newIndexedSequence idx s) compMap).exit = some 2) := by
  have hs : (newIndexedSequence idx s).seq = s := rfl
  have ht : (newIndexedSequence idx t).seq = t := rfl
  simp only [ReverseComplement, hs, ht, h]
  cases complementLoop compMap (normalise u t) (normalise u t).length [] with
  | error c => simp
  | ok out => simp [newIndexedSequence]

/-! ## Trimming of ASCII whitespace -/

theorem asciiSpace_lt (c : Nat) (h : asciiSpace c = true) : c < 128 ∧ upperByte c = c := by
  simp only [asciiSpace, Bool.or_eq_true, beq_iff_eq] at h
  rcases h with ((((rfl | rfl) | rfl) | rfl) | rfl) | rfl <;> decide

theorem TrimSpace_append_left (u : Unicode) (p y : GoString)
    (hp : ∀ b ∈ p, asciiSpace b = true) : TrimSpace u (p ++ y) = TrimSpace u y := by
  induction p with
  | nil => rfl
  | cons c p ih =>
    have hc := hp c (List.mem_cons_self _ _)
    have hnot : ¬ 128 ≤ c := Nat.not_le.mpr (asciiSpace_lt c hc).1
    simp only [List.cons_append, TrimSpace, hnot, if_false, hc, if_true]
    exact ih (fun b hb => hp b (List.mem_cons_of_mem _ hb))

theorem trimSpaceStop_append_left (u : Unicode) (q y : GoString)
    (hq : ∀ b ∈ q, asciiSpace b = true) : trimSpaceStop u (q ++ y) = trimSpaceStop u y := by
  induction q with
  | nil => rfl
  | cons c q ih =>
    have hc := hq c (List.mem_cons_self _ _)
    have hnot : ¬ 128 ≤ c := Nat.not_le.mpr (asciiSpace_lt c hc).1
    simp only [List.cons_append, trimSpaceStop, hnot, if_false, hc, if_true]
    exact ih (fun b hb => hq b (List.mem_cons_of_mem _ hb))

theorem TrimSpace_append_right (u : Unicode) (x q : GoString)
    (hx : ∀ b ∈ x, b < 128) (hq : ∀ b ∈ q, asciiSpace b = true) :
    TrimSpace u (x ++ q) = TrimSpace u x := by
  induction x with
  | nil =>
    have := TrimSpace_append_left u q [] hq
    simpa using this
  | cons c x ih =>
    have hnot : ¬ 128 ≤ c := Nat.not_le.mpr (hx c (List.mem_cons_self _ _))
    cases hsp : asciiSpace c with
    | true =>
      simp only [List.cons_append, TrimSpace, hnot, if_false, hsp, if_true]
      exact ih (fun b hb => hx b (List.mem_cons_of_mem _ hb))
    | false =>
      simp only [List.cons_append, TrimSpace, hnot, if_false, hsp, Bool.false_eq_true]
      have hrev : (c :: x.append q).reverse = q.reverse ++ (c :: x).reverse := by
        show (c :: (x ++ q)).reverse = q.reverse ++ (c :: x).reverse
        rw [← List.cons_append, List.reverse_append]
      rw [hrev]
      exact trimSpaceStop_append_left u q.reverse _
        (fun b hb => hq b (List.mem_reverse.mp hb))

theorem normalise_pad (u : Unicode) (p s q : GoString)
    (hs : ∀ b ∈ s, b < 128) (hp : ∀ b ∈ p, asciiSpace b = true)
    (hq : ∀ b ∈ q, asciiSpace b = true) :
    normalise u (p ++ s ++ q) = normalise u s := by
  have hfix : ∀ l : GoString, (∀ b ∈ l, asciiSpace b = true) → l.map upperByte = l := by
    intro l hl
    conv_rhs => rw [← List.map_id l]
    exact List.map_congr_left (fun b hb => (asciiSpace_lt b (hl b hb)).2)
  have hall : ∀ b ∈ p ++ s ++ q, b < 128 := by
    intro b hb
    rcases List.mem_append.mp hb with hb | hb
    · rcases List.mem_append.mp hb with hb | hb
      · exact (asciiSpace_lt b (hp b hb)).1
      · exact hs b hb
    · exact (asciiSpace_lt b (hq b hb)).1
  have hup : ∀ b ∈ s.map upperByte, b < 128 := by
    intro b hb
    obtain ⟨a, ha, rfl⟩ := List.mem_map.mp hb
    have := hs a ha
    unfold upperByte
    split <;> omega
  rw [normalise, normalise, ToUpper_ascii u _ hall, ToUpper_ascii u s hs, List.map_append,
    List.map_append, hfix p hp, hfix q hq, TrimSpace_append_right u _ q ?_ hq, 
    TrimSpace_append_left u p _ hp]
  intro b hb
  rcases List.mem_append.mp hb with hb | hb
  · exact (asciiSpace_lt b (hp b hb)).1
  · exact hup b hb


/-! ## The loops of one chunk -/

theorem dispatchLoop_seq (args : List GoString) (i : Nat) :
    ∀ (n c : Nat), (dispatchLoop args i n c).map (fun r => r.seq) =
      (args.drop (i + c)).take n := by
  intro n
  induction n with
  | zero => intro c; simp [dispatchLoop]
  | succ n ih =>
    intro c
    by_cases h : c + i < args.length
    · have h2 : i + c < args.length := by omega
      simp only [dispatchLoop, h, if_true, List.map_cons, ih (c + 1)]
      rw [List.drop_eq_getElem_cons h2, List.take_succ_cons, List.getD_eq_getElem _ _ h2]
      rfl
    · have h2 : args.length ≤ i + c := by omega
      simp only [dispatchLoop, h, if_false, List.map_nil]
      rw [List.drop_eq_nil_of_le h2]
      rfl

theorem dispatchLoop_idx (args : List GoString) (i : Nat) :
    ∀ (n c : Nat), (∀ r ∈ dispatchLoop args i n c, i + c ≤ r.idx) ∧
      (dispatchLoop args i n c).Pairwise (fun a b => a.idx < b.idx) := by
  intro n
  induction n with
  | zero => intro c; simp [dispatchLoop]
  | succ n ih =>
    intro c
    by_cases h : c + i < args.length
    · simp only [dispatchLoop, h, if_true]
      obtain ⟨hlow, hpw⟩ := ih (c + 1)
      constructor
      · intro r hr
        rcases List.mem_cons.mp hr with rfl | hr
        · exact Nat.le_refl _
        · have := hlow r hr
          omega
      · refine List.Pairwise.cons ?_ hpw
        intro r hr
        have := hlow r hr
        show i + c < r.idx
        omega
    · simp [dispatchLoop, h]

theorem dispatchLoop_length (args : List GoString) (i : Nat) (n c : Nat) :
    (dispatchLoop args i n c).length = min n (args.length - (i + c)) := by
  have h := congrArg List.length (dispatchLoop_seq args i n c)
  simpa using h

theorem collectLoop_all (args : List GoString) (i : Nat) :
    ∀ (n x : Nat) (results acc : List indexedSequence),
      results.length = min n (args.length - (i + x)) →
      collectLoop args i n x results acc = some (acc ++ results, []) := by
  intro n
  induction n with
  | zero =>
    intro x results acc h
    have : results = [] := List.length_eq_zero.mp (by simpa using h)
    simp [collectLoop, this]
  | succ n ih =>
    intro x results acc h
    by_cases hx : x + i < args.length
    · cases results with
      | nil =>
        exfalso
        simp only [List.length_nil] at h
        omega
      | cons r results =>
        simp only [collectLoop, hx, if_true]
        rw [ih (x + 1) results (acc ++ [r])]
        · simp
        · simp only [List.length_cons] at h
          omega
    · have : results = [] := List.length_eq_zero.mp (by omega)
      simp [collectLoop, hx, this]

/-! ## Sorting by index -/

theorem orderedInsert_erase (a : indexedSequence) :
    ∀ t : List indexedSequence, t.Pairwise (fun x y => x.idx < y.idx) → a ∈ t →
      List.orderedInsert (fun x y => decide (y.idx < x.idx) = false) a (t.erase a) = t := by
  intro t
  induction t with
  | nil => intro _ h; simp at h
  | cons b t ih =>
    intro hpw ha
    rw [List.pairwise_cons] at hpw
    by_cases hab : b = a
    · subst hab
      rw [List.erase_cons_head]
      cases t with
      | nil => rfl
      | cons c t =>
        have hlt : b.idx < c.idx := hpw.1 c (List.mem_cons_self _ _)
        have : ¬ c.idx < b.idx := by omega
        simp [List.orderedInsert, this]
    · have hat : a ∈ t := by
        rcases List.mem_cons.mp ha with h | h
        · exact absurd h.symm hab
        · exact h
      have hlt : b.idx < a.idx := hpw.1 a hat
      rw [List.erase_cons_tail (by simpa using hab)]
      simp only [List.orderedInsert, hlt, decide_True, Bool.true_eq_false, if_false]
      rw [ih hpw.2 hat]

theorem sortSlice_perm_sorted :
    ∀ (l t : List indexedSequence), t.Pairwise (fun x y => x.idx < y.idx) → l.Perm t →
      sortSlice (fun a b => decide (a.idx < b.idx)) l = t := by
  intro l
  induction l with
  | nil =>
    intro t _ hperm
    rw [List.nil_perm.mp hperm]
    rfl
  | cons a l ih =>
    intro t hpw hperm
    have ha : a ∈ t := hperm.subset (List.mem_cons_self _ _)
    have hl : l.Perm (t.erase a) :=
      List.Perm.cons_inv (hperm.trans (List.perm_cons_erase ha))
    have hpw2 : (t.erase a).Pairwise (fun x y => x.idx < y.idx) :=
      List.Pairwise.sublist (List.erase_sublist a t) hpw
    have hrec := ih (t.erase a) hpw2 hl
    unfold sortSlice at hrec ⊢
    rw [List.insertionSort, hrec]
    exact orderedInsert_erase a t hpw ha


/-! ## One iteration of the chunk loop -/

theorem worker_valid (u : Unicode) (r : indexedSequence) (h : isValid u r.seq = true) :
    ReverseComplement u r compMap =
      { sequence := finished u r, stdout := [], stderr := [], sent := [finished u r],
        done := true, exit := none } := by
  have hall : ∀ b ∈ normalise u r.seq, (compMap.lookup [b]).isSome = true := by
    simpa [isValid] using h
  exact ReverseComplement_ok u r hall

theorem worker_invalid (u : Unicode) (r : indexedSequence) (h : isValid u r.seq = false) :
    ∃ c ∈ normalise u r.seq, compMap.lookup [c] = none ∧
      ReverseComplement u r compMap =
        { sequence := r, stdout := [noComplementMessage ++ [c]], stderr := [],
          sent := [], done := false, exit := some 2 } := by
  rcases ReverseComplement_cases u r with ⟨hall, _⟩ | ⟨pre, b, post, hsplit, hb, _, hrun⟩
  · have : isValid u r.seq = true := by
      simpa [isValid] using hall
    rw [this] at h
    exact absurd h (by decide)
  · exact ⟨b, by rw [hsplit]; simp, hb, hrun⟩

theorem chunkLoop_good (u : Unicode) (σ : Schedule) (cores : Nat) (args : List GoString)
    (fuel i : Nat) (run : Run) (hσ : σ.Admissible) (hi : i < args.length)
    (hv : ∀ s ∈ (args.drop i).take cores, isValid u s = true) (hch : run.results = []) :
    chunkLoop u σ cores args (fuel + 1) i run =
      chunkLoop u σ cores args fuel (i + cores)
        { run with
          stdout := run.stdout ++
            ((args.drop i).take cores).map (fun s => revComp (normalise u s)),
          chunks := run.chunks ++
            [{ start := i, dispatched := dispatchLoop args i cores 0,
               collected := σ.arrive i ((dispatchLoop args i cores 0).map (finished u)) }],
          results := [] } := by
  have hseq := dispatchLoop_seq args i cores 0
  have hvalid : ∀ r ∈ dispatchLoop args i cores 0, isValid u r.seq = true := by
    intro r hr
    apply hv
    have : r.seq ∈ (dispatchLoop args i cores 0).map (fun r => r.seq) :=
      List.mem_map.mpr ⟨r, hr, rfl⟩
    rw [hseq] at this
    exact this
  have hw : (dispatchLoop args i cores 0).map (fun sequence => ReverseComplement u sequence compMap)
      = (dispatchLoop args i cores 0).map (fun r =>
          ({ sequence := finished u r, stdout := [], stderr := [], sent := [finished u r],
             done := true, exit := none } : WorkerRun)) :=
    List.map_congr_left (fun r hr => worker_valid u r (hvalid r hr))
  have hf : ((dispatchLoop args i cores 0).map (fun r =>
          ({ sequence := finished u r, stdout := [], stderr := [], sent := [finished u r],
             done := true, exit := none } : WorkerRun))).filterMap (fun w => w.exit) = [] := by
    rw [List.filterMap_eq_nil_iff]
    intro w hw
    obtain ⟨r, _, rfl⟩ := List.mem_map.mp hw
    rfl
  have hs : ((dispatchLoop args i cores 0).map (fun r =>
          ({ sequence := finished u r, stdout := [], stderr := [], sent := [finished u r],
             done := true, exit := none } : WorkerRun))).flatMap (fun w => w.sent) =
        (dispatchLoop args i cores 0).map (finished u) := by
    induction dispatchLoop args i cores 0 with
    | nil => rfl
    | cons a l ih => simp only [List.map_cons, List.flatMap_cons, ih]; rfl
  have hperm := hσ.1 i ((dispatchLoop args i cores 0).map (finished u))
  have hlen : (σ.arrive i ((dispatchLoop args i cores 0).map (finished u))).length =
      min cores (args.length - (i + 0)) := by
    rw [hperm.length_eq, List.length_map, dispatchLoop_length]
  have hcap : ¬ cores < (σ.arrive i ((dispatchLoop args i cores 0).map (finished u))).length := by
    rw [hlen]
    omega
  have hcollect := collectLoop_all args i cores 0
    (σ.arrive i ((dispatchLoop args i cores 0).map (finished u))) [] hlen
  have hpw : ((dispatchLoop args i cores 0).map (finished u)).Pairwise
      (fun x y => x.idx < y.idx) := by
    rw [List.pairwise_map]
    exact (dispatchLoop_idx args i cores 0).2
  have hsort := sortSlice_perm_sorted _ _ hpw hperm
  have hout : ((dispatchLoop args i cores 0).map (finished u)).map (fun r => r.seq) =
      ((args.drop i).take cores).map (fun s => revComp (normalise u s)) := by
    have h0 : args.drop i = args.drop (i + 0) := rfl
    rw [h0, ← hseq, List.map_map, List.map_map]
    rfl
  have hdone : ((dispatchLoop args i cores 0).map (fun r =>
          ({ sequence := finished u r, stdout := [], stderr := [], sent := [finished u r],
             done := true, exit := none } : WorkerRun))).all (fun w => w.done) = true := by
    rw [List.all_eq_true]
    intro w hw
    obtain ⟨r, _, rfl⟩ := List.mem_map.mp hw
    rfl
  rw [chunkLoop]
  simp only [hi, if_true, hw, hf, hs, hch, List.nil_append, hcap, if_false, hdone, hcollect,
    hsort, hout]


theorem chunkLoop_bad (u : Unicode) (σ : Schedule) (cores : Nat) (args : List GoString)
    (fuel i : Nat) (run : Run) (hσ : σ.Admissible) (hi : i < args.length)
    (hbad : ∃ s ∈ (args.drop i).take cores, isValid u s = false) :
    ∃ errs : List GoString,
      chunkLoop u σ cores args (fuel + 1) i run =
        some { stdout := run.stdout ++ errs, stderr := run.stderr, exit := 2,
               chunks := run.chunks ++
                 [{ start := i, dispatched := dispatchLoop args i cores 0, collected := [] }],
               results := run.results } ∧
      errs ≠ [] ∧
      ∀ e ∈ errs, ∃ s ∈ (args.drop i).take cores, ∃ c ∈ normalise u s,
        compMap.lookup [c] = none ∧ e = noComplementMessage ++ [c] := by
  have hseq := dispatchLoop_seq args i cores 0
  have hmemseq : ∀ r ∈ dispatchLoop args i cores 0, r.seq ∈ (args.drop i).take cores := by
    intro r hr
    have : r.seq ∈ (dispatchLoop args i cores 0).map (fun r => r.seq) :=
      List.mem_map.mpr ⟨r, hr, rfl⟩
    rw [hseq] at this
    exact this
  have hexit : ∀ w ∈ (dispatchLoop args i cores 0).map
        (fun sequence => ReverseComplement u sequence compMap),
      w.exit = none ∨ (w.exit = some 2 ∧ w.stderr = [] ∧
        ∃ s ∈ (args.drop i).take cores, ∃ c ∈ normalise u s,
          compMap.lookup [c] = none ∧ w.stdout = [noComplementMessage ++ [c]]) := by
    intro w hw
    obtain ⟨r, hr, rfl⟩ := List.mem_map.mp hw
    cases hval : isValid u r.seq with
    | true => left; rw [worker_valid u r hval]
    | false =>
      right
      obtain ⟨c, hc, hnone, hrun⟩ := worker_invalid u r hval
      rw [hrun]
      exact ⟨rfl, rfl, r.seq, hmemseq r hr, c, hc, hnone, rfl⟩
  obtain ⟨s, hs, hsbad⟩ := hbad
  have hs2 : s ∈ (dispatchLoop args i cores 0).map (fun r => r.seq) := by
    rw [hseq]; exact hs
  obtain ⟨r, hr, hrs⟩ := List.mem_map.mp hs2
  have hrbad : isValid u r.seq = false := by
    have : r.seq = s := hrs
    rw [this]; exact hsbad
  obtain ⟨c, _, _, hrun⟩ := worker_invalid u r hrbad
  have hwmem : ReverseComplement u r compMap ∈ (dispatchLoop args i cores 0).map
      (fun sequence => ReverseComplement u sequence compMap) :=
    List.mem_map.mpr ⟨r, hr, rfl⟩
  have hwexit : (ReverseComplement u r compMap).exit = some 2 := by rw [hrun]
  have hF : ((dispatchLoop args i cores 0).map
      (fun sequence => ReverseComplement u sequence compMap)).filter
        (fun w => w.exit.isSome) ≠ [] := by
    intro hnil
    rw [List.filter_eq_nil_iff] at hnil
    exact hnil _ hwmem (by rw [hwexit]; rfl)
  obtain ⟨hne, hsub⟩ := hσ.2 i _ hF
  have hcr : ∀ w ∈ σ.crashed i (((dispatchLoop args i cores 0).map
      (fun sequence => ReverseComplement u sequence compMap)).filter
        (fun w => w.exit.isSome)),
      w.stderr = [] ∧ ∃ s ∈ (args.drop i).take cores, ∃ c ∈ normalise u s,
          compMap.lookup [c] = none ∧ w.stdout = [noComplementMessage ++ [c]] := by
    intro w hw
    have hw2 := List.mem_filter.mp (hsub.subset hw)
    rcases hexit w hw2.1 with hnone | ⟨_, h2, h3⟩
    · have := hw2.2
      rw [hnone] at this
      exact absurd this (by decide)
    · exact ⟨h2, h3⟩
  cases hfm : ((dispatchLoop args i cores 0).map
      (fun sequence => ReverseComplement u sequence compMap)).filterMap (fun w => w.exit) with
  | nil =>
    exfalso
    rw [List.filterMap_eq_nil_iff] at hfm
    have := hfm _ hwmem
    rw [hwexit] at this
    exact absurd this (by decide)
  | cons code rest =>
    have hcode : code = 2 := by
      have hmem : code ∈ ((dispatchLoop args i cores 0).map
          (fun sequence => ReverseComplement u sequence compMap)).filterMap (fun w => w.exit) := by
        rw [hfm]; exact List.mem_cons_self _ _
      obtain ⟨w, hw, hwc⟩ := List.mem_filterMap.mp hmem
      rcases hexit w hw with hnone | ⟨h2, _⟩
      · rw [hnone] at hwc; exact Option.noConfusion hwc
      · rw [h2] at hwc; exact (Option.some.inj hwc).symm
    refine ⟨(σ.crashed i (((dispatchLoop args i cores 0).map
      (fun sequence => ReverseComplement u sequence compMap)).filter
        (fun w => w.exit.isSome))).flatMap (fun w => w.stdout), ?_, ?_, ?_⟩
    · have hserr : (σ.crashed i (((dispatchLoop args i cores 0).map
          (fun sequence => ReverseComplement u sequence compMap)).filter
            (fun w => w.exit.isSome))).flatMap (fun w => w.stderr) = [] := by
        rw [List.flatMap_eq_nil_iff]
        exact fun w hw => (hcr w hw).1
      rw [chunkLoop]
      simp only [hi, if_true, hfm, hserr, List.append_nil, hcode]
    · intro hnil
      rw [List.flatMap_eq_nil_iff] at hnil
      cases hcrl : σ.crashed i (((dispatchLoop args i cores 0).map
          (fun sequence => ReverseComplement u sequence compMap)).filter
            (fun w => w.exit.isSome)) with
      | nil => exact hne hcrl
      | cons w l =>
        have hwin : w ∈ σ.crashed i (((dispatchLoop args i cores 0).map
          (fun sequence => ReverseComplement u sequence compMap)).filter
            (fun w => w.exit.isSome)) := by rw [hcrl]; exact List.mem_cons_self _ _
        obtain ⟨_, s', _, c', _, _, hout⟩ := hcr w hwin
        have := hnil w hwin
        rw [hout] at this
        exact absurd this (by simp)
    · intro e he
      obtain ⟨w, hw, hew⟩ := List.mem_flatMap.mp he
      obtain ⟨_, s', hs', c', hc', hnone', hout⟩ := hcr w hw
      rw [hout] at hew
      exact ⟨s', hs', c', hc', hnone', List.mem_singleton.mp hew⟩


/-! ## The whole chunk loop -/

theorem chunkLoop_done (u : Unicode) (σ : Schedule) (cores : Nat) (args : List GoString)
    (fuel i : Nat) (run : Run) (hi : ¬ i < args.length) :
    chunkLoop u σ cores args (fuel + 1) i run = some run := by
  rw [chunkLoop]
  simp only [hi, if_false]

theorem chunkLoop_valid (u : Unicode) (σ : Schedule) (cores : Nat) (args : List GoString)
    (hσ : σ.Admissible) (hc : 1 ≤ cores) :
    ∀ (fuel i : Nat) (run : Run), args.length - i < fuel →
      (∀ s ∈ args.drop i, isValid u s = true) → run.results = [] →
      ∃ chunks, chunkLoop u σ cores args fuel i run =
        some { run with
          stdout := run.stdout ++ (args.drop i).map (fun s => revComp (normalise u s)),
          chunks := chunks, results := [] } := by
  intro fuel
  induction fuel with
  | zero => intro i run h; omega
  | succ fuel ih =>
    intro i run hfuel hv hch
    by_cases hi : i < args.length
    · have hv1 : ∀ s ∈ (args.drop i).take cores, isValid u s = true :=
        fun s hs => hv s (List.mem_of_mem_take hs)
      have hv2 : ∀ s ∈ args.drop (i + cores), isValid u s = true := by
        intro s hs
        apply hv
        rw [← List.drop_drop] at hs
        exact List.mem_of_mem_drop hs
      rw [chunkLoop_good u σ cores args fuel i run hσ hi hv1 hch]
      obtain ⟨chunks, hrun⟩ := ih (i + cores)
        { run with
          stdout := run.stdout ++
            ((args.drop i).take cores).map (fun s => revComp (normalise u s)),
          chunks := run.chunks ++
            [{ start := i, dispatched := dispatchLoop args i cores 0,
               collected := σ.arrive i ((dispatchLoop args i cores 0).map (finished u)) }],
          results := [] }
        (by omega) hv2 rfl
      refine ⟨chunks, ?_⟩
      rw [hrun]
      have hsplit : (args.drop i).map (fun s => revComp (normalise u s)) =
          ((args.drop i).take cores).map (fun s => revComp (normalise u s)) ++
            (args.drop (i + cores)).map (fun s => revComp (normalise u s)) := by
        rw [← List.map_append, ← List.drop_drop, List.take_append_drop]
      simp only [hsplit, List.append_assoc]
    · rw [chunkLoop_done u σ cores args fuel i run hi]
      have : args.drop i = [] := List.drop_eq_nil_of_le (by omega)
      exact ⟨run.chunks, by simp [this, ← hch]⟩

theorem chunkLoop_fail (u : Unicode) (σ : Schedule) (cores : Nat) (args : List GoString)
    (hσ : σ.Admissible) :
    ∀ (k fuel i : Nat) (run : Run), k < fuel →
      (∀ s ∈ (args.drop i).take (k * cores), isValid u s = true) →
      (∃ s ∈ (args.drop (i + k * cores)).take cores, isValid u s = false) →
      run.results = [] →
      ∃ (errs : List GoString) (chunks : List Chunk),
        chunkLoop u σ cores args fuel i run =
          some { stdout := run.stdout ++
                   ((args.drop i).take (k * cores)).map (fun s => revComp (normalise u s)) ++ errs,
                 stderr := run.stderr, exit := 2, chunks := chunks, results := [] } ∧
        errs ≠ [] ∧
        ∀ e ∈ errs, ∃ s ∈ (args.drop (i + k * cores)).take cores, ∃ c ∈ normalise u s,
          compMap.lookup [c] = none ∧ e = noComplementMessage ++ [c] := by
  intro k
  induction k with
  | zero =>
    intro fuel i run hfuel _ hbad hch
    obtain ⟨fuel, rfl⟩ : ∃ f, fuel = f + 1 := ⟨fuel - 1, by omega⟩
    have h0 : i + 0 * cores = i := by omega
    rw [h0] at hbad ⊢
    have hi : i < args.length := by
      obtain ⟨s, hs, _⟩ := hbad
      have hmem := List.mem_of_mem_take hs
      by_contra hge
      rw [List.drop_eq_nil_of_le (by omega)] at hmem
      exact absurd hmem (List.not_mem_nil s)
    obtain ⟨errs, hrun, hne, herr⟩ := chunkLoop_bad u σ cores args fuel i run hσ hi hbad
    refine ⟨errs, run.chunks ++
      [{ start := i, dispatched := dispatchLoop args i cores 0, collected := [] }],
      ?_, hne, herr⟩
    rw [hrun]
    simp [hch]
  | succ k ih =>
    intro fuel i run hfuel hv hbad hch
    obtain ⟨fuel, rfl⟩ : ∃ f, fuel = f + 1 := ⟨fuel - 1, by omega⟩
    have hmul : (k + 1) * cores = cores + k * cores := by
      rw [Nat.add_mul, Nat.one_mul, Nat.add_comm]
    have hidx : i + (k + 1) * cores = i + cores + k * cores := by omega
    rw [hmul, List.take_add] at hv
    rw [hidx] at hbad
    have hi : i < args.length := by
      obtain ⟨s, hs, _⟩ := hbad
      have hmem := List.mem_of_mem_take hs
      by_contra hge
      rw [List.drop_eq_nil_of_le (by omega)] at hmem
      exact absurd hmem (List.not_mem_nil s)
    have hv1 : ∀ s ∈ (args.drop i).take cores, isValid u s = true :=
      fun s hs => hv s (List.mem_append_left _ hs)
    have hv2 : ∀ s ∈ (args.drop (i + cores)).take (k * cores), isValid u s = true := by
      intro s hs
      apply hv
      rw [List.drop_drop]
      exact List.mem_append_right _ hs
    rw [chunkLoop_good u σ cores args fuel i run hσ hi hv1 hch]
    obtain ⟨errs, chunks, hrun, hne, herr⟩ := ih fuel (i + cores)
      { run with
          stdout := run.stdout ++
            ((args.drop i).take cores).map (fun s => revComp (normalise u s)),
          chunks := run.chunks ++
            [{ start := i, dispatched := dispatchLoop args i cores 0,
               collected := σ.arrive i ((dispatchLoop args i cores 0).map (finished u)) }],
          results := [] }
      (by omega) hv2 hbad rfl
    refine ⟨errs, chunks, ?_, hne, ?_⟩
    · rw [hrun, hmul, List.take_add, List.drop_drop]
      simp only [List.map_append, List.append_assoc]
    · rw [hidx]
      exact herr


/-! ## Schedules and positions -/

theorem inOrder_admissible : Schedule.inOrder.Admissible := by
  refine ⟨fun _ l => List.Perm.refl l, fun _ l hl => ⟨?_, ?_⟩⟩
  · cases l with
    | nil => exact absurd rfl hl
    | cons a l => simp [Schedule.inOrder]
  · exact (List.take_sublist 1 l).subperm

theorem backwards_admissible : Schedule.backwards.Admissible := by
  refine ⟨fun _ l => List.reverse_perm l, fun _ l hl => ⟨?_, ?_⟩⟩
  · intro h
    exact hl (List.reverse_eq_nil_iff.mp h)
  · exact (List.reverse_perm l).subperm

theorem mem_chunk_of_position (cores : Nat) (seqs : List GoString) (hc : 1 ≤ cores)
    (p : Nat) (s : GoString) (hp : seqs[p]? = some s) :
    s ∈ (seqs.drop (p / cores * cores)).take cores := by
  apply List.getElem?_mem (n := p % cores)
  rw [List.getElem?_take_of_lt (Nat.mod_lt p (by omega)), List.getElem?_drop]
  have : p / cores * cores + p % cores = p := by
    rw [Nat.mul_comm]; exact Nat.div_add_mod p cores
  rw [this]
  exact hp

theorem first_bad_chunk (u : Unicode) (cores : Nat) (seqs : List GoString) (hc : 1 ≤ cores)
    (hbad : ∃ s ∈ seqs, isValid u s = false) :
    ∃ k, (∀ s ∈ seqs.take (k * cores), isValid u s = true) ∧
      (∃ s ∈ (seqs.drop (k * cores)).take cores, isValid u s = false) := by
  classical
  have hex : ∃ k, ∃ s ∈ (seqs.drop (k * cores)).take cores, isValid u s = false := by
    obtain ⟨s, hs, hsbad⟩ := hbad
    obtain ⟨p, hp⟩ := List.mem_iff_getElem?.mp hs
    exact ⟨p / cores, s, mem_chunk_of_position cores seqs hc p s hp, hsbad⟩
  refine ⟨Nat.find hex, ?_, Nat.find_spec hex⟩
  intro s hs
  cases hval : isValid u s with
  | true => rfl
  | false =>
    exfalso
    obtain ⟨p, hp⟩ := List.mem_iff_getElem?.mp hs
    have hplt : p < Nat.find hex * cores := by
      by_contra hge
      rw [List.getElem?_take] at hp
      simp [hge] at hp
    rw [List.getElem?_take_of_lt hplt] at hp
    have hk : p / cores < Nat.find hex := by
      rw [Nat.div_lt_iff_lt_mul (by omega)]
      exact hplt
    exact Nat.find_min hex hk ⟨s, mem_chunk_of_position cores seqs hc p s hp, hval⟩

theorem revComp_chars (n : GoString) : ∀ b ∈ revComp n, b ∈ str "ACGTN-WS" := by
  intro b hb
  obtain ⟨a, _, hba⟩ := List.mem_flatMap.mp hb
  by_cases ha : a ∈ str "ACGTN-WS"
  · have h := mem_table a ha
    rw [h.1] at hba
    have : b = complementByte a := by simpa using hba
    rw [this]
    exact h.2.1
  · rw [(not_mem_table_iff a).mp ha] at hba
    simp at hba

theorem message_not_sequence (u : Unicode) (sequence : indexedSequence) (c : Nat)
    (hok : (ReverseComplement u sequence compMap).exit = none) :
    (ReverseComplement u sequence compMap).sequence.seq ≠ noComplementMessage ++ [c] := by
  rcases ReverseComplement_cases u sequence with ⟨_, hrun⟩ | ⟨_, _, _, _, _, _, hrun⟩
  · rw [hrun]
    intro heq
    have h69 : (69 : Nat) ∈ revComp (normalise u sequence.seq) := by
      have : (69 : Nat) ∈ noComplementMessage ++ [c] :=
        List.mem_append_left _ (by decide)
      rw [← heq] at this
      exact this
    exact absurd (revComp_chars _ 69 h69) (by decide)
  · rw [hrun] at hok
    exact Option.noConfusion hok


/-! ## Whole runs -/

theorem main_valid (u : Unicode) (σ : Schedule) (cores : Nat) (prog : GoString)
    (seqs : List GoString) (fuel : Nat) (hc : 1 ≤ cores) (hne : seqs ≠ [])
    (hσ : σ.Admissible) (hv : ∀ s ∈ seqs, isValid u s = true)
    (hfuel : (prog :: seqs).length ≤ fuel) :
    ∃ chunks, main u σ cores (prog :: seqs) fuel =
      some { stdout := seqs.map (fun s => revComp (normalise u s)), stderr := [], exit := 0,
             chunks := chunks, results := [] } := by
  have hlen : ¬ (prog :: seqs).length < 2 := by
    cases seqs with
    | nil => exact absurd rfl hne
    | cons a l => simp
  obtain ⟨chunks, hrun⟩ := chunkLoop_valid u σ cores (prog :: seqs) hσ hc fuel 1
    { stdout := [], stderr := [], exit := 0, chunks := [], results := [] }
    (by simp only [List.length_cons] at hfuel ⊢; omega) (by simpa using hv) rfl
  refine ⟨chunks, ?_⟩
  rw [main]
  simp only [hlen, if_false, hrun]
  simp

theorem main_fail (u : Unicode) (σ : Schedule) (cores : Nat) (prog : GoString)
    (seqs : List GoString) (k fuel : Nat) (hc : 1 ≤ cores) (hσ : σ.Admissible)
    (hv : ∀ s ∈ seqs.take (k * cores), isValid u s = true)
    (hbad : ∃ s ∈ (seqs.drop (k * cores)).take cores, isValid u s = false)
    (hfuel : (prog :: seqs).length ≤ fuel) :
    ∃ (errs : List GoString) (chunks : List Chunk),
      main u σ cores (prog :: seqs) fuel =
        some { stdout := (seqs.take (k * cores)).map (fun s => revComp (normalise u s)) ++ errs,
               stderr := [], exit := 2, chunks := chunks, results := [] } ∧
      errs ≠ [] ∧
      ∀ e ∈ errs, ∃ s ∈ (seqs.drop (k * cores)).take cores, ∃ c ∈ normalise u s,
        compMap.lookup [c] = none ∧ e = noComplementMessage ++ [c] := by
  have hklt : k * cores < seqs.length := by
    obtain ⟨s, hs, _⟩ := hbad
    have hmem := List.mem_of_mem_take hs
    by_contra hge
    rw [List.drop_eq_nil_of_le (by omega)] at hmem
    exact absurd hmem (List.not_mem_nil s)
  have hkle : k ≤ k * cores := Nat.le_mul_of_pos_right k hc
  have hlen : ¬ (prog :: seqs).length < 2 := by
    simp only [List.length_cons]; omega
  have hd1 : (prog :: seqs).drop 1 = seqs := rfl
  have hdk : (prog :: seqs).drop (1 + k * cores) = seqs.drop (k * cores) := by
    rw [Nat.add_comm]; rfl
  obtain ⟨errs, chunks, hrun, hnil, herr⟩ := chunkLoop_fail u σ cores (prog :: seqs) hσ k fuel 1
    { stdout := [], stderr := [], exit := 0, chunks := [], results := [] }
    (by simp only [List.length_cons] at hfuel; omega)
    (by rw [hd1]; exact hv) (by rw [hdk]; exact hbad) rfl
  rw [hd1] at hrun
  rw [hdk] at herr
  refine ⟨errs, chunks, ?_, hnil, herr⟩
  rw [main]
  simp only [hlen, if_false, hrun, List.nil_append]

theorem worker_output (u : Unicode) (idx : Nat) (s : GoString) (h : isValid u s = true) :
    (ReverseComplement u (newIndexedSequence idx s) compMap).sequence.seq =
      revComp (normalise u s) := by
  rw [worker_valid u (newIndexedSequence idx s) h]
  rfl


/-! ## Decoding runes -/

theorem first_cases (b : Nat) :
    (first b = 240 ∧ b < 128) ∨ first b = 241 ∨
      (first b < 240 ∧ 2 ≤ first b % 8 ∧ first b % 8 ≤ 4 ∧
        128 ≤ (acceptRanges (first b / 16)).1 ∧ (acceptRanges (first b / 16)).2 ≤ 191 ∧
        128 ≤ b) := by
  unfold first
  split_ifs <;> simp [acceptRanges] <;> omega

theorem decode_width (s : GoString) (h : s ≠ []) :
    1 ≤ (DecodeRuneInString s).2 ∧ (DecodeRuneInString s).2 ≤ s.length := by
  rcases s with _ | ⟨s0, _ | ⟨s1, _ | ⟨s2, _ | ⟨s3, t3⟩⟩⟩⟩
  · exact absurd rfl h
  all_goals
    simp only [DecodeRuneInString]
    split_ifs <;> simp

theorem decode_append (s q : GoString) (h : s ≠ [])
    (hq : ∀ b, q.head? = some b → b < 128 ∨ 191 < b) :
    DecodeRuneInString (s ++ q) = DecodeRuneInString s := by
  rcases s with _ | ⟨s0, t⟩
  · exact absurd rfl h
  have hf := first_cases s0
  rcases t with _ | ⟨s1, _ | ⟨s2, _ | ⟨s3, t3⟩⟩⟩
  · -- one byte
    rcases q with _ | ⟨q0, q'⟩
    · rfl
    · have hq0 := hq q0 rfl
      rcases q' with _ | ⟨q1, _ | ⟨q2, q3⟩⟩ <;>
      · simp only [DecodeRuneInString, List.cons_append, List.nil_append, List.length_cons,
          List.length_nil]
        split_ifs <;> first | rfl | omega
  · -- two bytes
    rcases q with _ | ⟨q0, q'⟩
    · rfl
    · have hq0 := hq q0 rfl
      rcases q' with _ | ⟨q1, q2⟩ <;>
      · simp only [DecodeRuneInString, List.cons_append, List.nil_append, List.length_cons,
          List.length_nil]
        split_ifs <;> first | rfl | omega
  · -- three bytes
    rcases q with _ | ⟨q0, q'⟩
    · rfl
    · have hq0 := hq q0 rfl
      simp only [DecodeRuneInString, List.cons_append, List.nil_append, List.length_cons,
        List.length_nil]
      split_ifs <;> first | rfl | omega
  · -- four bytes or more
    simp only [DecodeRuneInString, List.cons_append, List.length_cons, List.length_append]
    by_cases h240 : 240 ≤ first s0
    · simp only [h240, if_true]
    · have hsz : first s0 % 8 ≤ 4 := by omega
      simp only [h240, if_false]
      rw [if_neg (show ¬ (_ < first s0 % 8) by omega),
        if_neg (show ¬ (_ < first s0 % 8) by omega)]

/-! ## The last rune -/

theorem getD_append_len (z t : GoString) (j : Nat) :
    (z ++ t).getD (z.length + j) 0 = t.getD j 0 := by
  rw [List.getD_eq_getElem?_getD, List.getD_eq_getElem?_getD,
    List.getElem?_append_right (Nat.le_add_right _ _), Nat.add_sub_cancel_left]

theorem decodeLast_one (z : GoString) (c : Nat) (hc : c < 128) :
    DecodeLastRuneInString (z ++ [c]) = (c, 1) := by
  have hlen : (z ++ [c]).length - 1 = z.length := by simp
  have hget : (z ++ [c]).getD z.length 0 = c := getD_append_len z [c] 0
  unfold DecodeLastRuneInString
  rw [hlen, hget]
  simp [hc]

theorem decodeLast_two (z : GoString) (b0 b1 : Nat) (h1 : 128 ≤ b1)
    (h0 : RuneStart b0 = true) :
    DecodeLastRuneInString (z ++ [b0, b1]) =
      if (DecodeRuneInString [b0, b1]).2 ≠ 2 then (RuneError, 1)
      else DecodeRuneInString [b0, b1] := by
  have hlen : (z ++ [b0, b1]).length = z.length + 2 := by simp
  have hget1 : (z ++ [b0, b1]).getD (z.length + 2 - 1) 0 = b1 := by
    have : z.length + 2 - 1 = z.length + 1 := by omega
    rw [this, getD_append_len]; rfl
  have hget2 : (z ++ [b0, b1]).getD (z.length + 2 - 2) 0 = b0 := by
    have : z.length + 2 - 2 = z.length + 0 := by omega
    rw [this, getD_append_len]; rfl
  have hdrop : (z ++ [b0, b1]).drop (z.length + 2 - 2) = [b0, b1] := by
    have : z.length + 2 - 2 = z.length := by omega
    rw [this]; simp
  have hnot : ¬ b1 < 128 := by omega
  have hreach : 2 ≤ min (z.length + 2) 4 := by omega
  have hz2 : ¬ (z.length + 2 < 2) := by omega
  have hback : lastRuneBack (z ++ [b0, b1]) = 2 := by
    unfold lastRuneBack
    simp only [hlen, hget2, hreach, if_true, h0, hz2, if_false]
  unfold DecodeLastRuneInString
  have hz : ¬ (z.length + 2 = 0) := by omega
  simp only [hback, hlen, hget1, hnot, if_false, hz, hdrop]

theorem decodeLast_three (z : GoString) (b0 b1 b2 : Nat) (h2 : 128 ≤ b2)
    (h1 : RuneStart b1 = false) (h0 : RuneStart b0 = true) :
    DecodeLastRuneInString (z ++ [b0, b1, b2]) =
      if (DecodeRuneInString [b0, b1, b2]).2 ≠ 3 then (RuneError, 1)
      else DecodeRuneInString [b0, b1, b2] := by
  have hlen : (z ++ [b0, b1, b2]).length = z.length + 3 := by simp
  have hget1 : (z ++ [b0, b1, b2]).getD (z.length + 3 - 1) 0 = b2 := by
    have : z.length + 3 - 1 = z.length + 2 := by omega
    rw [this, getD_append_len]; rfl
  have hget2 : (z ++ [b0, b1, b2]).getD (z.length + 3 - 2) 0 = b1 := by
    have : z.length + 3 - 2 = z.length + 1 := by omega
    rw [this, getD_append_len]; rfl
  have hget3 : (z ++ [b0, b1, b2]).getD (z.length + 3 - 3) 0 = b0 := by
    have : z.length + 3 - 3 = z.length + 0 := by omega
    rw [this, getD_append_len]; rfl
  have hdrop : (z ++ [b0, b1, b2]).drop (z.length + 3 - 3) = [b0, b1, b2] := by
    have : z.length + 3 - 3 = z.length := by omega
    rw [this]; simp
  have hnot : ¬ b2 < 128 := by omega
  have hreach2 : 2 ≤ min (z.length + 3) 4 := by omega
  have hreach3 : 3 ≤ min (z.length + 3) 4 := by omega
  have hz2 : ¬ (z.length + 3 < 3) := by omega
  have hback : lastRuneBack (z ++ [b0, b1, b2]) = 3 := by
    unfold lastRuneBack
    simp only [hlen, hget2, hget3, hreach2, hreach3, if_true, h0, h1, Bool.false_eq_true,
      hz2, if_false]
  unfold DecodeLastRuneInString
  have hz : ¬ (z.length + 3 = 0) := by omega
  simp only [hback, hlen, hget1, hnot, if_false, hz, hdrop]

/-! ## White space runes -/

theorem space_cases (r : Nat) (h : IsSpace r = true) :
    r ∈ [9, 10, 11, 12, 13, 32, 133, 160, 5760, 8192, 8193, 8194, 8195, 8196, 8197, 8198,
      8199, 8200, 8201, 8202, 8232, 8233, 8239, 8287, 12288] := by
  unfold IsSpace at h
  split at h
  · simp only [Bool.or_eq_true, beq_iff_eq] at h
    rcases h with ((((((h | h) | h) | h) | h) | h) | h) | h <;> subst h <;> decide
  · simp only [Bool.or_eq_true, beq_iff_eq, Bool.and_eq_true, decide_eq_true_eq] at h
    rcases h with (((((h | ⟨h1, h2⟩) | h) | h) | h) | h) | h
    · subst h; decide
    · interval_cases r <;> decide
    · subst h; decide
    · subst h; decide
    · subst h; decide
    · subst h; decide
    · subst h; decide

theorem space_encoding (w : Nat) (h : IsSpace w = true) :
    (w < 128 ∧ asciiSpace w = true ∧ AppendRune w = [w]) ∨
    (∃ b0 b1, AppendRune w = [b0, b1] ∧ 194 ≤ b0 ∧ RuneStart b0 = true ∧ 128 ≤ b1 ∧
      (∀ rest, DecodeRuneInString (b0 :: b1 :: rest) = (w, 2)) ∧ 128 ≤ w ∧ w ≠ RuneError) ∨
    (∃ b0 b1 b2, AppendRune w = [b0, b1, b2] ∧ 194 ≤ b0 ∧ RuneStart b0 = true ∧
      RuneStart b1 = false ∧ 128 ≤ b2 ∧
      (∀ rest, DecodeRuneInString (b0 :: b1 :: b2 :: rest) = (w, 3)) ∧ 128 ≤ w ∧
      w ≠ RuneError) := by
  have hmem := space_cases w h
  simp only [List.mem_cons, List.mem_singleton, List.not_mem_nil, or_false] at hmem
  rcases hmem with rfl | rfl | rfl | rfl | rfl | rfl | rfl | rfl | rfl | rfl | rfl | rfl | rfl |
    rfl | rfl | rfl | rfl | rfl | rfl | rfl | rfl | rfl | rfl | rfl | rfl
  all_goals first
    | exact Or.inl ⟨by decide, by decide, by decide⟩
    | exact Or.inr (Or.inl ⟨_, _, rfl, by decide, by decide, by decide,
        fun rest => by simp [DecodeRuneInString, first, acceptRanges], by decide, by decide⟩)
    | exact Or.inr (Or.inr ⟨_, _, _, rfl, by decide, by decide, by decide, by decide,
        fun rest => by simp [DecodeRuneInString, first, acceptRanges], by decide, by decide⟩)

/-! ## `strings.Map` with `unicode.ToUpper` -/

theorem drop_decode_length (s0 : Nat) (t : GoString) :
    ((s0 :: t).drop (DecodeRuneInString (s0 :: t)).2).length ≤ t.length := by
  have h := decode_width (s0 :: t) (List.cons_ne_nil _ _)
  rw [List.length_drop, List.length_cons]
  omega

theorem mapRest_fuel (f : Nat → Nat) :
    ∀ (n m : Nat) (s : GoString), s.length ≤ n → s.length ≤ m →
      mapRest f n s = mapRest f m s := by
  intro n
  induction n with
  | zero =>
    intro m s hn _
    have : s = [] := List.length_eq_zero.mp (Nat.le_zero.mp hn)
    subst this
    cases m <;> rfl
  | succ n ih =>
    intro m s hn hm
    cases s with
    | nil => cases m <;> rfl
    | cons s0 t =>
      cases m with
      | zero => simp at hm
      | succ m =>
        have hd := drop_decode_length s0 t
        simp only [List.length_cons] at hn hm
        simp only [mapRest]
        rw [ih m _ (by omega) (by omega)]

theorem mapFirst_fuel (f : Nat → Nat) :
    ∀ (n m : Nat) (s : GoString), s.length ≤ n → s.length ≤ m →
      mapFirst f n s = mapFirst f m s := by
  intro n
  induction n with
  | zero =>
    intro m s hn _
    have : s = [] := List.length_eq_zero.mp (Nat.le_zero.mp hn)
    subst this
    cases m <;> rfl
  | succ n ih =>
    intro m s hn hm
    cases s with
    | nil => cases m <;> rfl
    | cons s0 t =>
      cases m with
      | zero => simp at hm
      | succ m =>
        have hd := drop_decode_length s0 t
        simp only [List.length_cons] at hn hm
        simp only [mapFirst]
        rw [ih m _ (by omega) (by omega), mapRest_fuel f n m _ (by omega) (by omega)]

theorem mapRest_step (f : Nat → Nat) (s : GoString) (h : s ≠ []) :
    mapRest f s.length s =
      AppendRune (f (DecodeRuneInString s).1) ++
        mapRest f (s.drop (DecodeRuneInString s).2).length (s.drop (DecodeRuneInString s).2) := by
  cases s with
  | nil => exact absurd rfl h
  | cons s0 t =>
    have hd := drop_decode_length s0 t
    simp only [List.length_cons, mapRest]
    rw [mapRest_fuel f t.length _ _ hd (Nat.le_refl _)]

theorem mapFirst_step (f : Nat → Nat) (s : GoString) (h : s ≠ []) :
    mapFirst f s.length s =
      if f (DecodeRuneInString s).1 = (DecodeRuneInString s).1 ∧
          ¬ ((DecodeRuneInString s).1 = RuneError ∧ (DecodeRuneInString s).2 = 1) then
        (mapFirst f (s.drop (DecodeRuneInString s).2).length
          (s.drop (DecodeRuneInString s).2)).map
            (fun out => s.take (DecodeRuneInString s).2 ++ out)
      else
        some (AppendRune (f (DecodeRuneInString s).1) ++
          mapRest f (s.drop (DecodeRuneInString s).2).length
            (s.drop (DecodeRuneInString s).2)) := by
  cases s with
  | nil => exact absurd rfl h
  | cons s0 t =>
    have hd := drop_decode_length s0 t
    simp only [List.length_cons, mapFirst]
    rw [mapFirst_fuel f t.length _ _ hd (Nat.le_refl _),
      mapRest_fuel f t.length _ _ hd (Nat.le_refl _)]

theorem toUpper_space (toUpperCase : Nat → Nat)
    (hfix : ∀ r, 128 ≤ r → IsSpace r = true → toUpperCase r = r) (w : Nat)
    (hw : IsSpace w = true) : unicodeToUpper toUpperCase w = w := by
  rcases space_encoding w hw with ⟨h1, h2, _⟩ | ⟨_, _, _, _, _, _, _, h128, _⟩ |
    ⟨_, _, _, _, _, _, _, _, _, h128, _⟩
  · have hnot : ¬ (97 ≤ w ∧ w ≤ 122) := by
      intro hc
      simp only [asciiSpace, Bool.or_eq_true, beq_iff_eq] at h2
      omega
    have hle : w ≤ 127 := by omega
    simp [unicodeToUpper, hle, hnot]
  · have hle : ¬ w ≤ 127 := by omega
    simp only [unicodeToUpper, hle, if_false]
    exact hfix w h128 hw
  · have hle : ¬ w ≤ 127 := by omega
    simp only [unicodeToUpper, hle, if_false]
    exact hfix w h128 hw

/-- The encoding of a white space rune decodes to that rune, whatever follows. -/
theorem decode_space (w : Nat) (hw : IsSpace w = true) (rest : GoString) :
    AppendRune w ≠ [] ∧
    DecodeRuneInString (AppendRune w ++ rest) = (w, (AppendRune w).length) ∧
    w ≠ RuneError ∧
    (∀ b, (AppendRune w ++ rest).head? = some b → b < 128 ∨ 191 < b) := by
  rcases space_encoding w hw with ⟨h1, _, h3⟩ | ⟨b0, b1, henc, hb0, _, _, hdec, _, hne⟩ |
    ⟨b0, b1, b2, henc, hb0, _, _, _, hdec, _, hne⟩
  · rw [h3]
    refine ⟨List.cons_ne_nil _ _, ?_, ?_, ?_⟩
    · have hf : 240 ≤ first w := by
        unfold first; simp [h1]
      have hf2 : first w ≠ 241 := by
        unfold first; simp [h1]
      simp [DecodeRuneInString, hf, hf2]
    · unfold RuneError; omega
    · intro b hb
      simp at hb
      omega
  · rw [henc]
    refine ⟨List.cons_ne_nil _ _, hdec rest, hne, ?_⟩
    intro b hb
    simp at hb
    omega
  · rw [henc]
    refine ⟨List.cons_ne_nil _ _, hdec rest, hne, ?_⟩
    intro b hb
    simp at hb
    omega

theorem head_spaces (qs : List Nat) (hqs : ∀ w ∈ qs, IsSpace w = true) :
    ∀ b, (qs.flatMap AppendRune).head? = some b → b < 128 ∨ 191 < b := by
  cases qs with
  | nil => intro b hb; simp at hb
  | cons w qs =>
    rw [List.flatMap_cons]
    exact (decode_space w (hqs w (List.mem_cons_self _ _)) _).2.2.2

theorem drop_decode_append (x q : GoString) (hx : x ≠ []) :
    (x ++ q).drop (DecodeRuneInString x).2 = x.drop (DecodeRuneInString x).2 ++ q ∧
    (x ++ q).take (DecodeRuneInString x).2 = x.take (DecodeRuneInString x).2 := by
  have h := decode_width x hx
  exact ⟨List.drop_append_of_le_length h.2, List.take_append_of_le_length h.2⟩

theorem mapRest_space (f : Nat → Nat) (w : Nat) (hw : IsSpace w = true) (hf : f w = w)
    (rest : GoString) :
    mapRest f (AppendRune w ++ rest).length (AppendRune w ++ rest) =
      AppendRune w ++ mapRest f rest.length rest := by
  obtain ⟨hne, hdec, _, _⟩ := decode_space w hw rest
  rw [mapRest_step f _ (by simp [hne]), hdec]
  simp only [hf, List.drop_left']

theorem mapRest_spaces (f : Nat → Nat) (hf : ∀ w, IsSpace w = true → f w = w) :
    ∀ qs : List Nat, (∀ w ∈ qs, IsSpace w = true) →
      mapRest f (qs.flatMap AppendRune).length (qs.flatMap AppendRune) =
        qs.flatMap AppendRune := by
  intro qs
  induction qs with
  | nil => intro _; rfl
  | cons w qs ih =>
    intro hqs
    have hw := hqs w (List.mem_cons_self _ _)
    rw [List.flatMap_cons, mapRest_space f w hw (hf w hw),
      ih (fun v hv => hqs v (List.mem_cons_of_mem _ hv))]

theorem mapRest_append (f : Nat → Nat) (hf : ∀ w, IsSpace w = true → f w = w)
    (qs : List Nat) (hqs : ∀ w ∈ qs, IsSpace w = true) :
    ∀ (n : Nat) (x : GoString), x.length ≤ n →
      mapRest f (x ++ qs.flatMap AppendRune).length (x ++ qs.flatMap AppendRune) =
        mapRest f x.length x ++ qs.flatMap AppendRune := by
  intro n
  induction n with
  | zero =>
    intro x hx
    have : x = [] := List.length_eq_zero.mp (Nat.le_zero.mp hx)
    subst this
    rw [List.nil_append, mapRest_spaces f hf qs hqs]
    rfl
  | succ n ih =>
    intro x hx
    by_cases hnil : x = []
    · subst hnil
      rw [List.nil_append, mapRest_spaces f hf qs hqs]
      rfl
    · have hw := decode_width x hnil
      have hdec := decode_append x (qs.flatMap AppendRune) hnil (head_spaces qs hqs)
      have hd := drop_decode_append x (qs.flatMap AppendRune) hnil
      rw [mapRest_step f _ (by simp [hnil]), hdec, hd.1, mapRest_step f x hnil,
        ih _ (by rw [List.length_drop]; omega), List.append_assoc]

theorem mapFirst_space (f : Nat → Nat) (w : Nat) (hw : IsSpace w = true) (hf : f w = w)
    (rest : GoString) :
    mapFirst f (AppendRune w ++ rest).length (AppendRune w ++ rest) =
      (mapFirst f rest.length rest).map (fun out => AppendRune w ++ out) := by
  obtain ⟨hne, hdec, hre, _⟩ := decode_space w hw rest
  rw [mapFirst_step f _ (by simp [hne]), hdec]
  simp only [hf, hre, false_and, not_false_eq_true, and_self, if_true, List.drop_left',
    List.take_left']

theorem mapFirst_spaces (f : Nat → Nat) (hf : ∀ w, IsSpace w = true → f w = w) :
    ∀ qs : List Nat, (∀ w ∈ qs, IsSpace w = true) →
      mapFirst f (qs.flatMap AppendRune).length (qs.flatMap AppendRune) = none := by
  intro qs
  induction qs with
  | nil => intro _; rfl
  | cons w qs ih =>
    intro hqs
    have hw := hqs w (List.mem_cons_self _ _)
    rw [List.flatMap_cons, mapFirst_space f w hw (hf w hw),
      ih (fun v hv => hqs v (List.mem_cons_of_mem _ hv))]
    rfl

theorem mapFirst_append (f : Nat → Nat) (hf : ∀ w, IsSpace w = true → f w = w)
    (qs : List Nat) (hqs : ∀ w ∈ qs, IsSpace w = true) :
    ∀ (n : Nat) (x : GoString), x.length ≤ n →
      mapFirst f (x ++ qs.flatMap AppendRune).length (x ++ qs.flatMap AppendRune) =
        (mapFirst f x.length x).map (fun out => out ++ qs.flatMap AppendRune) := by
  intro n
  induction n with
  | zero =>
    intro x hx
    have : x = [] := List.length_eq_zero.mp (Nat.le_zero.mp hx)
    subst this
    rw [List.nil_append, mapFirst_spaces f hf qs hqs]
    rfl
  | succ n ih =>
    intro x hx
    by_cases hnil : x = []
    · subst hnil
      rw [List.nil_append, mapFirst_spaces f hf qs hqs]
      rfl
    · have hw := decode_width x hnil
      have hdec := decode_append x (qs.flatMap AppendRune) hnil (head_spaces qs hqs)
      have hd := drop_decode_append x (qs.flatMap AppendRune) hnil
      rw [mapFirst_step f _ (by simp [hnil]), hdec, hd.1, hd.2, mapFirst_step f x hnil,
        ih _ (by rw [List.length_drop]; omega),
        mapRest_append f hf qs hqs x.length _ (by rw [List.length_drop]; omega)]
      split
      · simp only [Option.map_map]
        congr 1
        funext out
        simp
      · simp

theorem Map_space (f : Nat → Nat) (w : Nat) (hw : IsSpace w = true) (hf : f w = w)
    (rest : GoString) : Map f (AppendRune w ++ rest) = AppendRune w ++ Map f rest := by
  unfold Map
  rw [mapFirst_space f w hw hf rest]
  cases mapFirst f rest.length rest <;> rfl

theorem Map_append (f : Nat → Nat) (hf : ∀ w, IsSpace w = true → f w = w)
    (qs : List Nat) (hqs : ∀ w ∈ qs, IsSpace w = true) (x : GoString) :
    Map f (x ++ qs.flatMap AppendRune) = Map f x ++ qs.flatMap AppendRune := by
  unfold Map
  rw [mapFirst_append f hf qs hqs x.length x (Nat.le_refl _)]
  cases mapFirst f x.length x <;> rfl

theorem Map_pad (f : Nat → Nat) (hf : ∀ w, IsSpace w = true → f w = w)
    (ps qs : List Nat) (hps : ∀ w ∈ ps, IsSpace w = true) (hqs : ∀ w ∈ qs, IsSpace w = true)
    (s : GoString) :
    Map f (ps.flatMap AppendRune ++ s ++ qs.flatMap AppendRune) =
      ps.flatMap AppendRune ++ Map f s ++ qs.flatMap AppendRune := by
  rw [Map_append f hf qs hqs]
  congr 1
  induction ps with
  | nil => rfl
  | cons w ps ih =>
    have hw := hps w (List.mem_cons_self _ _)
    rw [List.flatMap_cons, List.append_assoc, Map_space f w hw (hf w hw),
      ih (fun v hv => hps v (List.mem_cons_of_mem _ hv)), List.append_assoc]

theorem decode_ascii (b : Nat) (t : GoString) (hb : b < 128) :
    DecodeRuneInString (b :: t) = (b, 1) := by
  have hf : first b = 240 := by
    unfold first; simp [hb]
  simp [DecodeRuneInString, hf]

theorem toUpper_ascii_rune (toUpperCase : Nat → Nat) (b : Nat) (hb : b < 128) :
    unicodeToUpper toUpperCase b = upperByte b ∧ AppendRune (upperByte b) = [upperByte b] ∧
      upperByte b < 128 := by
  have hle : b ≤ 127 := by omega
  have hup : upperByte b < 128 := by
    unfold upperByte; split <;> omega
  have hup2 : upperByte b ≤ 127 := by omega
  refine ⟨?_, ?_, hup⟩
  · simp only [unicodeToUpper, hle, if_true, upperByte]
  · simp only [AppendRune, hup2, if_true]

theorem mapRest_ascii (toUpperCase : Nat → Nat) :
    ∀ x : GoString, (∀ b ∈ x, b < 128) →
      mapRest (unicodeToUpper toUpperCase) x.length x = x.map upperByte := by
  intro x
  induction x with
  | nil => intro _; rfl
  | cons b t ih =>
    intro hx
    have hb := hx b (List.mem_cons_self _ _)
    obtain ⟨h1, h2, _⟩ := toUpper_ascii_rune toUpperCase b hb
    rw [mapRest_step _ _ (List.cons_ne_nil _ _), decode_ascii b t hb]
    simp only [h1, h2, List.drop_succ_cons, List.drop_zero, List.map_cons, List.singleton_append]
    rw [ih (fun c hc => hx c (List.mem_cons_of_mem _ hc))]

theorem Map_ascii (toUpperCase : Nat → Nat) :
    ∀ x : GoString, (∀ b ∈ x, b < 128) →
      Map (unicodeToUpper toUpperCase) x = x.map upperByte := by
  intro x
  induction x with
  | nil => intro _; rfl
  | cons b t ih =>
    intro hx
    have hb := hx b (List.mem_cons_self _ _)
    have ht : ∀ c ∈ t, c < 128 := fun c hc => hx c (List.mem_cons_of_mem _ hc)
    obtain ⟨h1, h2, _⟩ := toUpper_ascii_rune toUpperCase b hb
    have hre : b ≠ RuneError := by unfold RuneError; omega
    have iht := ih ht
    unfold Map at iht ⊢
    rw [mapFirst_step _ _ (List.cons_ne_nil _ _), decode_ascii b t hb]
    simp only [h1, h2, hre, false_and, not_false_eq_true, and_true, List.drop_succ_cons,
      List.drop_zero, List.take_succ_cons, List.take_zero, List.map_cons, List.singleton_append]
    split
    · rename_i heq
      rw [heq]
      cases hm : mapFirst (unicodeToUpper toUpperCase) t.length t with
      | none =>
        rw [hm] at iht
        simp only [Option.map_none', Option.getD_none]
        rw [← iht]
        simp at iht ⊢
      | some out =>
        rw [hm] at iht
        simp only [Option.map_some', Option.getD_some, List.cons_append, List.nil_append]
        simp only [Option.getD_some] at iht
        rw [iht]
    · simp only [Option.getD_some]
      rw [mapRest_ascii toUpperCase t ht]

theorem ToUpper_std (toUpperCase : Nat → Nat) (s : GoString) :
    ToUpper (Unicode.std toUpperCase) s = Map (unicodeToUpper toUpperCase) s := by
  by_cases h : ∀ b ∈ s, b < 128
  · rw [ToUpper_ascii _ s h, Map_ascii toUpperCase s h]
  · have hall : s.all (fun c => decide (c < 128)) = false := by
      rw [Bool.eq_false_iff]
      intro hc
      exact h (by simpa using hc)
    simp only [ToUpper, hall]
    rfl

theorem ToUpper_pad (toUpperCase : Nat → Nat)
    (hfix : ∀ r, 128 ≤ r → IsSpace r = true → toUpperCase r = r)
    (ps qs : List Nat) (hps : ∀ w ∈ ps, IsSpace w = true) (hqs : ∀ w ∈ qs, IsSpace w = true)
    (s : GoString) :
    ToUpper (Unicode.std toUpperCase) (ps.flatMap AppendRune ++ s ++ qs.flatMap AppendRune) =
      ps.flatMap AppendRune ++ ToUpper (Unicode.std toUpperCase) s ++
        qs.flatMap AppendRune := by
  rw [ToUpper_std, ToUpper_std]
  exact Map_pad _ (fun w hw => toUpper_space toUpperCase hfix w hw) ps qs hps hqs s

/-! ## `strings.TrimLeftFunc` with `unicode.IsSpace` -/

theorem TrimLeftFunc_fuel (f : Nat → Bool) :
    ∀ (n m : Nat) (s : GoString), s.length ≤ n → s.length ≤ m →
      TrimLeftFunc f n s = TrimLeftFunc f m s := by
  intro n
  induction n with
  | zero =>
    intro m s hn _
    have : s = [] := List.length_eq_zero.mp (Nat.le_zero.mp hn)
    subst this
    cases m <;> rfl
  | succ n ih =>
    intro m s hn hm
    cases s with
    | nil => cases m <;> rfl
    | cons s0 t =>
      cases m with
      | zero => simp at hm
      | succ m =>
        have hd := drop_decode_length s0 t
        simp only [List.length_cons] at hn hm
        simp only [TrimLeftFunc]
        rw [ih m _ (by omega) (by omega)]

theorem TrimLeftFunc_step (f : Nat → Bool) (s : GoString) (h : s ≠ []) :
    TrimLeftFunc f s.length s =
      if f (DecodeRuneInString s).1 = false then s
      else TrimLeftFunc f (s.drop (DecodeRuneInString s).2).length
        (s.drop (DecodeRuneInString s).2) := by
  cases s with
  | nil => exact absurd rfl h
  | cons s0 t =>
    have hd := drop_decode_length s0 t
    simp only [List.length_cons, TrimLeftFunc]
    rw [TrimLeftFunc_fuel f t.length _ _ hd (Nat.le_refl _)]

theorem TrimLeftFunc_space (w : Nat) (hw : IsSpace w = true) (rest : GoString) :
    TrimLeftFunc IsSpace (AppendRune w ++ rest).length (AppendRune w ++ rest) =
      TrimLeftFunc IsSpace rest.length rest := by
  obtain ⟨hne, hdec, _, _⟩ := decode_space w hw rest
  rw [TrimLeftFunc_step _ _ (by simp [hne]), hdec]
  simp only [hw, Bool.true_eq_false, if_false, List.drop_left']

theorem TrimLeftFunc_spaces :
    ∀ (ps : List Nat), (∀ w ∈ ps, IsSpace w = true) → ∀ rest : GoString,
      TrimLeftFunc IsSpace (ps.flatMap AppendRune ++ rest).length
          (ps.flatMap AppendRune ++ rest) =
        TrimLeftFunc IsSpace rest.length rest := by
  intro ps
  induction ps with
  | nil => intro _ rest; rfl
  | cons w ps ih =>
    intro hps rest
    have hw := hps w (List.mem_cons_self _ _)
    rw [List.flatMap_cons, List.append_assoc, TrimLeftFunc_space w hw,
      ih (fun v hv => hps v (List.mem_cons_of_mem _ hv))]

theorem TrimLeftFunc_append (qs : List Nat) (hqs : ∀ w ∈ qs, IsSpace w = true) :
    ∀ (n : Nat) (x : GoString), x.length ≤ n →
      (TrimLeftFunc IsSpace x.length x ≠ [] ∧
        TrimLeftFunc IsSpace (x ++ qs.flatMap AppendRune).length (x ++ qs.flatMap AppendRune) =
          TrimLeftFunc IsSpace x.length x ++ qs.flatMap AppendRune) ∨
      (TrimLeftFunc IsSpace x.length x = [] ∧
        TrimLeftFunc IsSpace (x ++ qs.flatMap AppendRune).length (x ++ qs.flatMap AppendRune) =
          []) := by
  have hall : TrimLeftFunc IsSpace (qs.flatMap AppendRune).length (qs.flatMap AppendRune) =
      [] := by
    have := TrimLeftFunc_spaces qs hqs []
    simpa using this
  intro n
  induction n with
  | zero =>
    intro x hx
    have : x = [] := List.length_eq_zero.mp (Nat.le_zero.mp hx)
    subst this
    right
    exact ⟨rfl, by rw [List.nil_append]; exact hall⟩
  | succ n ih =>
    intro x hx
    by_cases hnil : x = []
    · subst hnil
      right
      exact ⟨rfl, by rw [List.nil_append]; exact hall⟩
    · have hw := decode_width x hnil
      have hdec := decode_append x (qs.flatMap AppendRune) hnil (head_spaces qs hqs)
      have hd := drop_decode_append x (qs.flatMap AppendRune) hnil
      have e1 := TrimLeftFunc_step IsSpace (x ++ qs.flatMap AppendRune) (by simp [hnil])
      rw [hdec, hd.1] at e1
      rw [e1, TrimLeftFunc_step _ x hnil]
      by_cases hsp : IsSpace (DecodeRuneInString x).1 = false
      · left
        simp only [hsp, if_true]
        exact ⟨hnil, trivial⟩
      · simp only [hsp, if_false]
        exact ih _ (by rw [List.length_drop]; omega)

/-! ## `strings.TrimRightFunc` with `unicode.IsSpace` -/

theorem lastRuneBack_bounds (s : GoString) (h : s ≠ []) :
    1 ≤ lastRuneBack s ∧ lastRuneBack s ≤ s.length := by
  have hlen : 1 ≤ s.length := by
    cases s with
    | nil => exact absurd rfl h
    | cons a t => simp
  unfold lastRuneBack
  simp only []
  split_ifs <;> omega

theorem decodeLast_width (s : GoString) (h : s ≠ []) :
    1 ≤ (DecodeLastRuneInString s).2 ∧ (DecodeLastRuneInString s).2 ≤ s.length := by
  have hlen : 1 ≤ s.length := by
    cases s with
    | nil => exact absurd rfl h
    | cons a t => simp
  have hb := lastRuneBack_bounds s h
  unfold DecodeLastRuneInString
  split_ifs with h1 h2 h3
  · omega
  · exact ⟨Nat.le_refl _, hlen⟩
  · exact ⟨Nat.le_refl _, hlen⟩
  · have : (DecodeRuneInString (s.drop (s.length - lastRuneBack s))).2 = lastRuneBack s :=
      not_not.mp h3
    omega

theorem take_last_length (s : GoString) (h : s ≠ []) :
    (s.take (s.length - (DecodeLastRuneInString s).2)).length < s.length := by
  have hw := decodeLast_width s h
  rw [List.length_take]
  omega

theorem lastIndexFunc_fuel (f : Nat → Bool) :
    ∀ (n m : Nat) (s : GoString), s.length ≤ n → s.length ≤ m →
      lastIndexFunc f n s = lastIndexFunc f m s := by
  intro n
  induction n with
  | zero =>
    intro m s hn _
    have : s = [] := List.length_eq_zero.mp (Nat.le_zero.mp hn)
    subst this
    cases m <;> simp [lastIndexFunc]
  | succ n ih =>
    intro m s hn hm
    by_cases hnil : s = []
    · subst hnil
      cases m <;> simp [lastIndexFunc]
    · have hlt := take_last_length s hnil
      cases m with
      | zero =>
        have : s = [] := List.length_eq_zero.mp (Nat.le_zero.mp hm)
        exact absurd this hnil
      | succ m =>
        simp only [lastIndexFunc]
        rw [ih m _ (by omega) (by omega)]

theorem lastIndexFunc_step (f : Nat → Bool) (s : GoString) (h : s ≠ []) :
    lastIndexFunc f s.length s =
      if f (DecodeLastRuneInString s).1 = false then
        some (s.length - (DecodeLastRuneInString s).2)
      else lastIndexFunc f (s.take (s.length - (DecodeLastRuneInString s).2)).length
        (s.take (s.length - (DecodeLastRuneInString s).2)) := by
  have hlt := take_last_length s h
  have hlen : s.length ≠ 0 := by
    intro h0
    exact h (List.length_eq_zero.mp h0)
  obtain ⟨n, hn⟩ : ∃ n, s.length = n + 1 := ⟨s.length - 1, by omega⟩
  have e : lastIndexFunc f (n + 1) s =
      if f (DecodeLastRuneInString s).1 = false then
        some (s.length - (DecodeLastRuneInString s).2)
      else lastIndexFunc f n (s.take (s.length - (DecodeLastRuneInString s).2)) := by
    simp only [lastIndexFunc, hlen, if_false]
  rw [lastIndexFunc_fuel f n _ _ (by omega) (Nat.le_refl _)] at e
  rw [← hn] at e
  exact e

theorem lastIndexFunc_lt (f : Nat → Bool) :
    ∀ (n : Nat) (s : GoString) (i : Nat), s.length ≤ n →
      lastIndexFunc f s.length s = some i → i < s.length := by
  intro n
  induction n with
  | zero =>
    intro s i hn h
    have : s = [] := List.length_eq_zero.mp (Nat.le_zero.mp hn)
    subst this
    simp [lastIndexFunc] at h
  | succ n ih =>
    intro s i hn h
    by_cases hnil : s = []
    · subst hnil
      simp [lastIndexFunc] at h
    · have hw := decodeLast_width s hnil
      have hlt := take_last_length s hnil
      rw [lastIndexFunc_step f s hnil] at h
      split at h
      · have := Option.some.inj h
        omega
      · have := ih _ i (by omega) h
        omega

theorem decodeLast_space (w : Nat) (hw : IsSpace w = true) (z : GoString) :
    DecodeLastRuneInString (z ++ AppendRune w) = (w, (AppendRune w).length) := by
  rcases space_encoding w hw with ⟨h1, _, h3⟩ | ⟨b0, b1, henc, _, hs0, hb1, hdec, _, _⟩ |
    ⟨b0, b1, b2, henc, _, hs0, hs1, hb2, hdec, _, _⟩
  · rw [h3]
    exact decodeLast_one z w h1
  · rw [henc, decodeLast_two z b0 b1 hb1 hs0, hdec []]
    rfl
  · rw [henc, decodeLast_three z b0 b1 b2 hb2 hs1 hs0, hdec []]
    rfl

theorem lastIndexFunc_space (w : Nat) (hw : IsSpace w = true) (x : GoString) :
    lastIndexFunc IsSpace (x ++ AppendRune w).length (x ++ AppendRune w) =
      lastIndexFunc IsSpace x.length x := by
  have hne := (decode_space w hw []).1
  have e1 := lastIndexFunc_step IsSpace (x ++ AppendRune w) (by simp [hne])
  rw [decodeLast_space w hw x] at e1
  simp only [hw, Bool.true_eq_false, if_false, List.length_append, Nat.add_sub_cancel,
    List.take_left'] at e1
  rw [List.length_append]
  exact e1

theorem TrimRightFunc_space (w : Nat) (hw : IsSpace w = true) (x : GoString) :
    TrimRightFunc IsSpace (x ++ AppendRune w) = TrimRightFunc IsSpace x := by
  unfold TrimRightFunc
  rw [lastIndexFunc_space w hw x]
  cases hl : lastIndexFunc IsSpace x.length x with
  | none => simp
  | some i =>
    have hi := lastIndexFunc_lt IsSpace x.length x i (Nat.le_refl _) hl
    have hget : (x ++ AppendRune w).getD i 0 = x.getD i 0 := by
      rw [List.getD_eq_getElem?_getD, List.getD_eq_getElem?_getD,
        List.getElem?_append_left hi]
    have hdne : x.drop i ≠ [] := by
      intro hc
      have := congrArg List.length hc
      rw [List.length_drop] at this
      simp at this
      omega
    have hdrop : (x ++ AppendRune w).drop i = x.drop i ++ AppendRune w :=
      List.drop_append_of_le_length (Nat.le_of_lt hi)
    have hdec : DecodeRuneInString ((x ++ AppendRune w).drop i) =
        DecodeRuneInString (x.drop i) := by
      rw [hdrop]
      apply decode_append _ _ hdne
      have := (decode_space w hw []).2.2.2
      simpa using this
    have hwd := decode_width (x.drop i) hdne
    rw [List.length_drop] at hwd
    simp only [hget, hdec]
    split
    · exact List.take_append_of_le_length (by omega)
    · exact List.take_append_of_le_length (by omega)

theorem TrimRightFunc_spaces :
    ∀ (qs : List Nat), (∀ w ∈ qs, IsSpace w = true) → ∀ x : GoString,
      TrimRightFunc IsSpace (x ++ qs.flatMap AppendRune) = TrimRightFunc IsSpace x := by
  intro qs
  induction qs with
  | nil => intro _ x; simp
  | cons w qs ih =>
    intro hqs x
    have hw := hqs w (List.mem_cons_self _ _)
    rw [List.flatMap_cons, ← List.append_assoc,
      ih (fun v hv => hqs v (List.mem_cons_of_mem _ hv)), TrimRightFunc_space w hw]

theorem TrimRightFunc_keep (z : GoString) (c : Nat) (hc : c < 128)
    (hsp : IsSpace c = false) : TrimRightFunc IsSpace (z ++ [c]) = z ++ [c] := by
  have e1 := lastIndexFunc_step IsSpace (z ++ [c]) (by simp)
  rw [decodeLast_one z c hc] at e1
  simp only [hsp, if_true, List.length_append, List.length_singleton,
    Nat.add_sub_cancel] at e1
  unfold TrimRightFunc
  rw [List.length_append, List.length_singleton, e1]
  have hget : (z ++ [c]).getD z.length 0 = c := getD_append_len z [c] 0
  have hnot : ¬ 128 ≤ c := by omega
  simp only [hget, hnot, if_false]
  exact List.take_of_length_le (by simp)

/-! ## `strings.TrimSpace` over the standard library -/

theorem asciiSpace_eq_IsSpace (c : Nat) (hc : c < 128) : asciiSpace c = IsSpace c := by
  interval_cases c <;> rfl

theorem appendRune_ascii (c : Nat) (hc : c < 128) : AppendRune c = [c] := by
  have : c ≤ 127 := by omega
  simp only [AppendRune, this, if_true]

theorem trimSpaceStop_std (toUpperCase : Nat → Nat) :
    ∀ r : GoString,
      trimSpaceStop (Unicode.std toUpperCase) r = TrimRightFunc IsSpace r.reverse := by
  intro r
  induction r with
  | nil => rfl
  | cons c rest ih =>
    by_cases hc : 128 ≤ c
    · simp only [trimSpaceStop, hc, if_true]
      rfl
    · have hlt : c < 128 := by omega
      have henc := appendRune_ascii c hlt
      cases hsp : asciiSpace c with
      | true =>
        have hw : IsSpace c = true := by rw [← asciiSpace_eq_IsSpace c hlt]; exact hsp
        simp only [trimSpaceStop, hc, if_false, hsp, if_true]
        rw [ih, List.reverse_cons]
        have := TrimRightFunc_space c hw rest.reverse
        rw [henc] at this
        exact this.symm
      | false =>
        have hw : IsSpace c = false := by rw [← asciiSpace_eq_IsSpace c hlt]; exact hsp
        simp only [trimSpaceStop, hc, if_false, hsp, Bool.false_eq_true]
        rw [List.reverse_cons]
        exact (TrimRightFunc_keep rest.reverse c hlt hw).symm

theorem TrimSpace_std (toUpperCase : Nat → Nat) :
    ∀ y : GoString,
      TrimSpace (Unicode.std toUpperCase) y =
        TrimRightFunc IsSpace (TrimLeftFunc IsSpace y.length y) := by
  intro y
  induction y with
  | nil => rfl
  | cons c rest ih =>
    by_cases hc : 128 ≤ c
    · simp only [TrimSpace, hc, if_true]
      rfl
    · have hlt : c < 128 := by omega
      have henc := appendRune_ascii c hlt
      cases hsp : asciiSpace c with
      | true =>
        have hw : IsSpace c = true := by rw [← asciiSpace_eq_IsSpace c hlt]; exact hsp
        simp only [TrimSpace, hc, if_false, hsp, if_true]
        have := TrimLeftFunc_space c hw rest
        rw [henc] at this
        rw [ih]
        exact congrArg (TrimRightFunc IsSpace) this.symm
      | false =>
        have hw : IsSpace c = false := by rw [← asciiSpace_eq_IsSpace c hlt]; exact hsp
        simp only [TrimSpace, hc, if_false, hsp, Bool.false_eq_true]
        rw [trimSpaceStop_std, List.reverse_reverse,
          TrimLeftFunc_step IsSpace (c :: rest) (List.cons_ne_nil _ _), decode_ascii c rest hlt]
        simp only [hw, if_true]

theorem TrimSpace_std_pad (toUpperCase : Nat → Nat) (ps qs : List Nat)
    (hps : ∀ w ∈ ps, IsSpace w = true) (hqs : ∀ w ∈ qs, IsSpace w = true) (y : GoString) :
    TrimSpace (Unicode.std toUpperCase)
        (ps.flatMap AppendRune ++ y ++ qs.flatMap AppendRune) =
      TrimSpace (Unicode.std toUpperCase) y := by
  rw [TrimSpace_std, TrimSpace_std, List.append_assoc, TrimLeftFunc_spaces ps hps]
  rcases TrimLeftFunc_append qs hqs y.length y (Nat.le_refl _) with ⟨_, h⟩ | ⟨h1, h2⟩
  · rw [h, TrimRightFunc_spaces qs hqs]
  · rw [h1, h2]

theorem normalise_std_pad (toUpperCase : Nat → Nat)
    (hfix : ∀ r, 128 ≤ r → IsSpace r = true → toUpperCase r = r)
    (ps qs : List Nat) (hps : ∀ w ∈ ps, IsSpace w = true) (hqs : ∀ w ∈ qs, IsSpace w = true)
    (s : GoString) :
    normalise (Unicode.std toUpperCase)
        (ps.flatMap AppendRune ++ s ++ qs.flatMap AppendRune) =
      normalise (Unicode.std toUpperCase) s := by
  rw [normalise, normalise, ToUpper_pad toUpperCase hfix ps qs hps hqs,
    TrimSpace_std_pad toUpperCase ps qs hps hqs]

/-! ## The record of the chunks -/

theorem ceil_step (len i cores : Nat) (hi : i < len) (hc : 1 ≤ cores) :
    (len - i + cores - 1) / cores = (len - (i + cores) + cores - 1) / cores + 1 := by
  by_cases h : i + cores ≤ len
  · have e : len - i + cores - 1 = (len - (i + cores) + cores - 1) + cores := by omega
    rw [e, Nat.add_div_right _ (by omega)]
  · have e1 : len - (i + cores) + cores - 1 = cores - 1 := by omega
    have e2 : len - i + cores - 1 = (len - i - 1) + cores := by omega
    rw [e1, e2, Nat.add_div_right _ (by omega), Nat.div_eq_of_lt (by omega),
      Nat.div_eq_of_lt (by omega)]

theorem ceil_done (len i cores : Nat) (hi : ¬ i < len) (hc : 1 ≤ cores) :
    (len - i + cores - 1) / cores = 0 := by
  have e : len - i + cores - 1 = cores - 1 := by omega
  rw [e, Nat.div_eq_of_lt (by omega)]

theorem range_map_shift (f : Nat → Chunk) (i cores m : Nat) :
    (List.range (m + 1)).map (fun j => f (i + j * cores)) =
      f i :: (List.range m).map (fun j => f (i + cores + j * cores)) := by
  rw [List.range_succ_eq_map, List.map_cons, List.map_map]
  congr 1
  · simp
  · apply List.map_congr_left
    intro j _
    show f (i + (j + 1) * cores) = f (i + cores + j * cores)
    rw [Nat.succ_mul]
    congr 1
    omega

theorem chunkLoop_valid_log (u : Unicode) (σ : Schedule) (cores : Nat) (args : List GoString)
    (hσ : σ.Admissible) (hc : 1 ≤ cores) :
    ∀ (fuel i : Nat) (run : Run), args.length - i < fuel →
      (∀ s ∈ args.drop i, isValid u s = true) → run.results = [] →
      chunkLoop u σ cores args fuel i run =
        some { run with
          stdout := run.stdout ++ (args.drop i).map (fun s => revComp (normalise u s)),
          chunks := run.chunks ++
            (List.range ((args.length - i + cores - 1) / cores)).map
              (fun j => chunkAt u σ cores args (i + j * cores)),
          results := [] } := by
  intro fuel
  induction fuel with
  | zero => intro i run h; omega
  | succ fuel ih =>
    intro i run hfuel hv hch
    by_cases hi : i < args.length
    · have hv1 : ∀ s ∈ (args.drop i).take cores, isValid u s = true :=
        fun s hs => hv s (List.mem_of_mem_take hs)
      have hv2 : ∀ s ∈ args.drop (i + cores), isValid u s = true := by
        intro s hs
        apply hv
        rw [← List.drop_drop] at hs
        exact List.mem_of_mem_drop hs
      rw [chunkLoop_good u σ cores args fuel i run hσ hi hv1 hch]
      rw [ih (i + cores)
        { run with
          stdout := run.stdout ++
            ((args.drop i).take cores).map (fun s => revComp (normalise u s)),
          chunks := run.chunks ++
            [{ start := i, dispatched := dispatchLoop args i cores 0,
               collected := σ.arrive i ((dispatchLoop args i cores 0).map (finished u)) }],
          results := [] }
        (by omega) hv2 rfl]
      have hsplit : (args.drop i).map (fun s => revComp (normalise u s)) =
          ((args.drop i).take cores).map (fun s => revComp (normalise u s)) ++
            (args.drop (i + cores)).map (fun s => revComp (normalise u s)) := by
        rw [← List.map_append, ← List.drop_drop, List.take_append_drop]
      rw [ceil_step args.length i cores hi hc, range_map_shift]
      simp only [hsplit, List.append_assoc, List.singleton_append]
      rfl
    · rw [chunkLoop_done u σ cores args fuel i run hi, ceil_done args.length i cores hi hc]
      have : args.drop i = [] := List.drop_eq_nil_of_le (by omega)
      simp [this, ← hch]

theorem main_valid_log (u : Unicode) (σ : Schedule) (cores : Nat) (prog : GoString)
    (seqs : List GoString) (fuel : Nat) (hc : 1 ≤ cores) (hne : seqs ≠ [])
    (hσ : σ.Admissible) (hv : ∀ s ∈ seqs, isValid u s = true)
    (hfuel : (prog :: seqs).length ≤ fuel) :
    main u σ cores (prog :: seqs) fuel =
      some { stdout := seqs.map (fun s => revComp (normalise u s)), stderr := [], exit := 0,
             chunks := (List.range ((seqs.length + cores - 1) / cores)).map
               (fun j => chunkAt u σ cores (prog :: seqs) (1 + j * cores)),
             results := [] } := by
  have hlen : ¬ (prog :: seqs).length < 2 := by
    cases seqs with
    | nil => exact absurd rfl hne
    | cons a l => simp
  have hrun := chunkLoop_valid_log u σ cores (prog :: seqs) hσ hc fuel 1
    { stdout := [], stderr := [], exit := 0, chunks := [], results := [] }
    (by simp only [List.length_cons] at hfuel ⊢; omega) (by simpa using hv) rfl
  rw [main]
  simp only [hlen, if_false, hrun]
  simp


theorem chunkLoop_fail_log (u : Unicode) (σ : Schedule) (cores : Nat) (args : List GoString)
    (hσ : σ.Admissible) :
    ∀ (k fuel i : Nat) (run : Run), k < fuel →
      (∀ s ∈ (args.drop i).take (k * cores), isValid u s = true) →
      (∃ s ∈ (args.drop (i + k * cores)).take cores, isValid u s = false) →
      run.results = [] →
      ∃ (errs : List GoString),
        chunkLoop u σ cores args fuel i run =
          some { stdout := run.stdout ++
                   ((args.drop i).take (k * cores)).map (fun s => revComp (normalise u s)) ++ errs,
                 stderr := run.stderr, exit := 2,
                 chunks := run.chunks ++
                   (List.range k).map (fun j => chunkAt u σ cores args (i + j * cores)) ++
                   [{ start := i + k * cores,
                      dispatched := dispatchLoop args (i + k * cores) cores 0,
                      collected := [] }],
                 results := [] } := by
  intro k
  induction k with
  | zero =>
    intro fuel i run hfuel _ hbad hch
    obtain ⟨fuel, rfl⟩ : ∃ f, fuel = f + 1 := ⟨fuel - 1, by omega⟩
    have h0 : i + 0 * cores = i := by omega
    rw [h0] at hbad ⊢
    have hi : i < args.length := by
      obtain ⟨s, hs, _⟩ := hbad
      have hmem := List.mem_of_mem_take hs
      by_contra hge
      rw [List.drop_eq_nil_of_le (by omega)] at hmem
      exact absurd hmem (List.not_mem_nil s)
    obtain ⟨errs, hrun, _, _⟩ := chunkLoop_bad u σ cores args fuel i run hσ hi hbad
    refine ⟨errs, ?_⟩
    rw [hrun]
    simp [hch]
  | succ k ih =>
    intro fuel i run hfuel hv hbad hch
    obtain ⟨fuel, rfl⟩ : ∃ f, fuel = f + 1 := ⟨fuel - 1, by omega⟩
    have hmul : (k + 1) * cores = cores + k * cores := by
      rw [Nat.add_mul, Nat.one_mul, Nat.add_comm]
    have hidx : i + (k + 1) * cores = i + cores + k * cores := by omega
    rw [hmul, List.take_add] at hv
    rw [hidx] at hbad
    have hi : i < args.length := by
      obtain ⟨s, hs, _⟩ := hbad
      have hmem := List.mem_of_mem_take hs
      by_contra hge
      rw [List.drop_eq_nil_of_le (by omega)] at hmem
      exact absurd hmem (List.not_mem_nil s)
    have hv1 : ∀ s ∈ (args.drop i).take cores, isValid u s = true :=
      fun s hs => hv s (List.mem_append_left _ hs)
    have hv2 : ∀ s ∈ (args.drop (i + cores)).take (k * cores), isValid u s = true := by
      intro s hs
      apply hv
      rw [List.drop_drop]
      exact List.mem_append_right _ hs
    rw [chunkLoop_good u σ cores args fuel i run hσ hi hv1 hch]
    obtain ⟨errs, hrun⟩ := ih fuel (i + cores)
      { run with
          stdout := run.stdout ++
            ((args.drop i).take cores).map (fun s => revComp (normalise u s)),
          chunks := run.chunks ++
            [{ start := i, dispatched := dispatchLoop args i cores 0,
               collected := σ.arrive i ((dispatchLoop args i cores 0).map (finished u)) }],
          results := [] }
      (by omega) hv2 hbad rfl
    refine ⟨errs, ?_⟩
    rw [hrun, hidx, hmul, List.take_add, List.drop_drop, range_map_shift]
    simp only [List.map_append, List.append_assoc, List.singleton_append, List.cons_append]
    rfl

theorem main_fail_log (u : Unicode) (σ : Schedule) (cores : Nat) (prog : GoString)
    (seqs : List GoString) (k fuel : Nat) (hc : 1 ≤ cores) (hσ : σ.Admissible)
    (hv : ∀ s ∈ seqs.take (k * cores), isValid u s = true)
    (hbad : ∃ s ∈ (seqs.drop (k * cores)).take cores, isValid u s = false)
    (hfuel : (prog :: seqs).length ≤ fuel) :
    ∃ (errs : List GoString),
      main u σ cores (prog :: seqs) fuel =
        some { stdout := (seqs.take (k * cores)).map (fun s => revComp (normalise u s)) ++ errs,
               stderr := [], exit := 2,
               chunks := (List.range k).map
                   (fun j => chunkAt u σ cores (prog :: seqs) (1 + j * cores)) ++
                 [{ start := 1 + k * cores,
                    dispatched := dispatchLoop (prog :: seqs) (1 + k * cores) cores 0,
                    collected := [] }],
               results := [] } ∧
      k * cores < seqs.length := by
  have hklt : k * cores < seqs.length := by
    obtain ⟨s, hs, _⟩ := hbad
    have hmem := List.mem_of_mem_take hs
    by_contra hge
    rw [List.drop_eq_nil_of_le (by omega)] at hmem
    exact absurd hmem (List.not_mem_nil s)
  have hkle : k ≤ k * cores := Nat.le_mul_of_pos_right k hc
  have hlen : ¬ (prog :: seqs).length < 2 := by
    simp only [List.length_cons]; omega
  have hd1 : (prog :: seqs).drop 1 = seqs := rfl
  have hdk : (prog :: seqs).drop (1 + k * cores) = seqs.drop (k * cores) := by
    rw [Nat.add_comm]; rfl
  obtain ⟨errs, hrun⟩ := chunkLoop_fail_log u σ cores (prog :: seqs) hσ k fuel 1
    { stdout := [], stderr := [], exit := 0, chunks := [], results := [] }
    (by simp only [List.length_cons] at hfuel; omega)
    (by rw [hd1]; exact hv) (by rw [hdk]; exact hbad) rfl
  rw [hd1] at hrun
  refine ⟨errs, ?_, hklt⟩
  rw [main]
  simp only [hlen, if_false, hrun, List.nil_append]

/-- Cutting a list into `m` consecutive pieces of `cores` elements gives the list back
when `m * cores` reaches its length. -/
theorem pieces_flatMap {α : Type} (cores : Nat) :
    ∀ (m : Nat) (l : List α), l.length ≤ m * cores →
      (List.range m).flatMap (fun j => (l.drop (j * cores)).take cores) = l := by
  intro m
  induction m with
  | zero =>
    intro l hl
    have : l = [] := List.length_eq_zero.mp (by omega)
    subst this
    rfl
  | succ m ih =>
    intro l hl
    rw [List.range_succ_eq_map, List.flatMap_cons, List.flatMap_map]
    have hrest : (List.range m).flatMap
        (fun j => (l.drop ((j + 1) * cores)).take cores) = l.drop cores := by
      have := ih (l.drop cores) (by
        rw [List.length_drop, Nat.succ_mul] at *
        omega)
      rw [← this]
      congr 1
      funext j
      rw [List.drop_drop, Nat.succ_mul, Nat.add_comm]
    simp only [Nat.zero_mul, List.drop_zero]
    have hfun : (fun a => (l.drop (a.succ * cores)).take cores) =
        (fun j => (l.drop ((j + 1) * cores)).take cores) := rfl
    rw [hfun, hrest, List.take_append_drop]

theorem ceil_mul_ge (n cores : Nat) (hc : 1 ≤ cores) :
    n ≤ (n + cores - 1) / cores * cores ∧ (n + cores - 1) / cores * cores ≤ n + cores - 1 := by
  have h1 := Nat.div_add_mod (n + cores - 1) cores
  have h2 := Nat.mod_lt (n + cores - 1) (by omega : cores > 0)
  have h3 : cores * ((n + cores - 1) / cores) = (n + cores - 1) / cores * cores :=
    Nat.mul_comm _ _
  constructor <;> omega


/-! ## The indexed sequences that are dispatched -/

theorem dispatchLoop_items (args : List GoString) (i : Nat) :
    ∀ (n c : Nat), dispatchLoop args i n c = ((itemsOf args).drop (i + c)).take n := by
  intro n
  induction n with
  | zero => intro c; simp [dispatchLoop]
  | succ n ih =>
    intro c
    have hlen : (itemsOf args).length = args.length := by simp [itemsOf]
    by_cases h : c + i < args.length
    · have h2 : i + c < (itemsOf args).length := by omega
      have hget : (itemsOf args)[i + c] = newIndexedSequence (i + c) (args.getD (i + c) []) := by
        simp [itemsOf]
      simp only [dispatchLoop, h, if_true, ih (c + 1)]
      rw [List.drop_eq_getElem_cons h2, List.take_succ_cons, hget]
      rfl
    · simp only [dispatchLoop, h, if_false]
      rw [List.drop_eq_nil_of_le (by omega)]
      rfl

theorem itemsOf_cons (prog : GoString) (seqs : List GoString) :
    (itemsOf (prog :: seqs)).drop 1 =
      (List.range seqs.length).map (fun k => newIndexedSequence (k + 1) (seqs.getD k [])) := by
  simp only [itemsOf, List.length_cons, List.range_succ_eq_map, List.map_cons, List.map_map,
    List.drop_succ_cons, List.drop_zero]
  apply List.map_congr_left
  intro k _
  rfl

theorem chunkAt_printed (u : Unicode) (σ : Schedule) (cores : Nat) (args : List GoString)
    (i : Nat) (hσ : σ.Admissible) :
    (chunkAt u σ cores args i).printed = (dispatchLoop args i cores 0).map (finished u) ∧
    (chunkAt u σ cores args i).collected.length = (dispatchLoop args i cores 0).length := by
  have hperm := hσ.1 i ((dispatchLoop args i cores 0).map (finished u))
  have hpw : ((dispatchLoop args i cores 0).map (finished u)).Pairwise
      (fun x y => x.idx < y.idx) := by
    rw [List.pairwise_map]
    exact (dispatchLoop_idx args i cores 0).2
  constructor
  · exact sortSlice_perm_sorted _ _ hpw hperm
  · show (σ.arrive i ((dispatchLoop args i cores 0).map (finished u))).length = _
    rw [hperm.length_eq, List.length_map]

theorem log_dispatched (u : Unicode) (σ : Schedule) (cores : Nat) (prog : GoString)
    (seqs : List GoString) (m : Nat) (hm : seqs.length ≤ m * cores) :
    ((List.range m).map (fun j => chunkAt u σ cores (prog :: seqs) (1 + j * cores))).flatMap
        (fun c => c.dispatched) =
      (List.range seqs.length).map (fun k => newIndexedSequence (k + 1) (seqs.getD k [])) := by
  rw [List.flatMap_map, ← itemsOf_cons prog seqs]
  have hfun : (fun j => (chunkAt u σ cores (prog :: seqs) (1 + j * cores)).dispatched) =
      (fun j => (((itemsOf (prog :: seqs)).drop 1).drop (j * cores)).take cores) := by
    funext j
    show dispatchLoop (prog :: seqs) (1 + j * cores) cores 0 = _
    rw [dispatchLoop_items, List.drop_drop, Nat.add_zero]
  rw [hfun]
  apply pieces_flatMap
  rw [itemsOf_cons, List.length_map, List.length_range]
  exact hm

/-! ## The lookups of one worker -/

theorem lookupCount_le (m : List (GoString × GoString)) (s : GoString) :
    ∀ n : Nat, lookupCount m s n ≤ n := by
  intro n
  induction n with
  | zero => exact Nat.le_refl _
  | succ n ih =>
    simp only [lookupCount]
    split
    · omega
    · omega

theorem lookupCount_loop (m : List (GoString × GoString)) (s : GoString) :
    ∀ (n : Nat) (acc : GoString),
      (∃ out, complementLoop m s n acc = Except.ok out ∧ lookupCount m s n = n) ∨
      (∃ c, complementLoop m s n acc = Except.error c ∧ 1 ≤ lookupCount m s n) := by
  intro n
  induction n with
  | zero => intro acc; exact Or.inl ⟨acc, rfl, rfl⟩
  | succ n ih =>
    intro acc
    simp only [lookupCount, complementLoop]
    cases h : m.lookup ((s.drop n).take 1) with
    | none => exact Or.inr ⟨_, rfl, Nat.le_refl _⟩
    | some comp =>
      simp only []
      rcases ih (acc ++ comp) with ⟨out, h1, h2⟩ | ⟨c, h1, h2⟩
      · exact Or.inl ⟨out, h1, by rw [h2]⟩
      · exact Or.inr ⟨c, h1, by omega⟩


/-! ## Every run ends -/

theorem getElem?_range_map {α : Type} (f : Nat → α) (m j : Nat) (c : α)
    (h : ((List.range m).map f)[j]? = some c) : j < m ∧ c = f j := by
  by_cases hj : j < m
  · rw [List.getElem?_map, List.getElem?_range hj] at h
    exact ⟨hj, (Option.some.inj h).symm⟩
  · rw [List.getElem?_eq_none (by simp; omega)] at h
    exact Option.noConfusion h

theorem main_total (u : Unicode) (σ : Schedule) (cores : Nat) (args : List GoString)
    (fuel : Nat) (hc : 1 ≤ cores) (hσ : σ.Admissible) (hfuel : args.length ≤ fuel) :
    ∃ r, main u σ cores args fuel = some r ∧
      (∀ j c, r.chunks[j]? = some c → c.start = 1 + j * cores ∧ c.start < args.length) ∧
      r.chunks.length ≤ (args.length - 1 + cores - 1) / cores := by
  by_cases hlen : args.length < 2
  · refine ⟨{ stdout := [str "Error: Must supply at least one sequence as an argument"],
              stderr := [], exit := 1, chunks := [], results := [] },
      by rw [main]; simp only [hlen, if_true], ?_, ?_⟩
    · intro j c h
      simp at h
    · simp
  · obtain ⟨prog, seqs, rfl⟩ : ∃ prog seqs, args = prog :: seqs := by
      cases args with
      | nil => simp at hlen
      | cons a l => exact ⟨a, l, rfl⟩
    have hne : seqs ≠ [] := by
      intro h
      subst h
      simp at hlen
    have hn : (prog :: seqs).length - 1 = seqs.length := by simp
    rw [hn]
    have hceil := ceil_mul_ge seqs.length cores hc
    by_cases hv : ∀ s ∈ seqs, isValid u s = true
    · refine ⟨_, main_valid_log u σ cores prog seqs fuel hc hne hσ hv hfuel, ?_, by simp⟩
      intro j c h
      obtain ⟨hj, rfl⟩ := getElem?_range_map _ _ j c h
      refine ⟨rfl, ?_⟩
      show 1 + j * cores < (prog :: seqs).length
      have h1 : (j + 1) * cores ≤ (seqs.length + cores - 1) / cores * cores :=
        Nat.mul_le_mul_right cores hj
      rw [Nat.succ_mul] at h1
      simp only [List.length_cons]
      omega
    · have hbad : ∃ s ∈ seqs, isValid u s = false := by
        by_contra hno
        apply hv
        intro s hs
        cases hval : isValid u s with
        | true => rfl
        | false => exact absurd ⟨s, hs, hval⟩ hno
      obtain ⟨k, hbefore, hchunk⟩ := first_bad_chunk u cores seqs hc hbad
      obtain ⟨errs, hrun, hklt⟩ :=
        main_fail_log u σ cores prog seqs k fuel hc hσ hbefore hchunk hfuel
      refine ⟨_, hrun, ?_, ?_⟩
      · intro j c h
        by_cases hj : j < k
        · have h2 : ((List.range k).map
              (fun j => chunkAt u σ cores (prog :: seqs) (1 + j * cores)))[j]? = some c := by
            rw [← h]
            exact (List.getElem?_append_left (by simpa using hj)).symm
          obtain ⟨_, rfl⟩ := getElem?_range_map _ _ j c h2
          refine ⟨rfl, ?_⟩
          show 1 + j * cores < (prog :: seqs).length
          have h1 : (j + 1) * cores ≤ k * cores := Nat.mul_le_mul_right cores hj
          rw [Nat.succ_mul] at h1
          simp only [List.length_cons]
          omega
        · have hlenk : ((List.range k).map
              (fun j => chunkAt u σ cores (prog :: seqs) (1 + j * cores))).length = k := by
            simp
          have h2 := h
          simp only [] at h2
          rw [List.getElem?_append_right (by omega), hlenk] at h2
          have hjk : j = k := by
            by_contra hne2
            have : j - k ≠ 0 := by omega
            obtain ⟨d, hd⟩ : ∃ d, j - k = d + 1 := ⟨j - k - 1, by omega⟩
            rw [hd] at h2
            simp at h2
          subst hjk
          simp only [Nat.sub_self, List.getElem?_cons_zero] at h2
          have := Option.some.inj h2
          subst this
          refine ⟨rfl, ?_⟩
          show 1 + j * cores < (prog :: seqs).length
          simp only [List.length_cons]
          omega
      · show ((List.range k).map
            (fun j => chunkAt u σ cores (prog :: seqs) (1 + j * cores)) ++ [_]).length ≤ _
        rw [List.length_append, List.length_map, List.length_range, List.length_singleton]
        have : k < (seqs.length + cores - 1) / cores := by
          apply Nat.lt_of_mul_lt_mul_right (a := cores)
          omega
        omega


/-! ## Failing and succeeding workers -/

theorem ReverseComplement_of_missing (u : Unicode) (sequence : indexedSequence) (b : Nat)
    (hb : b ∈ normalise u sequence.seq) (hnone : compMap.lookup [b] = none) :
    ∃ pre c post, normalise u sequence.seq = pre ++ c :: post ∧
      compMap.lookup [c] = none ∧ (∀ x ∈ post, (compMap.lookup [x]).isSome = true) ∧
      ReverseComplement u sequence compMap =
        { sequence := sequence, stdout := [noComplementMessage ++ [c]], stderr := [],
          sent := [], done := false, exit := some 2 } := by
  rcases ReverseComplement_cases u sequence with ⟨hall, _⟩ | h
  · have := hall b hb
    rw [hnone] at this
    exact absurd this (by simp)
  · exact h

theorem ReverseComplement_of_success (u : Unicode) (sequence : indexedSequence)
    (h : (ReverseComplement u sequence compMap).exit = none) :
    (∀ b ∈ normalise u sequence.seq, b ∈ str "ACGTN-WS") ∧
      ReverseComplement u sequence compMap =
        { sequence := { sequence with seq := revComp (normalise u sequence.seq) },
          stdout := [], stderr := [],
          sent := [{ sequence with seq := revComp (normalise u sequence.seq) }],
          done := true, exit := none } := by
  rcases ReverseComplement_cases u sequence with ⟨hall, hrun⟩ | ⟨_, _, _, _, _, _, hrun⟩
  · exact ⟨fun b hb => (mem_table_iff b).mpr (hall b hb), hrun⟩
  · rw [hrun] at h
    exact Option.noConfusion h

theorem space_byte_missing (w : Nat) (hw : IsSpace w = true) :
    ∃ b rest, AppendRune w = b :: rest ∧ compMap.lookup [b] = none := by
  rcases space_encoding w hw with ⟨_, h2, h3⟩ | ⟨b0, b1, henc, hb0, _⟩ |
    ⟨b0, b1, b2, henc, hb0, _⟩
  · refine ⟨w, [], h3, (not_mem_table_iff w).mp ?_⟩
    intro hmem
    have := (mem_table w hmem).2.2.2.2.1
    rw [h2] at this
    exact absurd this (by decide)
  · refine ⟨b0, [b1], henc, (not_mem_table_iff b0).mp ?_⟩
    intro hmem
    have := (mem_table b0 hmem).2.2.2.1
    omega
  · refine ⟨b0, [b1, b2], henc, (not_mem_table_iff b0).mp ?_⟩
    intro hmem
    have := (mem_table b0 hmem).2.2.2.1
    omega


/-! ## The arguments behind the items -/

theorem itemsOf_seq (args : List GoString) :
    (itemsOf args).map (fun it => it.seq) = args := by
  apply List.ext_getElem
  · simp [itemsOf]
  · intro i h1 h2
    simp [itemsOf, newIndexedSequence, List.getElem?_eq_getElem h2]

theorem chunkAt_dispatched_seq (u : Unicode) (σ : Schedule) (cores : Nat) (prog : GoString)
    (seqs : List GoString) (j : Nat) :
    (chunkAt u σ cores (prog :: seqs) (1 + j * cores)).dispatched.map (fun it => it.seq) =
      (seqs.drop (j * cores)).take cores := by
  show (dispatchLoop (prog :: seqs) (1 + j * cores) cores 0).map (fun it => it.seq) = _
  rw [dispatchLoop_items, List.map_take, List.map_drop, itemsOf_seq, Nat.add_zero,
    Nat.add_comm 1 (j * cores), List.drop_succ_cons]


/-! ## The shape of one chunk -/

theorem range_map_getD {β : Type} (f : GoString → β) (l : List GoString) :
    (List.range l.length).map (fun k => f (l.getD k [])) = l.map f := by
  apply List.ext_getElem
  · simp
  · intro i h1 h2
    have h3 : i < l.length := by simpa using h2
    simp [List.getElem?_eq_getElem h3]

theorem dispatched_shape (cores : Nat) (prog : GoString) (seqs : List GoString) (j : Nat)
    (hc : 1 ≤ cores) (hj : j * cores < seqs.length) :
    (dispatchLoop (prog :: seqs) (1 + j * cores) cores 0).map (fun it => it.seq) =
        (seqs.drop (j * cores)).take cores ∧
      1 ≤ (dispatchLoop (prog :: seqs) (1 + j * cores) cores 0).length ∧
      (dispatchLoop (prog :: seqs) (1 + j * cores) cores 0).length ≤ cores ∧
      (j + 1 < (seqs.length + cores - 1) / cores →
        (dispatchLoop (prog :: seqs) (1 + j * cores) cores 0).length = cores) := by
  have hceil := ceil_mul_ge seqs.length cores hc
  have hseq : (dispatchLoop (prog :: seqs) (1 + j * cores) cores 0).map (fun it => it.seq) =
      (seqs.drop (j * cores)).take cores := by
    rw [dispatchLoop_items, List.map_take, List.map_drop, itemsOf_seq, Nat.add_zero,
      Nat.add_comm 1 (j * cores), List.drop_succ_cons]
  have hlen : (dispatchLoop (prog :: seqs) (1 + j * cores) cores 0).length =
      min cores (seqs.length - j * cores) := by
    have := congrArg List.length hseq
    simpa using this
  refine ⟨hseq, ?_, ?_, ?_⟩
  · rw [hlen]; omega
  · rw [hlen]; omega
  · intro hj2
    have h2 : (j + 1 + 1) * cores ≤ (seqs.length + cores - 1) / cores * cores :=
      Nat.mul_le_mul_right cores hj2
    rw [Nat.succ_mul, Nat.succ_mul] at h2
    rw [hlen]; omega

theorem getElem?_range_map_snoc {α : Type} (f : Nat → α) (k j : Nat) (x c : α)
    (h : ((List.range k).map f ++ [x])[j]? = some c) :
    (j < k ∧ c = f j) ∨ (j = k ∧ c = x) := by
  have hlenk : ((List.range k).map f).length = k := by simp
  by_cases hj : j < k
  · left
    have h2 : ((List.range k).map f)[j]? = some c := by
      rw [← h]
      exact (List.getElem?_append_left (by simpa using hj)).symm
    exact getElem?_range_map f k j c h2
  · right
    rw [List.getElem?_append_right (by omega), hlenk] at h
    have hjk : j = k := by
      by_contra hne2
      obtain ⟨d, hd⟩ : ∃ d, j - k = d + 1 := ⟨j - k - 1, by omega⟩
      rw [hd] at h
      simp at h
    subst hjk
    simp only [Nat.sub_self, List.getElem?_cons_zero] at h
    exact ⟨rfl, (Option.some.inj h).symm⟩


/-! # The claims -/

/-- C1: when the normalised form `n` of the sequence (upper-cased, then trimmed) holds only
characters of the complement table, `ReverseComplement` succeeds and replaces the sequence
by the string of the same length whose `k`-th character is the table complement of the
`(len(n)-1-k)`-th character of `n`, which is the reverse of the character-wise complement
of `n`. -/
theorem C1_reverse_complement_of_valid (u : Unicode) (sequence : indexedSequence)
    (h : ∀ b ∈ normalise u sequence.seq, b ∈ str "ACGTN-WS") :
    ∃ out : GoString,
      ReverseComplement u sequence compMap =
        { sequence := { sequence with seq := out }, stdout := [], stderr := [],
          sent := [{ sequence with seq := out }], done := true, exit := none } ∧
      out.length = (normalise u sequence.seq).length ∧
      (∀ k, k < (normalise u sequence.seq).length →
        ∃ b c, (normalise u sequence.seq)[(normalise u sequence.seq).length - 1 - k]? = some b ∧
          out[k]? = some c ∧ compMap.lookup [b] = some [c]) ∧
      out = ((normalise u sequence.seq).map complementByte).reverse := by
  have hsome : ∀ b ∈ normalise u sequence.seq, (compMap.lookup [b]).isSome = true :=
    fun b hb => (mem_table_iff b).mp (h b hb)
  have hmap := revComp_eq_map _ h
  refine ⟨revComp (normalise u sequence.seq), ReverseComplement_ok u sequence hsome, ?_, ?_, ?_⟩
  · rw [hmap]; simp
  · intro k hk
    have hidx : (normalise u sequence.seq).length - 1 - k < (normalise u sequence.seq).length := by
      omega
    refine ⟨(normalise u sequence.seq)[(normalise u sequence.seq).length - 1 - k],
      complementByte (normalise u sequence.seq)[(normalise u sequence.seq).length - 1 - k],
      List.getElem?_eq_getElem hidx, ?_, ?_⟩
    · rw [hmap, List.getElem?_map, List.getElem?_reverse hk, List.getElem?_eq_getElem hidx]
      rfl
    · exact (mem_table _ (h _ (List.getElem_mem hidx))).1
  · rw [hmap, List.map_reverse]

/-- C1, at the sequence "GATTACA": the sequence sent back is "TGTAATC". -/
theorem C1_reverse_complement_of_valid_witness :
    (∀ b ∈ normalise (Unicode.std noCase) (newIndexedSequence 1 (str "GATTACA")).seq,
        b ∈ str "ACGTN-WS") ∧
      (∃ out : GoString,
        ReverseComplement (Unicode.std noCase) (newIndexedSequence 1 (str "GATTACA")) compMap =
          { sequence := { newIndexedSequence 1 (str "GATTACA") with seq := out },
            stdout := [], stderr := [],
            sent := [{ newIndexedSequence 1 (str "GATTACA") with seq := out }],
            done := true, exit := none } ∧
        out.length = (normalise (Unicode.std noCase) (newIndexedSequence 1 (str "GATTACA")).seq).length ∧
        (∀ k, k < (normalise (Unicode.std noCase) (newIndexedSequence 1 (str "GATTACA")).seq).length →
          ∃ b c, (normalise (Unicode.std noCase) (newIndexedSequence 1 (str "GATTACA")).seq)[
              (normalise (Unicode.std noCase) (newIndexedSequence 1 (str "GATTACA")).seq).length
                - 1 - k]? = some b ∧
            out[k]? = some c ∧ compMap.lookup [b] = some [c]) ∧
        out = ((normalise (Unicode.std noCase) (newIndexedSequence 1 (str "GATTACA")).seq).map
          complementByte).reverse) ∧
      (ReverseComplement (Unicode.std noCase) (newIndexedSequence 1 (str "GATTACA")) compMap).sent =
        [newIndexedSequence 1 (str "TGTAATC")] :=
  ⟨by decide,
   C1_reverse_complement_of_valid (Unicode.std noCase) (newIndexedSequence 1 (str "GATTACA"))
     (by decide),
   by decide⟩

/-- C2: for every core count `cores >= 1`, every non-empty list of sequence arguments that
are all valid and every admissible schedule (every order in which the workers of a chunk
deliver their results), the program ends with exit code 0, prints as many lines as there
are sequence arguments, and line `k` is the sequence that `ReverseComplement` produces for
sequence argument `k`; every line holds characters of the complement table only, so none
holds a newline. -/
theorem C2_valid_run_in_order (u : Unicode) (σ : Schedule) (cores : Nat) (prog : GoString)
    (seqs : List GoString) (fuel : Nat) (hcores : 1 ≤ cores) (hne : seqs ≠ [])
    (hσ : σ.Admissible) (hvalid : ∀ s ∈ seqs, isValid u s = true)
    (hfuel : (prog :: seqs).length ≤ fuel) :
    ∃ r, main u σ cores (prog :: seqs) fuel = some r ∧ r.exit = 0 ∧ r.stderr = [] ∧
      r.stdout.length = seqs.length ∧
      (∀ k s, seqs[k]? = some s →
        r.stdout[k]? =
          some (ReverseComplement u (newIndexedSequence (k + 1) s) compMap).sequence.seq) ∧
      ∀ line ∈ r.stdout, ∀ b ∈ line, b ∈ str "ACGTN-WS" := by
  obtain ⟨chunks, hrun⟩ := main_valid u σ cores prog seqs fuel hcores hne hσ hvalid hfuel
  refine ⟨_, hrun, rfl, rfl, by simp, ?_, ?_⟩
  · intro k s hk
    rw [worker_output u (k + 1) s (hvalid s (List.getElem?_mem hk))]
    simp [hk]
  · intro line hline
    obtain ⟨s, _, rfl⟩ := List.mem_map.mp hline
    exact revComp_chars _

/-- C2, on two cores with the sequences "ACGT", "gattaca" and " NNWS ", the results of
each chunk arriving in the opposite order of dispatch: the lines printed are "ACGT",
"TGTAATC" and "SWNN". -/
theorem C2_valid_run_in_order_witness :
    (1 ≤ 2 ∧ [str "ACGT", str "gattaca", str " NNWS "] ≠ [] ∧ Schedule.backwards.Admissible ∧
      (∀ s ∈ [str "ACGT", str "gattaca", str " NNWS "], isValid (Unicode.std noCase) s = true) ∧
      (str "revcomp" :: [str "ACGT", str "gattaca", str " NNWS "]).length ≤ 4) ∧
    (∃ r, main (Unicode.std noCase) Schedule.backwards 2
        (str "revcomp" :: [str "ACGT", str "gattaca", str " NNWS "]) 4 = some r ∧
      r.exit = 0 ∧ r.stderr = [] ∧
      r.stdout.length = [str "ACGT", str "gattaca", str " NNWS "].length ∧
      (∀ k s, [str "ACGT", str "gattaca", str " NNWS "][k]? = some s →
        r.stdout[k]? =
          some (ReverseComplement (Unicode.std noCase) (newIndexedSequence (k + 1) s)
            compMap).sequence.seq) ∧
      ∀ line ∈ r.stdout, ∀ b ∈ line, b ∈ str "ACGTN-WS") ∧
    (main (Unicode.std noCase) Schedule.backwards 2
        (str "revcomp" :: [str "ACGT", str "gattaca", str " NNWS "]) 4).map
      (fun r => r.stdout) = some [str "ACGT", str "TGTAATC", str "SWNN"] :=
  ⟨⟨by decide, by decide, backwards_admissible, by decide, by decide⟩,
   C2_valid_run_in_order (Unicode.std noCase) Schedule.backwards 2 (str "revcomp")
     [str "ACGT", str "gattaca", str " NNWS "] 4 (by decide) (by decide)
     backwards_admissible (by decide) (by decide),
   by decide⟩

/-- C3: `ReverseComplement` ends the process with exit code 2 exactly when the normalised
sequence (upper-cased, then trimmed) holds a byte whose one-byte string has no entry in the
complement table; in every other case it succeeds: it replaces the sequence by its reverse
complement, sends it on the channel and signals the wait group. -/
theorem C3_exit_two_iff_no_entry (u : Unicode) (sequence : indexedSequence) :
    ((ReverseComplement u sequence compMap).exit = some 2 ↔
        ∃ b ∈ normalise u sequence.seq, compMap.lookup [b] = none) ∧
      ((ReverseComplement u sequence compMap).exit = some 2 ∨
        ReverseComplement u sequence compMap =
          { sequence := { sequence with seq := revComp (normalise u sequence.seq) },
            stdout := [], stderr := [],
            sent := [{ sequence with seq := revComp (normalise u sequence.seq) }],
            done := true, exit := none }) := by
  rcases ReverseComplement_cases u sequence with ⟨hall, hrun⟩ | ⟨pre, b, post, hsplit, hb, _, hrun⟩
  · refine ⟨?_, Or.inr hrun⟩
    rw [hrun]
    constructor
    · intro h
      exact absurd h (by simp)
    · rintro ⟨b, hb, hnone⟩
      have := hall b hb
      rw [hnone] at this
      exact absurd this (by simp)
  · refine ⟨?_, Or.inl (by rw [hrun])⟩
    rw [hrun]
    constructor
    · intro _
      exact ⟨b, by rw [hsplit]; simp, hb⟩
    · intro _
      rfl

/-- C4: on a sequence made only of the characters A, C, G and T, `ReverseComplement`
succeeds, succeeds again on the sequence it produced, and the second call gives back the
original sequence (which is also what it sends on the channel). -/
theorem C4_involution_on_ACGT (u : Unicode) (sequence : indexedSequence)
    (h : ∀ b ∈ sequence.seq, b ∈ str "ACGT") :
    (ReverseComplement u sequence compMap).exit = none ∧
      (ReverseComplement u (ReverseComplement u sequence compMap).sequence compMap).exit = none ∧
      (ReverseComplement u (ReverseComplement u sequence compMap).sequence compMap).sequence =
        sequence ∧
      (ReverseComplement u (ReverseComplement u sequence compMap).sequence compMap).sent =
        [sequence] := by
  have hsub : ∀ b ∈ str "ACGT", b ∈ str "ACGTN-WS" := by decide
  have ht : ∀ b ∈ sequence.seq, b ∈ str "ACGTN-WS" := fun b hb => hsub b (h b hb)
  have hn : normalise u sequence.seq = sequence.seq := normalise_table u _ ht
  have h1 : ReverseComplement u sequence compMap =
      { sequence := { sequence with seq := revComp sequence.seq }, stdout := [], stderr := [],
        sent := [{ sequence with seq := revComp sequence.seq }], done := true, exit := none } := by
    have := ReverseComplement_ok u sequence
      (fun b hb => (mem_table_iff b).mp (by rw [hn] at hb; exact ht b hb))
    rw [hn] at this
    exact this
  have ht2 : ∀ b ∈ revComp sequence.seq, b ∈ str "ACGTN-WS" := revComp_mem_table _ ht
  have hn2 : normalise u (revComp sequence.seq) = revComp sequence.seq :=
    normalise_table u _ ht2
  have h2 := ReverseComplement_ok u { sequence with seq := revComp sequence.seq }
    (fun b hb => (mem_table_iff b).mp (by
      have hb2 : b ∈ normalise u (revComp sequence.seq) := hb
      rw [hn2] at hb2
      exact ht2 b hb2))
  have hn3 : normalise u ({ sequence with seq := revComp sequence.seq } : indexedSequence).seq =
      revComp sequence.seq := hn2
  rw [hn3, revComp_revComp _ ht] at h2
  rw [h1]
  refine ⟨rfl, ?_, ?_, ?_⟩
  · exact congrArg WorkerRun.exit h2
  · exact congrArg WorkerRun.sequence h2
  · exact congrArg WorkerRun.sent h2

/-- C4, at the sequence "GATTACA". -/
theorem C4_involution_on_ACGT_witness :
    (∀ b ∈ (newIndexedSequence 1 (str "GATTACA")).seq, b ∈ str "ACGT") ∧
      (ReverseComplement (Unicode.std noCase) (newIndexedSequence 1 (str "GATTACA")) compMap).exit
        = none ∧
      (ReverseComplement (Unicode.std noCase)
        (ReverseComplement (Unicode.std noCase) (newIndexedSequence 1 (str "GATTACA"))
          compMap).sequence compMap).exit = none ∧
      (ReverseComplement (Unicode.std noCase)
        (ReverseComplement (Unicode.std noCase) (newIndexedSequence 1 (str "GATTACA"))
          compMap).sequence compMap).sequence = newIndexedSequence 1 (str "GATTACA") ∧
      (ReverseComplement (Unicode.std noCase)
        (ReverseComplement (Unicode.std noCase) (newIndexedSequence 1 (str "GATTACA"))
          compMap).sequence compMap).sent = [newIndexedSequence 1 (str "GATTACA")] :=
  ⟨by decide,
   C4_involution_on_ACGT (Unicode.std noCase) (newIndexedSequence 1 (str "GATTACA")) (by decide)⟩

/-- C5: two ASCII sequence strings that differ only in the case of their letters (their
byte-wise upper-casings agree) give `ReverseComplement` the same outcome: the same exit
status, the same text printed, the same value sent on the channel; either both succeed with
the same output sequence or both end the process with code 2. -/
theorem C5_case_insensitive (u : Unicode) (idx : Nat) (s t : GoString)
    (hs : ∀ b ∈ s, b < 128) (ht : ∀ b ∈ t, b < 128)
    (hcase : s.map upperByte = t.map upperByte) :
    (ReverseComplement u (newIndexedSequence idx s) compMap).exit =
        (ReverseComplement u (newIndexedSequence idx t) compMap).exit ∧
      (ReverseComplement u (newIndexedSequence idx s) compMap).stdout =
        (ReverseComplement u (newIndexedSequence idx t) compMap).stdout ∧
      (ReverseComplement u (newIndexedSequence idx s) compMap).stderr =
        (ReverseComplement u (newIndexedSequence idx t) compMap).stderr ∧
      (ReverseComplement u (newIndexedSequence idx s) compMap).sent =
        (ReverseComplement u (newIndexedSequence idx t) compMap).sent ∧
      (ReverseComplement u (newIndexedSequence idx s) compMap).done =
        (ReverseComplement u (newIndexedSequence idx t) compMap).done ∧
      ((ReverseComplement u (newIndexedSequence idx s) compMap).exit = none ∧
          (ReverseComplement u (newIndexedSequence idx s) compMap).sequence =
            (ReverseComplement u (newIndexedSequence idx t) compMap).sequence ∨
        (ReverseComplement u (newIndexedSequence idx s) compMap).exit = some 2) := by
  apply ReverseComplement_congr
  rw [normalise, normalise, ToUpper_ascii u s hs, ToUpper_ascii u t ht, hcase]

/-- C5, at "acgt" and "ACGT": both give "ACGT". -/
theorem C5_case_insensitive_witness :
    ((∀ b ∈ str "acgt", b < 128) ∧ (∀ b ∈ str "ACGT", b < 128) ∧
      (str "acgt").map upperByte = (str "ACGT").map upperByte) ∧
    (ReverseComplement (Unicode.std noCase) (newIndexedSequence 1 (str "acgt")) compMap).sent =
      (ReverseComplement (Unicode.std noCase) (newIndexedSequence 1 (str "ACGT")) compMap).sent ∧
    (ReverseComplement (Unicode.std noCase) (newIndexedSequence 1 (str "acgt")) compMap).sent =
      [newIndexedSequence 1 (str "ACGT")] :=
  ⟨by decide,
   (C5_case_insensitive (Unicode.std noCase) 1 (str "acgt") (str "ACGT") (by decide) (by decide)
     (by decide)).2.2.2.1,
   by decide⟩

/-- C6: whitespace is trimmed before processing.  With the Go standard library in place of
the `Unicode` paths, `unicode.ToUpper` leaving the white space runes above ASCII unchanged,
for every sequence string `s` (any bytes) and all strings `p` and `q` that consist of white
space in the sense of `unicode.IsSpace` (the encodings of lists of white space runes),
`ReverseComplement` has the same outcome on `p ++ s ++ q` as on `s`: the same exit status,
the same text printed, the same value sent on the channel; either both succeed with the
same output sequence or both end the process with code 2. -/
theorem C6_whitespace_trimmed (toUpperCase : Nat → Nat)
    (hcase : ∀ r, 128 ≤ r → IsSpace r = true → toUpperCase r = r)
    (idx : Nat) (ps qs : List Nat) (s : GoString)
    (hps : ∀ w ∈ ps, IsSpace w = true) (hqs : ∀ w ∈ qs, IsSpace w = true) :
    (ReverseComplement (Unicode.std toUpperCase)
        (newIndexedSequence idx (ps.flatMap AppendRune ++ s ++ qs.flatMap AppendRune))
        compMap).exit =
      (ReverseComplement (Unicode.std toUpperCase) (newIndexedSequence idx s) compMap).exit ∧
    (ReverseComplement (Unicode.std toUpperCase)
        (newIndexedSequence idx (ps.flatMap AppendRune ++ s ++ qs.flatMap AppendRune))
        compMap).stdout =
      (ReverseComplement (Unicode.std toUpperCase) (newIndexedSequence idx s) compMap).stdout ∧
    (ReverseComplement (Unicode.std toUpperCase)
        (newIndexedSequence idx (ps.flatMap AppendRune ++ s ++ qs.flatMap AppendRune))
        compMap).stderr =
      (ReverseComplement (Unicode.std toUpperCase) (newIndexedSequence idx s) compMap).stderr ∧
    (ReverseComplement (Unicode.std toUpperCase)
        (newIndexedSequence idx (ps.flatMap AppendRune ++ s ++ qs.flatMap AppendRune))
        compMap).sent =
      (ReverseComplement (Unicode.std toUpperCase) (newIndexedSequence idx s) compMap).sent ∧
    (ReverseComplement (Unicode.std toUpperCase)
        (newIndexedSequence idx (ps.flatMap AppendRune ++ s ++ qs.flatMap AppendRune))
        compMap).done =
      (ReverseComplement (Unicode.std toUpperCase) (newIndexedSequence idx s) compMap).done ∧
    ((ReverseComplement (Unicode.std toUpperCase)
          (newIndexedSequence idx (ps.flatMap AppendRune ++ s ++ qs.flatMap AppendRune))
          compMap).exit = none ∧
        (ReverseComplement (Unicode.std toUpperCase)
          (newIndexedSequence idx (ps.flatMap AppendRune ++ s ++ qs.flatMap AppendRune))
          compMap).sequence =
        (ReverseComplement (Unicode.std toUpperCase) (newIndexedSequence idx s)
          compMap).sequence ∨
      (ReverseComplement (Unicode.std toUpperCase)
        (newIndexedSequence idx (ps.flatMap AppendRune ++ s ++ qs.flatMap AppendRune))
        compMap).exit = some 2) :=
  ReverseComplement_congr (Unicode.std toUpperCase) idx
    (ps.flatMap AppendRune ++ s ++ qs.flatMap AppendRune) s
    (normalise_std_pad toUpperCase hcase ps qs hps hqs s)

/-- C6, at " ACGT " and "ACGT" (one space before and one after): both give "ACGT"; so does
"ACGT" between a no-break space and an ideographic space followed by a newline. -/
theorem C6_whitespace_trimmed_witness :
    ((∀ r, 128 ≤ r → IsSpace r = true → noCase r = r) ∧
      (∀ w ∈ [32], IsSpace w = true)) ∧
    (ReverseComplement (Unicode.std noCase)
        (newIndexedSequence 1 (([32] : List Nat).flatMap AppendRune ++ str "ACGT" ++
          ([32] : List Nat).flatMap AppendRune)) compMap).sent =
      (ReverseComplement (Unicode.std noCase) (newIndexedSequence 1 (str "ACGT"))
        compMap).sent ∧
    ([32] : List Nat).flatMap AppendRune ++ str "ACGT" ++ ([32] : List Nat).flatMap AppendRune =
      str " ACGT " ∧
    (ReverseComplement (Unicode.std noCase) (newIndexedSequence 1 (str " ACGT "))
        compMap).sent = [newIndexedSequence 1 (str "ACGT")] ∧
    (ReverseComplement (Unicode.std noCase)
        (newIndexedSequence 1 (([160] : List Nat).flatMap AppendRune ++ str "ACGT" ++
          ([12288, 10] : List Nat).flatMap AppendRune)) compMap).sent =
      [newIndexedSequence 1 (str "ACGT")] :=
  ⟨⟨fun _ _ _ => rfl, by decide⟩,
   (C6_whitespace_trimmed noCase (fun _ _ _ => rfl) 1 [32] [32] (str "ACGT")
     (by decide) (by decide)).2.2.2.1,
   by decide, by decide, by decide⟩

/-- C7, as stated, fails for the argument list that holds the command name only: the run
ends with exit code 1 and starts no chunk, but the error report is handed to `fmt.Println`,
so standard output is not empty and standard error is. -/
theorem C7_counterexample :
    main (Unicode.std noCase) Schedule.inOrder 4 [str "revcomp"] 1 =
        some { stdout := [str "Error: Must supply at least one sequence as an argument"],
               stderr := [], exit := 1, chunks := [], results := [] } ∧
      ¬ ∃ r, main (Unicode.std noCase) Schedule.inOrder 4 [str "revcomp"] 1 = some r ∧
        r.exit = 1 ∧ r.chunks = [] ∧ r.stdout = [] := by
  refine ⟨by decide, ?_⟩
  rintro ⟨r, hr, _, _, hout⟩
  have h : main (Unicode.std noCase) Schedule.inOrder 4 [str "revcomp"] 1 =
      some { stdout := [str "Error: Must supply at least one sequence as an argument"],
             stderr := [], exit := 1, chunks := [], results := [] } := by decide
  rw [h] at hr
  have := Option.some.inj hr
  rw [← this] at hout
  exact absurd hout (by decide)

/-- C7, amended: run with no sequence argument (`len(os.Args) < 2`), the program ends with
exit code 1, starts no chunk and so dispatches no worker, prints the one line
"Error: Must supply at least one sequence as an argument" on standard output and writes
nothing to standard error. -/
theorem C7_no_arguments (u : Unicode) (σ : Schedule) (cores : Nat) (args : List GoString)
    (fuel : Nat) (h : args.length < 2) :
    main u σ cores args fuel =
      some { stdout := [str "Error: Must supply at least one sequence as an argument"],
             stderr := [], exit := 1, chunks := [], results := [] } := by
  rw [main]
  simp only [h, if_true]

/-- C7 amended, for the argument list that holds the command name only. -/
theorem C7_no_arguments_witness :
    [str "revcomp"].length < 2 ∧
      main (Unicode.std noCase) Schedule.backwards 8 [str "revcomp"] 0 =
        some { stdout := [str "Error: Must supply at least one sequence as an argument"],
               stderr := [], exit := 1, chunks := [], results := [] } :=
  ⟨by decide, C7_no_arguments (Unicode.std noCase) Schedule.backwards 8 [str "revcomp"] 0 (by decide)⟩

/-- C8, as stated, fails at the sequence "X": the message naming X is handed to
`fmt.Println`, so it is on standard output, and standard error stays empty. -/
theorem C8_counterexample :
    (ReverseComplement (Unicode.std noCase) (newIndexedSequence 1 (str "X")) compMap).stdout =
        [str "Error: No complementary nucleotide for character X"] ∧
      (ReverseComplement (Unicode.std noCase) (newIndexedSequence 1 (str "X")) compMap).stderr = [] ∧
      ¬ ((ReverseComplement (Unicode.std noCase) (newIndexedSequence 1 (str "X")) compMap).stderr =
            [str "Error: No complementary nucleotide for character X"] ∧
          (ReverseComplement (Unicode.std noCase) (newIndexedSequence 1 (str "X")) compMap).stdout
            = []) := by
  decide

/-- C8, amended: when some normalised character has no entry in the complement table, the
call prints exactly one line, on standard output: "Error: No complementary nucleotide for
character " followed by a character `c` of the normalised sequence without entry; it
writes nothing to standard error. -/
theorem C8_message_on_stdout (u : Unicode) (sequence : indexedSequence)
    (h : ∃ b ∈ normalise u sequence.seq, compMap.lookup [b] = none) :
    ∃ c ∈ normalise u sequence.seq, compMap.lookup [c] = none ∧
      (ReverseComplement u sequence compMap).stdout =
        [str "Error: No complementary nucleotide for character " ++ [c]] ∧
      (ReverseComplement u sequence compMap).stderr = [] := by
  rcases ReverseComplement_cases u sequence with ⟨hall, _⟩ | ⟨pre, b, post, hsplit, hb, _, hrun⟩
  · obtain ⟨b, hb, hnone⟩ := h
    have := hall b hb
    rw [hnone] at this
    exact absurd this (by simp)
  · exact ⟨b, by rw [hsplit]; simp, hb, by rw [hrun]; rfl, by rw [hrun]⟩

/-- C8 amended, at the sequence "X". -/
theorem C8_message_on_stdout_witness :
    (∃ b ∈ normalise (Unicode.std noCase) (newIndexedSequence 1 (str "X")).seq,
        compMap.lookup [b] = none) ∧
      ∃ c ∈ normalise (Unicode.std noCase) (newIndexedSequence 1 (str "X")).seq,
        compMap.lookup [c] = none ∧
        (ReverseComplement (Unicode.std noCase) (newIndexedSequence 1 (str "X")) compMap).stdout =
          [str "Error: No complementary nucleotide for character " ++ [c]] ∧
        (ReverseComplement (Unicode.std noCase) (newIndexedSequence 1 (str "X")) compMap).stderr
          = [] :=
  ⟨⟨88, by decide, by decide⟩,
   C8_message_on_stdout (Unicode.std noCase) (newIndexedSequence 1 (str "X"))
     ⟨88, by decide, by decide⟩⟩

/-- C9: for every `cores >= 1`, every admissible schedule and every argument list in which
the first sequence with an invalid character lies in chunk `k` (the sequences of the chunks
before `k` are valid, chunk `k` holds an invalid one), the run ends with exit code 2 and
the sequence lines printed are exactly the reverse complements of the `k * cores` arguments
of the chunks before `k`, in original order; what follows them is a non-empty list of
error messages of invalid sequences of chunk `k`, none of which is the output of a
successful call of `ReverseComplement`: no line of chunk `k` or of a later chunk is
printed. -/
theorem C9_partial_output_on_failure (u : Unicode) (σ : Schedule) (cores : Nat)
    (prog : GoString) (seqs : List GoString) (k fuel : Nat) (hcores : 1 ≤ cores)
    (hσ : σ.Admissible)
    (hbefore : ∀ s ∈ seqs.take (k * cores), isValid u s = true)
    (hbad : ∃ s ∈ (seqs.drop (k * cores)).take cores, isValid u s = false)
    (hfuel : (prog :: seqs).length ≤ fuel) :
    ∃ (r : Run) (lines errs : List GoString),
      main u σ cores (prog :: seqs) fuel = some r ∧ r.exit = 2 ∧
      r.stdout = lines ++ errs ∧ lines.length = k * cores ∧
      (∀ j s, j < k * cores → seqs[j]? = some s →
        lines[j]? =
          some (ReverseComplement u (newIndexedSequence (j + 1) s) compMap).sequence.seq) ∧
      errs ≠ [] ∧
      (∀ e ∈ errs, ∃ s ∈ (seqs.drop (k * cores)).take cores, ∃ c ∈ normalise u s,
        compMap.lookup [c] = none ∧
        e = str "Error: No complementary nucleotide for character " ++ [c]) ∧
      (∀ e ∈ errs, ∀ sequence : indexedSequence,
        (ReverseComplement u sequence compMap).exit = none →
        (ReverseComplement u sequence compMap).sequence.seq ≠ e) := by
  obtain ⟨errs, chunks, hrun, hne, herr⟩ :=
    main_fail u σ cores prog seqs k fuel hcores hσ hbefore hbad hfuel
  have hklt : k * cores < seqs.length := by
    obtain ⟨s, hs, _⟩ := hbad
    have hmem := List.mem_of_mem_take hs
    by_contra hge
    rw [List.drop_eq_nil_of_le (by omega)] at hmem
    exact absurd hmem (List.not_mem_nil s)
  refine ⟨_, (seqs.take (k * cores)).map (fun s => revComp (normalise u s)), errs, hrun, rfl,
    rfl, ?_, ?_, hne, herr, ?_⟩
  · rw [List.length_map, List.length_take]
    omega
  · intro j s hj hs
    have hmem : s ∈ seqs.take (k * cores) := by
      apply List.getElem?_mem (n := j)
      rw [List.getElem?_take_of_lt hj]
      exact hs
    rw [worker_output u (j + 1) s (hbefore s hmem), List.getElem?_map,
      List.getElem?_take_of_lt hj, hs]
    rfl
  · intro e he sequence hok
    obtain ⟨_, _, c, _, _, rfl⟩ := herr e he
    exact message_not_sequence u sequence c hok

/-- C9, on two cores with the sequences "ACGT", "gattaca", " NNWS ", "X" and "Y", the
first invalid sequence lying in chunk 1: the lines of chunk 0 are printed, then the
messages of the failing workers. -/
theorem C9_partial_output_on_failure_witness :
    (1 ≤ 2 ∧ Schedule.backwards.Admissible ∧
      (∀ s ∈ [str "ACGT", str "gattaca", str " NNWS ", str "X", str "Y"].take (1 * 2),
        isValid (Unicode.std noCase) s = true) ∧
      (∃ s ∈ ([str "ACGT", str "gattaca", str " NNWS ", str "X", str "Y"].drop (1 * 2)).take 2,
        isValid (Unicode.std noCase) s = false) ∧
      (str "revcomp" :: [str "ACGT", str "gattaca", str " NNWS ", str "X", str "Y"]).length
        ≤ 6) ∧
    (∃ (r : Run) (lines errs : List GoString),
      main (Unicode.std noCase) Schedule.backwards 2
        (str "revcomp" :: [str "ACGT", str "gattaca", str " NNWS ", str "X", str "Y"]) 6
          = some r ∧
      r.exit = 2 ∧ r.stdout = lines ++ errs ∧ lines.length = 1 * 2 ∧
      (∀ j s, j < 1 * 2 →
        [str "ACGT", str "gattaca", str " NNWS ", str "X", str "Y"][j]? = some s →
        lines[j]? =
          some (ReverseComplement (Unicode.std noCase) (newIndexedSequence (j + 1) s)
            compMap).sequence.seq) ∧
      errs ≠ [] ∧
      (∀ e ∈ errs,
        ∃ s ∈ ([str "ACGT", str "gattaca", str " NNWS ", str "X", str "Y"].drop (1 * 2)).take 2,
        ∃ c ∈ normalise (Unicode.std noCase) s, compMap.lookup [c] = none ∧
          e = str "Error: No complementary nucleotide for character " ++ [c]) ∧
      (∀ e ∈ errs, ∀ sequence : indexedSequence,
        (ReverseComplement (Unicode.std noCase) sequence compMap).exit = none →
        (ReverseComplement (Unicode.std noCase) sequence compMap).sequence.seq ≠ e)) ∧
    (main (Unicode.std noCase) Schedule.backwards 2
        (str "revcomp" :: [str "ACGT", str "gattaca", str " NNWS ", str "X", str "Y"]) 6).map
      (fun r => (r.stdout, r.exit)) =
        some ([str "ACGT", str "TGTAATC",
               str "Error: No complementary nucleotide for character X"], 2) :=
  ⟨⟨by decide, backwards_admissible, by decide, ⟨str "X", by decide, by decide⟩, by decide⟩,
   C9_partial_output_on_failure (Unicode.std noCase) Schedule.backwards 2 (str "revcomp")
     [str "ACGT", str "gattaca", str " NNWS ", str "X", str "Y"] 1 6 (by decide)
     backwards_admissible (by decide) ⟨str "X", by decide, by decide⟩ (by decide),
   by decide⟩

/-- C10, as stated, fails on one core for the sequences "ACGT" and "X": the run ends with
exit code 2, but the first chunk was printed before the second one failed, so the
successful output line "ACGT", which is what `ReverseComplement` makes of the first
argument, is on standard output. -/
theorem C10_counterexample :
    (main (Unicode.std noCase) Schedule.inOrder 1 [str "revcomp", str "ACGT", str "X"] 3).map
        (fun r => (r.stdout, r.exit)) =
      some ([str "ACGT", str "Error: No complementary nucleotide for character X"], 2) ∧
    isValid (Unicode.std noCase) (str "X") = false ∧
    (ReverseComplement (Unicode.std noCase) (newIndexedSequence 1 (str "ACGT")) compMap).exit
      = none ∧
    (ReverseComplement (Unicode.std noCase) (newIndexedSequence 1 (str "ACGT")) compMap).sequence.seq
      = str "ACGT" := by
  decide

/-- C10, amended: for every argument list that holds a sequence with a character outside
the complement table, every `cores >= 1` and every admissible schedule, the run ends with
exit code 2; with `k` the first chunk that holds such a sequence, the first `k * cores`
lines printed are the reverse complements of the arguments of the chunks before `k`, and
no line after them is the output of a successful call of `ReverseComplement`.  When such a
sequence is among the first `cores` arguments, no successful output line is printed at
all. -/
theorem C10_exit_two_on_invalid (u : Unicode) (σ : Schedule) (cores : Nat)
    (prog : GoString) (seqs : List GoString) (fuel : Nat) (hcores : 1 ≤ cores)
    (hσ : σ.Admissible) (hbad : ∃ s ∈ seqs, isValid u s = false)
    (hfuel : (prog :: seqs).length ≤ fuel) :
    ∃ (r : Run) (k : Nat),
      main u σ cores (prog :: seqs) fuel = some r ∧ r.exit = 2 ∧
      (∀ s ∈ seqs.take (k * cores), isValid u s = true) ∧
      (∃ s ∈ (seqs.drop (k * cores)).take cores, isValid u s = false) ∧
      r.stdout.take (k * cores) =
        (seqs.take (k * cores)).map (fun s => revComp (normalise u s)) ∧
      (∀ line ∈ r.stdout.drop (k * cores), ∀ sequence : indexedSequence,
        (ReverseComplement u sequence compMap).exit = none →
        (ReverseComplement u sequence compMap).sequence.seq ≠ line) ∧
      ((∃ s ∈ seqs.take cores, isValid u s = false) →
        ∀ line ∈ r.stdout, ∀ sequence : indexedSequence,
          (ReverseComplement u sequence compMap).exit = none →
          (ReverseComplement u sequence compMap).sequence.seq ≠ line) := by
  obtain ⟨k, hbefore, hchunk⟩ := first_bad_chunk u cores seqs hcores hbad
  obtain ⟨errs, chunks, hrun, _, herr⟩ :=
    main_fail u σ cores prog seqs k fuel hcores hσ hbefore hchunk hfuel
  have hklt : k * cores < seqs.length := by
    obtain ⟨s, hs, _⟩ := hchunk
    have hmem := List.mem_of_mem_take hs
    by_contra hge
    rw [List.drop_eq_nil_of_le (by omega)] at hmem
    exact absurd hmem (List.not_mem_nil s)
  have hlen : ((seqs.take (k * cores)).map (fun s => revComp (normalise u s))).length =
      k * cores := by
    rw [List.length_map, List.length_take]
    omega
  have hnot : ∀ line ∈ errs, ∀ sequence : indexedSequence,
      (ReverseComplement u sequence compMap).exit = none →
      (ReverseComplement u sequence compMap).sequence.seq ≠ line := by
    intro e he sequence hok
    obtain ⟨_, _, c, _, _, rfl⟩ := herr e he
    exact message_not_sequence u sequence c hok
  have htake : (((seqs.take (k * cores)).map (fun s => revComp (normalise u s))) ++ errs).take
      (k * cores) = (seqs.take (k * cores)).map (fun s => revComp (normalise u s)) := by
    rw [List.take_append_of_le_length (by omega), List.take_of_length_le (by omega)]
  have hdrop : (((seqs.take (k * cores)).map (fun s => revComp (normalise u s))) ++ errs).drop
      (k * cores) = errs := by
    rw [List.drop_append_of_le_length (by omega), List.drop_of_length_le (by omega)]
    rfl
  refine ⟨_, k, hrun, rfl, hbefore, hchunk, htake, ?_, ?_⟩
  · intro line hline
    have hline2 : line ∈ (((seqs.take (k * cores)).map
        (fun s => revComp (normalise u s))) ++ errs).drop (k * cores) := hline
    rw [hdrop] at hline2
    exact hnot line hline2
  · rintro ⟨s, hs, hsbad⟩
    have hk0 : k = 0 := by
      by_contra hk
      have hle : cores ≤ k * cores := Nat.le_mul_of_pos_left cores (Nat.pos_of_ne_zero hk)
      have hval := hbefore s ((List.take_sublist_take_left seqs hle).subset hs)
      rw [hval] at hsbad
      exact absurd hsbad (by decide)
    subst hk0
    intro line hline
    have hline2 : line ∈ ((seqs.take (0 * cores)).map
        (fun s => revComp (normalise u s))) ++ errs := hline
    rw [Nat.zero_mul, List.take_zero, List.map_nil, List.nil_append] at hline2
    exact hnot line hline2

/-- C10 amended, on two cores for the sequences "ACGT" and "X": the only line printed is the
error message. -/
theorem C10_exit_two_on_invalid_witness :
    (1 ≤ 2 ∧ Schedule.inOrder.Admissible ∧
      (∃ s ∈ [str "ACGT", str "X"], isValid (Unicode.std noCase) s = false) ∧
      (str "revcomp" :: [str "ACGT", str "X"]).length ≤ 3) ∧
    (∃ (r : Run) (k : Nat),
      main (Unicode.std noCase) Schedule.inOrder 2 (str "revcomp" :: [str "ACGT", str "X"]) 3
        = some r ∧ r.exit = 2 ∧
      (∀ s ∈ [str "ACGT", str "X"].take (k * 2), isValid (Unicode.std noCase) s = true) ∧
      (∃ s ∈ ([str "ACGT", str "X"].drop (k * 2)).take 2,
        isValid (Unicode.std noCase) s = false) ∧
      r.stdout.take (k * 2) =
        ([str "ACGT", str "X"].take (k * 2)).map
          (fun s => revComp (normalise (Unicode.std noCase) s)) ∧
      (∀ line ∈ r.stdout.drop (k * 2), ∀ sequence : indexedSequence,
        (ReverseComplement (Unicode.std noCase) sequence compMap).exit = none →
        (ReverseComplement (Unicode.std noCase) sequence compMap).sequence.seq ≠ line) ∧
      ((∃ s ∈ [str "ACGT", str "X"].take 2, isValid (Unicode.std noCase) s = false) →
        ∀ line ∈ r.stdout, ∀ sequence : indexedSequence,
          (ReverseComplement (Unicode.std noCase) sequence compMap).exit = none →
          (ReverseComplement (Unicode.std noCase) sequence compMap).sequence.seq ≠ line)) ∧
    (main (Unicode.std noCase) Schedule.inOrder 2 (str "revcomp" :: [str "ACGT", str "X"]) 3).map
      (fun r => (r.stdout, r.exit)) =
        some ([str "Error: No complementary nucleotide for character X"], 2) :=
  ⟨⟨by decide, inOrder_admissible, ⟨str "X", by decide, by decide⟩, by decide⟩,
   C10_exit_two_on_invalid (Unicode.std noCase) Schedule.inOrder 2 (str "revcomp")
     [str "ACGT", str "X"] 3 (by decide) inOrder_admissible
     ⟨str "X", by decide, by decide⟩ (by decide),
   by decide⟩

/-- C11, as stated, fails for the sequences "ACGT" and "X": on one core the first chunk is
printed before the second one fails, on two cores both sequences are in the failing chunk,
so the bytes written to standard output differ. -/
theorem C11_counterexample :
    (main (Unicode.std noCase) Schedule.inOrder 1 [str "revcomp", str "ACGT", str "X"] 3).map
        (fun r => r.stdout) =
      some [str "ACGT", str "Error: No complementary nucleotide for character X"] ∧
    (main (Unicode.std noCase) Schedule.inOrder 2 [str "revcomp", str "ACGT", str "X"] 3).map
        (fun r => r.stdout) =
      some [str "Error: No complementary nucleotide for character X"] ∧
    (main (Unicode.std noCase) Schedule.inOrder 1 [str "revcomp", str "ACGT", str "X"] 3).map
        (fun r => written r.stdout) ≠
      (main (Unicode.std noCase) Schedule.inOrder 2 [str "revcomp", str "ACGT", str "X"] 3).map
        (fun r => written r.stdout) := by
  decide

/-- C11, amended: for every list of sequence arguments that are all valid (the empty list
included), every two core counts `c1, c2 >= 1` and all admissible schedules of the two runs
(every in-chunk arrival order), both runs end, with the same exit code, and what they write
to standard output is byte-identical; so is what they write to standard error. -/
theorem C11_same_output_when_valid (u : Unicode) (σ1 σ2 : Schedule) (c1 c2 : Nat)
    (prog : GoString) (seqs : List GoString) (fuel1 fuel2 : Nat)
    (h1 : 1 ≤ c1) (h2 : 1 ≤ c2) (hσ1 : σ1.Admissible) (hσ2 : σ2.Admissible)
    (hvalid : ∀ s ∈ seqs, isValid u s = true)
    (hfuel1 : (prog :: seqs).length ≤ fuel1) (hfuel2 : (prog :: seqs).length ≤ fuel2) :
    ∃ r1 r2, main u σ1 c1 (prog :: seqs) fuel1 = some r1 ∧
      main u σ2 c2 (prog :: seqs) fuel2 = some r2 ∧
      written r1.stdout = written r2.stdout ∧ r1.stdout = r2.stdout ∧
      written r1.stderr = written r2.stderr ∧ r1.exit = r2.exit := by
  by_cases hne : seqs = []
  · subst hne
    exact ⟨_, _, rfl, rfl, rfl, rfl, rfl, rfl⟩
  · exact ⟨_, _, main_valid_log u σ1 c1 prog seqs fuel1 h1 hne hσ1 hvalid hfuel1,
      main_valid_log u σ2 c2 prog seqs fuel2 h2 hne hσ2 hvalid hfuel2, rfl, rfl, rfl, rfl⟩

/-- C11 amended, for the sequences "ACGT", "gattaca" and " NNWS " on one core with results
in order of dispatch and on two cores with results in the opposite order. -/
theorem C11_same_output_when_valid_witness :
    (1 ≤ 1 ∧ 1 ≤ 2 ∧ Schedule.inOrder.Admissible ∧ Schedule.backwards.Admissible ∧
      (∀ s ∈ [str "ACGT", str "gattaca", str " NNWS "], isValid (Unicode.std noCase) s = true) ∧
      (str "revcomp" :: [str "ACGT", str "gattaca", str " NNWS "]).length ≤ 4 ∧
      (str "revcomp" :: [str "ACGT", str "gattaca", str " NNWS "]).length ≤ 5) ∧
    (∃ r1 r2,
      main (Unicode.std noCase) Schedule.inOrder 1
        (str "revcomp" :: [str "ACGT", str "gattaca", str " NNWS "]) 4 = some r1 ∧
      main (Unicode.std noCase) Schedule.backwards 2
        (str "revcomp" :: [str "ACGT", str "gattaca", str " NNWS "]) 5 = some r2 ∧
      written r1.stdout = written r2.stdout ∧ r1.stdout = r2.stdout ∧
      written r1.stderr = written r2.stderr ∧ r1.exit = r2.exit) :=
  ⟨⟨by decide, by decide, inOrder_admissible, backwards_admissible, by decide, by decide,
      by decide⟩,
   C11_same_output_when_valid (Unicode.std noCase) Schedule.inOrder Schedule.backwards 1 2
     (str "revcomp") [str "ACGT", str "gattaca", str " NNWS "] 4 5 (by decide) (by decide)
     inOrder_admissible backwards_admissible (by decide) (by decide) (by decide)⟩


/-- C12, as stated, fails for the single sequence argument "ACGT": the indexed sequence
created for it, at 0-based position 0 of the sequence arguments, has index 1, its position
in `os.Args`, and the index of the one item printed is 1, not 0. -/
theorem C12_counterexample :
    (main (Unicode.std noCase) Schedule.inOrder 4 [str "revcomp", str "ACGT"] 2).map
        (fun r => r.chunks.flatMap (fun c => c.dispatched)) =
      some [newIndexedSequence 1 (str "ACGT")] ∧
    (main (Unicode.std noCase) Schedule.inOrder 4 [str "revcomp", str "ACGT"] 2).map
        (fun r => (r.chunks.flatMap (fun c => c.printed)).map (fun it => it.idx)) =
      some [1] ∧
    (main (Unicode.std noCase) Schedule.inOrder 4 [str "revcomp", str "ACGT"] 2).map
        (fun r => (r.chunks.flatMap (fun c => c.printed)).map (fun it => it.idx)) ≠
      some (List.range 1) := by
  decide

/-- C12, amended: the indexed sequence that the scheduler creates for an argument carries
the position of that argument in `os.Args`, so the one for the sequence argument at 0-based
position `k` has index `k + 1`. In a run on `n` valid sequence arguments (`cores >= 1`, any
admissible schedule) the items created are those of the positions `0, ..., n-1` in order;
the items that the chunks hold after `sort.Slice` are the items created, each with the
index it was created with and its sequence replaced by the reverse complement; the lines
that `main` writes on standard output are the sequences of exactly these items, in this
order; and their indices are `1, 2, ..., n`, each exactly once, in that order. -/
theorem C12_index_is_position_in_args (u : Unicode) (σ : Schedule) (cores : Nat)
    (prog : GoString) (seqs : List GoString) (fuel : Nat) (hcores : 1 ≤ cores)
    (hne : seqs ≠ []) (hσ : σ.Admissible) (hvalid : ∀ s ∈ seqs, isValid u s = true)
    (hfuel : (prog :: seqs).length ≤ fuel) :
    (∀ i, ∀ it ∈ dispatchLoop (prog :: seqs) i cores 0,
      (prog :: seqs)[it.idx]? = some it.seq) ∧
    ∃ r, main u σ cores (prog :: seqs) fuel = some r ∧
      r.chunks.flatMap (fun c => c.dispatched) =
        (List.range seqs.length).map
          (fun k => newIndexedSequence (k + 1) (seqs.getD k [])) ∧
      r.chunks.flatMap (fun c => c.printed) =
        (List.range seqs.length).map
          (fun k => ({ idx := k + 1,
                       seq := revComp (normalise u (seqs.getD k [])) } : indexedSequence)) ∧
      r.stdout = (r.chunks.flatMap (fun c => c.printed)).map (fun it => it.seq) ∧
      r.stdout = r.chunks.flatMap
        (fun c => (sortSlice (fun a b => decide (a.idx < b.idx)) c.collected).map
          (fun it => it.seq)) ∧
      (r.chunks.flatMap (fun c => c.printed)).map (fun it => it.idx) =
        List.range' 1 seqs.length := by
  have hceil := ceil_mul_ge seqs.length cores hcores
  have hdisp := log_dispatched u σ cores prog seqs ((seqs.length + cores - 1) / cores) hceil.1
  have hprinted : ((List.range ((seqs.length + cores - 1) / cores)).map
        (fun j => chunkAt u σ cores (prog :: seqs) (1 + j * cores))).flatMap
        (fun c => c.printed) =
      (List.range seqs.length).map
        (fun k => ({ idx := k + 1,
                     seq := revComp (normalise u (seqs.getD k [])) } : indexedSequence)) := by
    have h1 : ((List.range ((seqs.length + cores - 1) / cores)).map
          (fun j => chunkAt u σ cores (prog :: seqs) (1 + j * cores))).flatMap
          (fun c => c.printed) =
        (((List.range ((seqs.length + cores - 1) / cores)).map
          (fun j => chunkAt u σ cores (prog :: seqs) (1 + j * cores))).flatMap
          (fun c => c.dispatched)).map (finished u) := by
      rw [List.flatMap_map, List.flatMap_map, List.map_flatMap]
      congr 1
      funext j
      exact (chunkAt_printed u σ cores (prog :: seqs) (1 + j * cores) hσ).1
    rw [h1, hdisp, List.map_map]
    apply List.map_congr_left
    intro k _
    rfl
  have hout : seqs.map (fun s => revComp (normalise u s)) =
      ((List.range seqs.length).map
        (fun k => ({ idx := k + 1,
                     seq := revComp (normalise u (seqs.getD k [])) } : indexedSequence))).map
        (fun it => it.seq) := by
    rw [List.map_map, ← range_map_getD (fun s => revComp (normalise u s)) seqs]
    apply List.map_congr_left
    intro k _
    rfl
  refine ⟨?_, _, main_valid_log u σ cores prog seqs fuel hcores hne hσ hvalid hfuel, hdisp,
    hprinted, ?_, ?_, ?_⟩
  · intro i it hit
    rw [dispatchLoop_items] at hit
    have hmem : it ∈ itemsOf (prog :: seqs) :=
      List.mem_of_mem_drop (List.mem_of_mem_take hit)
    obtain ⟨p, hp, rfl⟩ := List.mem_map.mp hmem
    have hlt : p < (prog :: seqs).length := List.mem_range.mp hp
    show (prog :: seqs)[p]? = some ((prog :: seqs).getD p [])
    rw [List.getD_eq_getElem _ _ hlt, List.getElem?_eq_getElem hlt]
  · show seqs.map (fun s => revComp (normalise u s)) =
      (((List.range ((seqs.length + cores - 1) / cores)).map
        (fun j => chunkAt u σ cores (prog :: seqs) (1 + j * cores))).flatMap
        (fun c => c.printed)).map (fun it => it.seq)
    rw [hprinted]
    exact hout
  · show seqs.map (fun s => revComp (normalise u s)) =
      ((List.range ((seqs.length + cores - 1) / cores)).map
        (fun j => chunkAt u σ cores (prog :: seqs) (1 + j * cores))).flatMap
        (fun c => c.printed.map (fun it => it.seq))
    rw [← List.map_flatMap, hprinted]
    exact hout
  · show (((List.range ((seqs.length + cores - 1) / cores)).map
          (fun j => chunkAt u σ cores (prog :: seqs) (1 + j * cores))).flatMap
          (fun c => c.printed)).map (fun it => it.idx) = _
    rw [hprinted, List.map_map, List.range'_eq_map_range]
    apply List.map_congr_left
    intro k _
    show k + 1 = 1 + k
    omega

/-- C12 amended, on two cores for the sequences "gattaca", "ACGT" and " NNWS ", with the
results of each chunk arriving in reverse order: the lines written are "TGTAATC", "ACGT",
"SWNN", of the items with the indices 1, 2, 3. -/
theorem C12_index_is_position_in_args_witness :
    (1 ≤ 2 ∧ [str "gattaca", str "ACGT", str " NNWS "] ≠ [] ∧ Schedule.backwards.Admissible ∧
      (∀ s ∈ [str "gattaca", str "ACGT", str " NNWS "], isValid (Unicode.std noCase) s = true) ∧
      (str "revcomp" :: [str "gattaca", str "ACGT", str " NNWS "]).length ≤ 4) ∧
    ((∀ i, ∀ it ∈ dispatchLoop (str "revcomp" :: [str "gattaca", str "ACGT", str " NNWS "])
          i 2 0,
        (str "revcomp" :: [str "gattaca", str "ACGT", str " NNWS "])[it.idx]? = some it.seq) ∧
      ∃ r, main (Unicode.std noCase) Schedule.backwards 2
          (str "revcomp" :: [str "gattaca", str "ACGT", str " NNWS "]) 4 = some r ∧
        r.chunks.flatMap (fun c => c.dispatched) =
          (List.range [str "gattaca", str "ACGT", str " NNWS "].length).map
            (fun k => newIndexedSequence (k + 1)
              ([str "gattaca", str "ACGT", str " NNWS "].getD k [])) ∧
        r.chunks.flatMap (fun c => c.printed) =
          (List.range [str "gattaca", str "ACGT", str " NNWS "].length).map
            (fun k => ({ idx := k + 1,
                         seq := revComp (normalise (Unicode.std noCase)
                           ([str "gattaca", str "ACGT", str " NNWS "].getD k [])) } :
              indexedSequence)) ∧
        r.stdout = (r.chunks.flatMap (fun c => c.printed)).map (fun it => it.seq) ∧
        r.stdout = r.chunks.flatMap
          (fun c => (sortSlice (fun a b => decide (a.idx < b.idx)) c.collected).map
            (fun it => it.seq)) ∧
        (r.chunks.flatMap (fun c => c.printed)).map (fun it => it.idx) =
          List.range' 1 [str "gattaca", str "ACGT", str " NNWS "].length) ∧
    (main (Unicode.std noCase) Schedule.backwards 2
        (str "revcomp" :: [str "gattaca", str "ACGT", str " NNWS "]) 4).map
      (fun r => (r.stdout, r.chunks.flatMap (fun c => c.collected),
        r.chunks.flatMap (fun c => c.printed))) =
        some ([str "TGTAATC", str "ACGT", str "SWNN"],
          [{ idx := 2, seq := str "ACGT" }, { idx := 1, seq := str "TGTAATC" },
           { idx := 3, seq := str "SWNN" }],
          [{ idx := 1, seq := str "TGTAATC" }, { idx := 2, seq := str "ACGT" },
           { idx := 3, seq := str "SWNN" }]) :=
  ⟨⟨by decide, by decide, backwards_admissible, by decide, by decide⟩,
   C12_index_is_position_in_args (Unicode.std noCase) Schedule.backwards 2 (str "revcomp")
     [str "gattaca", str "ACGT", str " NNWS "] 4 (by decide) (by decide)
     backwards_admissible (by decide) (by decide),
   by decide⟩

/-- C13: on a sequence that consists only of the characters N, -, W and S,
`ReverseComplement` succeeds and the sequence it leaves and sends is exactly the input
string reversed, every character unchanged. -/
theorem C13_self_complementary_reversed (u : Unicode) (sequence : indexedSequence)
    (h : ∀ b ∈ sequence.seq, b ∈ str "N-WS") :
    ReverseComplement u sequence compMap =
      { sequence := { sequence with seq := sequence.seq.reverse }, stdout := [], stderr := [],
        sent := [{ sequence with seq := sequence.seq.reverse }], done := true,
        exit := none } := by
  have hsub : ∀ b ∈ str "N-WS", b ∈ str "ACGTN-WS" ∧ complementByte b = b := by decide
  have ht : ∀ b ∈ sequence.seq, b ∈ str "ACGTN-WS" := fun b hb => (hsub b (h b hb)).1
  have hn : normalise u sequence.seq = sequence.seq := normalise_table u _ ht
  have hrun := ReverseComplement_ok u sequence
    (fun b hb => (mem_table_iff b).mp (by rw [hn] at hb; exact ht b hb))
  have hrev : revComp sequence.seq = sequence.seq.reverse := by
    rw [revComp_eq_map _ ht]
    conv_rhs => rw [← List.map_id sequence.seq.reverse]
    exact List.map_congr_left
      (fun b hb => (hsub b (h b (List.mem_reverse.mp hb))).2)
  rw [hn, hrev] at hrun
  exact hrun

/-- C13, at the sequence "NNWS": the output is "SWNN". -/
theorem C13_self_complementary_reversed_witness :
    (∀ b ∈ (newIndexedSequence 1 (str "NNWS")).seq, b ∈ str "N-WS") ∧
      ReverseComplement (Unicode.std noCase) (newIndexedSequence 1 (str "NNWS")) compMap =
        { sequence := { newIndexedSequence 1 (str "NNWS") with
                        seq := (newIndexedSequence 1 (str "NNWS")).seq.reverse },
          stdout := [], stderr := [],
          sent := [{ newIndexedSequence 1 (str "NNWS") with
                     seq := (newIndexedSequence 1 (str "NNWS")).seq.reverse }],
          done := true, exit := none } ∧
      (ReverseComplement (Unicode.std noCase) (newIndexedSequence 1 (str "NNWS"))
        compMap).sent = [newIndexedSequence 1 (str "SWNN")] :=
  ⟨by decide,
   C13_self_complementary_reversed (Unicode.std noCase) (newIndexedSequence 1 (str "NNWS"))
     (by decide),
   by decide⟩


/-- C14, as stated, fails when a sequence argument has no reverse complement: on one core
with the sequence arguments "X" and "ACGT" the run ends in the first chunk, so one chunk
is processed where `ceil(2 / 1) = 2` are claimed, and in that chunk one worker was
dispatched and no result was collected. -/
theorem C14_counterexample :
    (main (Unicode.std noCase) Schedule.inOrder 1 [str "revcomp", str "X", str "ACGT"] 3).map
        (fun r => (r.exit, r.chunks.length,
          r.chunks.map (fun c => (c.dispatched.length, c.collected.length)))) =
      some (2, 1, [(1, 0)]) ∧
    (2 + 1 - 1) / 1 = 2 := by
  decide

/-- C14, amended: for every `cores >= 1` and every `n >= 1` sequence arguments, the run
(any admissible schedule) ends after at most `ceil(n / cores)` chunks. Chunk `j` starts at
argument position `1 + j * cores` and its workers get the sequence arguments
`j * cores, ..., j * cores + cores - 1` that exist, in order; it has between 1 and `cores`
items, exactly `cores` unless it is the last of the `ceil(n / cores)`, and the number of
results collected in it is at most the number of workers dispatched, which is at most the
channel capacity `cores`. When all arguments have a reverse complement, the run ends with
exit code 0 after `ceil(n / cores)` chunks, which partition the argument list in order,
and in each chunk the number of results collected equals the number of workers
dispatched. When an argument has no reverse complement, the run ends with exit code 2 in
chunk `k`, the first chunk that holds such an argument: every chunk before it has
collected as many results as workers were dispatched, and in chunk `k` no result is
collected. -/
theorem C14_chunks_partition_arguments (u : Unicode) (σ : Schedule) (cores : Nat)
    (prog : GoString) (seqs : List GoString) (fuel : Nat) (hcores : 1 ≤ cores)
    (hne : seqs ≠ []) (hσ : σ.Admissible) (hfuel : (prog :: seqs).length ≤ fuel) :
    ∃ r, main u σ cores (prog :: seqs) fuel = some r ∧
      r.chunks.length ≤ (seqs.length + cores - 1) / cores ∧
      (∀ j c, r.chunks[j]? = some c →
        c.start = 1 + j * cores ∧
        c.dispatched.map (fun it => it.seq) = (seqs.drop (j * cores)).take cores ∧
        1 ≤ c.dispatched.length ∧ c.dispatched.length ≤ cores ∧
        (j + 1 < (seqs.length + cores - 1) / cores → c.dispatched.length = cores) ∧
        c.collected.length ≤ c.dispatched.length ∧ c.collected.length ≤ cores) ∧
      ((∀ s ∈ seqs, isValid u s = true) →
        r.exit = 0 ∧
        r.chunks.length = (seqs.length + cores - 1) / cores ∧
        r.chunks.flatMap (fun c => c.dispatched.map (fun it => it.seq)) = seqs ∧
        ∀ c ∈ r.chunks, c.collected.length = c.dispatched.length) ∧
      ((∃ s ∈ seqs, isValid u s = false) →
        r.exit = 2 ∧
        ∃ k, r.chunks.length = k + 1 ∧
          (∀ s ∈ seqs.take (k * cores), isValid u s = true) ∧
          (∃ s ∈ (seqs.drop (k * cores)).take cores, isValid u s = false) ∧
          ∀ j c, r.chunks[j]? = some c →
            (j < k → c.collected.length = c.dispatched.length) ∧
            (j = k → c.collected = [])) := by
  have hceil := ceil_mul_ge seqs.length cores hcores
  by_cases hv : ∀ s ∈ seqs, isValid u s = true
  · refine ⟨_, main_valid_log u σ cores prog seqs fuel hcores hne hσ hv hfuel, by simp,
      ?_, ?_, ?_⟩
    · intro j c h
      obtain ⟨hj, rfl⟩ := getElem?_range_map _ _ j c h
      have h1 : (j + 1) * cores ≤ (seqs.length + cores - 1) / cores * cores :=
        Nat.mul_le_mul_right cores hj
      rw [Nat.succ_mul] at h1
      obtain ⟨s1, s2, s3, s4⟩ := dispatched_shape cores prog seqs j hcores (by omega)
      have hcol : (chunkAt u σ cores (prog :: seqs) (1 + j * cores)).collected.length =
          (dispatchLoop (prog :: seqs) (1 + j * cores) cores 0).length :=
        (chunkAt_printed u σ cores (prog :: seqs) (1 + j * cores) hσ).2
      exact ⟨rfl, s1, s2, s3, s4, Nat.le_of_eq hcol, by rw [hcol]; exact s3⟩
    · intro _
      refine ⟨rfl, by simp, ?_, ?_⟩
      · show ((List.range ((seqs.length + cores - 1) / cores)).map
            (fun j => chunkAt u σ cores (prog :: seqs) (1 + j * cores))).flatMap
            (fun c => c.dispatched.map (fun it => it.seq)) = seqs
        have h := congrArg (List.map (fun it : indexedSequence => it.seq))
          (log_dispatched u σ cores prog seqs ((seqs.length + cores - 1) / cores) hceil.1)
        rw [List.map_flatMap, List.map_map] at h
        rw [h]
        exact (range_map_getD (fun s => s) seqs).trans (List.map_id seqs)
      · intro c hc
        obtain ⟨j, _, rfl⟩ := List.mem_map.mp hc
        exact (chunkAt_printed u σ cores (prog :: seqs) (1 + j * cores) hσ).2
    · intro hbad
      obtain ⟨s, hs, hsbad⟩ := hbad
      rw [hv s hs] at hsbad
      exact Bool.noConfusion hsbad
  · have hbad : ∃ s ∈ seqs, isValid u s = false := by
      by_contra hno
      apply hv
      intro s hs
      cases hval : isValid u s with
      | true => rfl
      | false => exact absurd ⟨s, hs, hval⟩ hno
    obtain ⟨k, hbefore, hchunk⟩ := first_bad_chunk u cores seqs hcores hbad
    obtain ⟨errs, hrun, hklt⟩ :=
      main_fail_log u σ cores prog seqs k fuel hcores hσ hbefore hchunk hfuel
    have hkceil : k < (seqs.length + cores - 1) / cores := by
      apply Nat.lt_of_mul_lt_mul_right (a := cores)
      omega
    refine ⟨_, hrun, ?_, ?_, ?_, ?_⟩
    · show ((List.range k).map
          (fun j => chunkAt u σ cores (prog :: seqs) (1 + j * cores)) ++ [_]).length ≤ _
      rw [List.length_append, List.length_map, List.length_range, List.length_singleton]
      omega
    · intro j c h
      rcases getElem?_range_map_snoc _ k j _ c h with ⟨hj, rfl⟩ | ⟨rfl, rfl⟩
      · have h1 : (j + 1) * cores ≤ k * cores := Nat.mul_le_mul_right cores hj
        rw [Nat.succ_mul] at h1
        obtain ⟨s1, s2, s3, s4⟩ := dispatched_shape cores prog seqs j hcores (by omega)
        have hcol : (chunkAt u σ cores (prog :: seqs) (1 + j * cores)).collected.length =
            (dispatchLoop (prog :: seqs) (1 + j * cores) cores 0).length :=
          (chunkAt_printed u σ cores (prog :: seqs) (1 + j * cores) hσ).2
        exact ⟨rfl, s1, s2, s3, s4, Nat.le_of_eq hcol, by rw [hcol]; exact s3⟩
      · obtain ⟨s1, s2, s3, s4⟩ := dispatched_shape cores prog seqs j hcores hklt
        exact ⟨rfl, s1, s2, s3, s4, Nat.zero_le _, Nat.zero_le _⟩
    · intro hall
      exact absurd hall hv
    · intro _
      refine ⟨rfl, k, by simp, hbefore, hchunk, ?_⟩
      intro j c h
      rcases getElem?_range_map_snoc _ k j _ c h with ⟨hj, rfl⟩ | ⟨rfl, rfl⟩
      · exact ⟨fun _ => (chunkAt_printed u σ cores (prog :: seqs) (1 + j * cores) hσ).2,
          fun hjk => absurd hjk (by omega)⟩
      · exact ⟨fun hjj => absurd hjj (by omega), fun _ => rfl⟩

/-- C14 amended, on two cores: for the sequences "ACGT", "gattaca" and " NNWS " two chunks,
the first of two workers and the second of one, each with all its results collected; for
"ACGT", "gattaca", "AXCYG" and "NNWS" the run ends in the second chunk, which has two
workers and no result collected. -/
theorem C14_chunks_partition_arguments_witness :
    (1 ≤ 2 ∧ [str "ACGT", str "gattaca", str " NNWS "] ≠ [] ∧ Schedule.backwards.Admissible ∧
      (str "revcomp" :: [str "ACGT", str "gattaca", str " NNWS "]).length ≤ 4) ∧
    (∃ r, main (Unicode.std noCase) Schedule.backwards 2
          (str "revcomp" :: [str "ACGT", str "gattaca", str " NNWS "]) 4 = some r ∧
        r.chunks.length ≤ ([str "ACGT", str "gattaca", str " NNWS "].length + 2 - 1) / 2 ∧
        (∀ j c, r.chunks[j]? = some c →
          c.start = 1 + j * 2 ∧
          c.dispatched.map (fun it => it.seq) =
            ([str "ACGT", str "gattaca", str " NNWS "].drop (j * 2)).take 2 ∧
          1 ≤ c.dispatched.length ∧ c.dispatched.length ≤ 2 ∧
          (j + 1 < ([str "ACGT", str "gattaca", str " NNWS "].length + 2 - 1) / 2 →
            c.dispatched.length = 2) ∧
          c.collected.length ≤ c.dispatched.length ∧ c.collected.length ≤ 2) ∧
        ((∀ s ∈ [str "ACGT", str "gattaca", str " NNWS "],
            isValid (Unicode.std noCase) s = true) →
          r.exit = 0 ∧
          r.chunks.length = ([str "ACGT", str "gattaca", str " NNWS "].length + 2 - 1) / 2 ∧
          r.chunks.flatMap (fun c => c.dispatched.map (fun it => it.seq)) =
            [str "ACGT", str "gattaca", str " NNWS "] ∧
          ∀ c ∈ r.chunks, c.collected.length = c.dispatched.length) ∧
        ((∃ s ∈ [str "ACGT", str "gattaca", str " NNWS "],
            isValid (Unicode.std noCase) s = false) →
          r.exit = 2 ∧
          ∃ k, r.chunks.length = k + 1 ∧
            (∀ s ∈ [str "ACGT", str "gattaca", str " NNWS "].take (k * 2),
              isValid (Unicode.std noCase) s = true) ∧
            (∃ s ∈ ([str "ACGT", str "gattaca", str " NNWS "].drop (k * 2)).take 2,
              isValid (Unicode.std noCase) s = false) ∧
            ∀ j c, r.chunks[j]? = some c →
              (j < k → c.collected.length = c.dispatched.length) ∧
              (j = k → c.collected = []))) ∧
    (∀ s ∈ [str "ACGT", str "gattaca", str " NNWS "],
      isValid (Unicode.std noCase) s = true) ∧
    (main (Unicode.std noCase) Schedule.backwards 2
        (str "revcomp" :: [str "ACGT", str "gattaca", str " NNWS "]) 4).map
      (fun r => (r.exit,
        r.chunks.map (fun c => (c.start, c.dispatched.length, c.collected.length)))) =
        some (0, [(1, 2, 2), (3, 1, 1)]) ∧
    (∃ s ∈ [str "ACGT", str "gattaca", str "AXCYG", str "NNWS"],
      isValid (Unicode.std noCase) s = false) ∧
    (main (Unicode.std noCase) Schedule.backwards 2
        (str "revcomp" :: [str "ACGT", str "gattaca", str "AXCYG", str "NNWS"]) 5).map
      (fun r => (r.exit,
        r.chunks.map (fun c => (c.start, c.dispatched.length, c.collected.length)))) =
        some (2, [(1, 2, 2), (3, 2, 0)]) :=
  ⟨⟨by decide, by decide, backwards_admissible, by decide⟩,
   C14_chunks_partition_arguments (Unicode.std noCase) Schedule.backwards 2 (str "revcomp")
     [str "ACGT", str "gattaca", str " NNWS "] 4 (by decide) (by decide)
     backwards_admissible (by decide),
   by decide, by decide, ⟨str "AXCYG", by decide, by decide⟩, by decide⟩

/-- C15: `ReverseComplement` changes only the sequence field of the indexed sequence it is
given. Every call ends in one of two ways. On success (no exit) it sends exactly one item
on the results channel, that item is the indexed sequence it was given with the sequence
field set to the reverse complement, and its index is the index the item was created
with. On failure (exit code 2) it sends nothing and leaves the indexed sequence, sequence
field included, as it was. -/
theorem C15_only_sequence_field_changes (u : Unicode) (idx : Nat) (seq : GoString) :
    ((ReverseComplement u (newIndexedSequence idx seq) compMap).exit = none ∧
      (ReverseComplement u (newIndexedSequence idx seq) compMap).sent =
        [(ReverseComplement u (newIndexedSequence idx seq) compMap).sequence] ∧
      (ReverseComplement u (newIndexedSequence idx seq) compMap).sequence =
        { idx := idx, seq := revComp (normalise u seq) } ∧
      ((ReverseComplement u (newIndexedSequence idx seq) compMap).sent.map
        (fun it => it.idx)) = [idx]) ∨
    ((ReverseComplement u (newIndexedSequence idx seq) compMap).exit = some 2 ∧
      (ReverseComplement u (newIndexedSequence idx seq) compMap).sent = [] ∧
      (ReverseComplement u (newIndexedSequence idx seq) compMap).sequence =
        { idx := idx, seq := seq }) := by
  rcases ReverseComplement_cases u (newIndexedSequence idx seq) with
    ⟨_, hrun⟩ | ⟨_, _, _, _, _, _, hrun⟩
  · left
    rw [hrun]
    exact ⟨rfl, rfl, rfl, rfl⟩
  · right
    rw [hrun]
    exact ⟨rfl, rfl, rfl⟩


/-- C16: termination. With `cores >= 1` (and an admissible schedule) the run of `main` on
any argument list ends within `len(args)` iterations of the chunk loop: iteration `j`
starts at position `1 + j * cores`, which is below `len(args)`, so the start position
grows by `cores` each time and there are at most `ceil((len(args) - 1) / cores)`
iterations. And the reverse iteration of a worker over a string of length `L` ends, with
the complement string or with the character that has no entry, after at most `L` lookups
in the complement table: exactly `L` when every lookup succeeds, at least one when one
fails. -/
theorem C16_loops_terminate (u : Unicode) (σ : Schedule) (cores : Nat)
    (args : List GoString) (fuel : Nat) (hcores : 1 ≤ cores) (hσ : σ.Admissible)
    (hfuel : args.length ≤ fuel) :
    (∃ r, main u σ cores args fuel = some r ∧
      (∀ j c, r.chunks[j]? = some c → c.start = 1 + j * cores ∧ c.start < args.length) ∧
      r.chunks.length ≤ (args.length - 1 + cores - 1) / cores) ∧
    ∀ s : GoString, lookupCount compMap s s.length ≤ s.length ∧
      ((∃ out, complementLoop compMap s s.length [] = Except.ok out ∧
          lookupCount compMap s s.length = s.length) ∨
        (∃ c, complementLoop compMap s s.length [] = Except.error c ∧
          1 ≤ lookupCount compMap s s.length)) :=
  ⟨main_total u σ cores args fuel hcores hσ hfuel,
   fun s => ⟨lookupCount_le compMap s s.length, lookupCount_loop compMap s s.length []⟩⟩

/-- C16, on two cores for the sequences "ACGT", "AXCYG" and "NNWS": the run ends in the
first chunk, and the worker on "AXCYG" stops after two lookups. -/
theorem C16_loops_terminate_witness :
    (1 ≤ 2 ∧ Schedule.inOrder.Admissible ∧
      [str "revcomp", str "ACGT", str "AXCYG", str "NNWS"].length ≤ 4) ∧
    ((∃ r, main (Unicode.std noCase) Schedule.inOrder 2
          [str "revcomp", str "ACGT", str "AXCYG", str "NNWS"] 4 = some r ∧
        (∀ j c, r.chunks[j]? = some c → c.start = 1 + j * 2 ∧
          c.start < [str "revcomp", str "ACGT", str "AXCYG", str "NNWS"].length) ∧
        r.chunks.length ≤
          ([str "revcomp", str "ACGT", str "AXCYG", str "NNWS"].length - 1 + 2 - 1) / 2) ∧
      ∀ s : GoString, lookupCount compMap s s.length ≤ s.length ∧
        ((∃ out, complementLoop compMap s s.length [] = Except.ok out ∧
            lookupCount compMap s s.length = s.length) ∨
          (∃ c, complementLoop compMap s s.length [] = Except.error c ∧
            1 ≤ lookupCount compMap s s.length))) ∧
    (main (Unicode.std noCase) Schedule.inOrder 2
        [str "revcomp", str "ACGT", str "AXCYG", str "NNWS"] 4).map
      (fun r => (r.exit, r.chunks.map (fun c => c.start))) = some (2, [1]) ∧
    lookupCount compMap (str "AXCYG") (str "AXCYG").length = 2 ∧
    lookupCount compMap (str "ACGT") (str "ACGT").length = 4 :=
  ⟨⟨by decide, inOrder_admissible, by decide⟩,
   C16_loops_terminate (Unicode.std noCase) Schedule.inOrder 2
     [str "revcomp", str "ACGT", str "AXCYG", str "NNWS"] 4 (by decide) inOrder_admissible
     (by decide),
   by decide, by decide, by decide⟩

/-- C17: when `ReverseComplement` succeeds on a sequence (whatever its letter case and its
leading and trailing whitespace), it succeeds again on the indexed sequence it leaves, and
the second output is the normalised form of the first input: the input in upper case,
trimmed. -/
theorem C17_second_pass_gives_normalised (u : Unicode) (sequence : indexedSequence)
    (h : (ReverseComplement u sequence compMap).exit = none) :
    ReverseComplement u (ReverseComplement u sequence compMap).sequence compMap =
      { sequence := { sequence with seq := normalise u sequence.seq },
        stdout := [], stderr := [],
        sent := [{ sequence with seq := normalise u sequence.seq }],
        done := true, exit := none } := by
  obtain ⟨ht, hrun⟩ := ReverseComplement_of_success u sequence h
  have ht2 := revComp_mem_table _ ht
  have hn : normalise u (revComp (normalise u sequence.seq)) =
      revComp (normalise u sequence.seq) := normalise_table u _ ht2
  have hsecond := ReverseComplement_ok u
    { sequence with seq := revComp (normalise u sequence.seq) }
    (fun b hb => (mem_table_iff b).mp (by
      have hb2 : b ∈ normalise u (revComp (normalise u sequence.seq)) := hb
      rw [hn] at hb2
      exact ht2 b hb2))
  rw [hrun]
  rw [hsecond]
  show ({ sequence := { idx := sequence.idx,
                        seq := revComp (normalise u (revComp (normalise u sequence.seq))) },
          stdout := [], stderr := [],
          sent := [{ idx := sequence.idx,
                     seq := revComp (normalise u (revComp (normalise u sequence.seq))) }],
          done := true, exit := none } : WorkerRun) = _
  rw [hn, revComp_revComp _ ht]

/-- C17, at the sequence " gattaca ": the first output is "TGTAATC" and the second is
"GATTACA". -/
theorem C17_second_pass_gives_normalised_witness :
    (ReverseComplement (Unicode.std noCase) (newIndexedSequence 1 (str " gattaca "))
        compMap).exit = none ∧
    ReverseComplement (Unicode.std noCase)
        (ReverseComplement (Unicode.std noCase) (newIndexedSequence 1 (str " gattaca "))
          compMap).sequence compMap =
      { sequence := { newIndexedSequence 1 (str " gattaca ") with
                      seq := normalise (Unicode.std noCase)
                        (newIndexedSequence 1 (str " gattaca ")).seq },
        stdout := [], stderr := [],
        sent := [{ newIndexedSequence 1 (str " gattaca ") with
                   seq := normalise (Unicode.std noCase)
                     (newIndexedSequence 1 (str " gattaca ")).seq }],
        done := true, exit := none } ∧
    (ReverseComplement (Unicode.std noCase) (newIndexedSequence 1 (str " gattaca "))
        compMap).sequence = newIndexedSequence 1 (str "TGTAATC") ∧
    (ReverseComplement (Unicode.std noCase) (newIndexedSequence 1 (str "TGTAATC"))
        compMap).sequence = newIndexedSequence 1 (str "GATTACA") :=
  ⟨by decide,
   C17_second_pass_gives_normalised (Unicode.std noCase)
     (newIndexedSequence 1 (str " gattaca ")) (by decide),
   by decide, by decide⟩

/-- C18: only leading and trailing whitespace is removed. When the normalised form of a
sequence still contains a whitespace character (the UTF-8 encoding of a rune for which
`unicode.IsSpace` holds), as it does when the whitespace stands between two characters
that are not whitespace, `ReverseComplement` does not skip it: it ends in `os.Exit(2)`,
after a message that names a character without entry in the complement table, sends
nothing and leaves the sequence as it was. -/
theorem C18_inner_whitespace_fails (u : Unicode) (sequence : indexedSequence) (w : Nat)
    (pre post : GoString) (hw : IsSpace w = true)
    (hsplit : normalise u sequence.seq = pre ++ AppendRune w ++ post) :
    ∃ c, compMap.lookup [c] = none ∧
      ReverseComplement u sequence compMap =
        { sequence := sequence, stdout := [noComplementMessage ++ [c]], stderr := [],
          sent := [], done := false, exit := some 2 } := by
  obtain ⟨b, rest, henc, hb⟩ := space_byte_missing w hw
  have hmem : b ∈ normalise u sequence.seq := by
    rw [hsplit, henc]
    simp
  obtain ⟨_, c, _, _, hc, _, hrun⟩ := ReverseComplement_of_missing u sequence b hmem hb
  exact ⟨c, hc, hrun⟩

/-- C18, at the sequence "AC GT": the normalised form is "AC GT" itself, and the run ends
in exit code 2 with a message that names the space. -/
theorem C18_inner_whitespace_fails_witness :
    (IsSpace 32 = true ∧
      normalise (Unicode.std noCase) (newIndexedSequence 1 (str "AC GT")).seq =
        str "AC" ++ AppendRune 32 ++ str "GT") ∧
    (∃ c, compMap.lookup [c] = none ∧
      ReverseComplement (Unicode.std noCase) (newIndexedSequence 1 (str "AC GT")) compMap =
        { sequence := newIndexedSequence 1 (str "AC GT"),
          stdout := [noComplementMessage ++ [c]], stderr := [],
          sent := [], done := false, exit := some 2 }) ∧
    ReverseComplement (Unicode.std noCase) (newIndexedSequence 1 (str "AC GT")) compMap =
      { sequence := newIndexedSequence 1 (str "AC GT"),
        stdout := [str "Error: No complementary nucleotide for character  "], stderr := [],
        sent := [], done := false, exit := some 2 } :=
  ⟨⟨by decide, by decide⟩,
   C18_inner_whitespace_fails (Unicode.std noCase) (newIndexedSequence 1 (str "AC GT")) 32
     (str "AC") (str "GT") (by decide) (by decide),
   by decide⟩

/-- C19: when `ReverseComplement` fails (exit code 2), the character named in its one
message is the last character of the normalised sequence that has no entry in the
complement table: the normalised sequence splits into a part before it, the character
itself, and a part after it in which every character has an entry. The characters are the
one-byte substrings `s[i:i+1]` that the scan looks up. -/
theorem C19_message_names_last_missing (u : Unicode) (sequence : indexedSequence)
    (h : (ReverseComplement u sequence compMap).exit = some 2) :
    ∃ pre c post, normalise u sequence.seq = pre ++ c :: post ∧
      compMap.lookup [c] = none ∧
      (∀ x ∈ post, (compMap.lookup [x]).isSome = true) ∧
      (ReverseComplement u sequence compMap).stdout = [noComplementMessage ++ [c]] := by
  rcases ReverseComplement_cases u sequence with ⟨_, hrun⟩ | ⟨pre, c, post, h1, h2, h3, hrun⟩
  · rw [hrun] at h
    exact Option.noConfusion h
  · exact ⟨pre, c, post, h1, h2, h3, by rw [hrun]⟩

/-- C19, at the sequence "AXCYG": the character reported is Y, not X. -/
theorem C19_message_names_last_missing_witness :
    (ReverseComplement (Unicode.std noCase) (newIndexedSequence 1 (str "AXCYG"))
        compMap).exit = some 2 ∧
    (∃ pre c post,
      normalise (Unicode.std noCase) (newIndexedSequence 1 (str "AXCYG")).seq =
        pre ++ c :: post ∧
      compMap.lookup [c] = none ∧
      (∀ x ∈ post, (compMap.lookup [x]).isSome = true) ∧
      (ReverseComplement (Unicode.std noCase) (newIndexedSequence 1 (str "AXCYG"))
        compMap).stdout = [noComplementMessage ++ [c]]) ∧
    (ReverseComplement (Unicode.std noCase) (newIndexedSequence 1 (str "AXCYG"))
        compMap).stdout = [str "Error: No complementary nucleotide for character Y"] :=
  ⟨by decide,
   C19_message_names_last_missing (Unicode.std noCase) (newIndexedSequence 1 (str "AXCYG"))
     (by decide),
   by decide⟩


end Revcomp
